import Mathlib

/-!
Shallow embedding of the `algebraic-reconciler` repository (value.py, node.py,
command.py, cset.py, csequence.py, session.py) and proofs about the claims of
its specification.

Python objects are modelled as Lean structures; Python lists as `List`;
command sequences (`CSequence`, a linked list of `Command` objects) as
`List Command`; command sets (`CSet`, a Python `set` of commands) as
`List Command` compared up to membership.  Mutable per-node flags used by the
algorithms (`index`, `delete_conflicts_down`, ...) rely on the Session
invariant that a path is represented by a single `Node` object, so they are
modelled as functions keyed by the node's path.  The heapsort used by the
ordering helpers is driven by comparators that break all relevant ties
explicitly (`order_by_node` adds an insertion-index tie-break, and
`order_by_node_value` only leaves ties between structurally equal commands),
so its output, as a list of command values, is exactly the stable sort by the
corresponding key; it is modelled by `List.insertionSort`, which is stable.
-/

namespace AlgRec

/-- `Value` from value.py: a filesystem value with a type tag and contents.
The tags are the source constants `T_EMPTY = 100`, `T_FILE = 101`,
`T_DIR = 102`. -/
structure Value where
  type_ : Nat
  contents : String
deriving DecidableEq, Repr

namespace Value

def T_EMPTY : Nat := 100
def T_FILE : Nat := 101
def T_DIR : Nat := 102

/-- `Value.is_empty` -/
def is_empty (v : Value) : Bool := v.type_ == T_EMPTY

/-- `Value.is_file` -/
def is_file (v : Value) : Bool := v.type_ == T_FILE

/-- `Value.is_dir` -/
def is_dir (v : Value) : Bool := v.type_ == T_DIR

/-- `Value.type_eq` -/
def type_eq (a b : Value) : Bool := a.type_ == b.type_

/-- `Value.type_less` -/
def type_less (a b : Value) : Bool := a.type_ < b.type_

/-- `Value.type_less_eq` -/
def type_less_eq (a b : Value) : Bool := a.type_ ≤ b.type_

/-- `Value.type_greater` -/
def type_greater (a b : Value) : Bool := b.type_ < a.type_

/-- `Value.type_greater_eq` -/
def type_greater_eq (a b : Value) : Bool := b.type_ ≤ a.type_

/-- `Value.equals` -/
def equals (a b : Value) : Bool := a.type_ == b.type_ && a.contents == b.contents

/-- Modelled from the spec: `Value.comp` is called by
`CSequence.order_by_node_value` (csequence.py lines 130-132) but its
definition is missing from src/value.py.  Spec 4.1: "`comp` (total order on
(kind, contents))", with the type order Empty < File < Directory realised by
the numeric tags, and contents an opaque comparable token (a string, compared
as Python compares strings, i.e. lexicographically).  Returns -1/0/1 like
`Node.comp`. -/
def comp (a b : Value) : Int :=
  if a.type_ < b.type_ then -1
  else if b.type_ < a.type_ then 1
  else if a.contents < b.contents then -1
  else if b.contents < a.contents then 1
  else 0

end Value

/-- `Node` from node.py: a filesystem path, a list of name strings.  The
mutable flags that the source stores on the node object are modelled
separately, keyed by `path` (see the file comment). -/
structure Node where
  path : List String
deriving DecidableEq, Repr

/-- Python list comparison (`self.path < other.path`) on paths: elementwise
by string order, a strict prefix compares less. -/
def pathLt : List String → List String → Bool
  | [], [] => false
  | [], _ :: _ => true
  | _ :: _, [] => false
  | a :: as, b :: bs => if a = b then pathLt as bs else decide (a < b)

namespace Node

/-- `Node.comp`: -1/0/1 following lexicographic order. -/
def comp (a b : Node) : Int :=
  if a.path = b.path then 0
  else if pathLt a.path b.path then -1
  else 1

/-- `Node.equals` -/
def equals (a b : Node) : Bool := a.comp b == 0

/-- `Node.is_ancestor_of`: strictly shorter path that is a prefix of the
other's path. -/
def is_ancestor_of (a b : Node) : Bool :=
  if b.path.length ≤ a.path.length then false
  else a.path == b.path.take a.path.length

/-- `Node.is_descendant_of` -/
def is_descendant_of (a b : Node) : Bool := b.is_ancestor_of a

/-- `Node.is_parent_of`: `self.path == other.path[0:-1]`. -/
def is_parent_of (a b : Node) : Bool := a.path == b.path.dropLast

/-- `Node.get_parent` -/
def get_parent (a : Node) : Node := ⟨a.path.dropLast⟩

/-- `Node.is_less` -/
def is_less (a b : Node) : Bool := a.comp b == -1

/-- `Node.is_greater` -/
def is_greater (a b : Node) : Bool := a.comp b == 1

end Node

/-- `Command` from command.py: a node together with an input (`before`) and
an output (`after`) value.  The transient `prev`/`next`/`up`/`order`/`delete`
fields are scratch state of individual algorithms and are modelled at their
use sites. -/
structure Command where
  node : Node
  before : Value
  after : Value
deriving DecidableEq, Repr

namespace Command

/-- `Command.equals` -/
def equals (a b : Command) : Bool :=
  a.node.equals b.node && a.before.equals b.before && a.after.equals b.after

/-- `Command.is_null` -/
def is_null (c : Command) : Bool := c.before.equals c.after

/-- `Command.is_constructor` -/
def is_constructor (c : Command) : Bool := c.after.type_greater c.before

/-- `Command.is_destructor` -/
def is_destructor (c : Command) : Bool := c.after.type_less c.before

/-- `Command.is_constructor_pair_with_next` -/
def is_constructor_pair_with_next (c other : Command) : Bool :=
  c.is_constructor && c.after.is_dir && other.is_constructor &&
    other.before.is_empty && c.node.is_parent_of other.node

/-- `Command.is_destructor_pair_with_next` -/
def is_destructor_pair_with_next (c other : Command) : Bool :=
  c.is_destructor && c.after.is_empty && other.is_destructor &&
    other.before.is_dir && other.node.is_parent_of c.node

end Command

/-! ### Basic lemmas about the data model -/

theorem value_equals_iff (a b : Value) : a.equals b = true ↔ a = b := by
  cases a; cases b
  simp [Value.equals, Value.mk.injEq]

theorem node_equals_iff (a b : Node) : a.equals b = true ↔ a = b := by
  cases a; cases b
  simp only [Node.equals, Node.comp, Node.mk.injEq]
  split
  · simp_all
  · split <;> simp_all

theorem command_equals_iff (a b : Command) : a.equals b = true ↔ a = b := by
  cases a; cases b
  simp [Command.equals, node_equals_iff, value_equals_iff, Command.mk.injEq]
  tauto

/-! ### The path order (Python list comparison) -/

theorem pathLt_irrefl (a : List String) : pathLt a a = false := by
  induction a with
  | nil => rfl
  | cons x xs ih => simp [pathLt, ih]

theorem pathLt_asymm {a b : List String} (h : pathLt a b = true) :
    pathLt b a = false := by
  induction a generalizing b with
  | nil =>
    cases b with
    | nil => simp [pathLt] at h
    | cons y ys => simp [pathLt]
  | cons x xs ih =>
    cases b with
    | nil => simp [pathLt] at h
    | cons y ys =>
      by_cases hxy : x = y
      · subst hxy
        simp only [pathLt, if_pos rfl] at h ⊢
        exact ih h
      · simp only [pathLt, if_neg hxy] at h
        have hyx : ¬ (y = x) := fun hh => hxy hh.symm
        simp only [pathLt, if_neg hyx, decide_eq_false_iff_not]
        exact lt_asymm (by simpa using h)

theorem pathLt_trans {a b c : List String} (h1 : pathLt a b = true)
    (h2 : pathLt b c = true) : pathLt a c = true := by
  induction a generalizing b c with
  | nil =>
    cases b with
    | nil => simp [pathLt] at h1
    | cons y ys =>
      cases c with
      | nil => simp [pathLt] at h2
      | cons z zs => simp [pathLt]
  | cons x xs ih =>
    cases b with
    | nil => simp [pathLt] at h1
    | cons y ys =>
      cases c with
      | nil => simp [pathLt] at h2
      | cons z zs =>
        by_cases hxy : x = y <;> by_cases hyz : y = z
        · subst hxy; subst hyz
          simp only [pathLt, if_pos rfl] at h1 h2 ⊢
          exact ih h1 h2
        · subst hxy
          simp only [pathLt, if_pos rfl, if_neg hyz] at h1 h2 ⊢
          exact h2
        · subst hyz
          simp only [pathLt, if_pos rfl, if_neg hxy] at h1 h2 ⊢
          exact h1
        · simp only [pathLt, if_neg hxy, if_neg hyz, decide_eq_true_eq] at h1 h2
          have hxz : x < z := lt_trans h1 h2
          have : x ≠ z := ne_of_lt hxz
          simp [pathLt, if_neg this, hxz]

theorem pathLt_antisymm {a b : List String} (h1 : pathLt a b = false)
    (h2 : pathLt b a = false) : a = b := by
  induction a generalizing b with
  | nil =>
    cases b with
    | nil => rfl
    | cons y ys => simp [pathLt] at h1
  | cons x xs ih =>
    cases b with
    | nil => simp [pathLt] at h2
    | cons y ys =>
      by_cases hxy : x = y
      · subst hxy
        simp only [pathLt, if_pos rfl] at h1 h2
        exact congrArg _ (ih h1 h2)
      · have hyx : ¬ (y = x) := fun hh => hxy hh.symm
        simp only [pathLt, if_neg hxy, if_neg hyx, decide_eq_false_iff_not] at h1 h2
        exact absurd (lt_or_gt_of_ne hxy) (by push_neg; exact ⟨h1, h2⟩)

theorem pathLt_of_ne_prefix {p n : List String} (hpre : p <+: n) (hne : p ≠ n) :
    pathLt p n = true := by
  induction p generalizing n with
  | nil =>
    cases n with
    | nil => exact absurd rfl hne
    | cons y ys => rfl
  | cons x xs ih =>
    cases n with
    | nil => exact absurd (List.prefix_nil.mp hpre) (by simp)
    | cons y ys =>
      obtain ⟨hxy, hpre'⟩ := by simpa [List.cons_prefix_cons] using hpre
      subst hxy
      have hne' : xs ≠ ys := fun hh => hne (by rw [hh])
      simp only [pathLt, if_pos rfl]
      exact ih hpre' hne'

/-- The interval property of prefixes in the path order: if `p` is a prefix
of `n` and `m` lies between `p` and `n`, then `p` is a prefix of `m`. -/
theorem prefix_of_between {p m n : List String} (hpre : p <+: n)
    (h1 : pathLt m p = false) (h2 : pathLt n m = false) : p <+: m := by
  induction p generalizing m n with
  | nil => exact List.nil_prefix
  | cons x xs ih =>
    cases n with
    | nil => exact absurd (List.prefix_nil.mp hpre) (by simp)
    | cons y ys =>
      obtain ⟨hxy, hpre'⟩ := by simpa [List.cons_prefix_cons] using hpre
      subst hxy
      cases m with
      | nil => simp [pathLt] at h1
      | cons z zs =>
        by_cases hzx : z = x
        · subst hzx
          simp only [pathLt, if_pos rfl] at h1 h2
          exact (List.cons_prefix_cons).mpr ⟨rfl, ih hpre' h1 h2⟩
        · have hxz : ¬ (x = z) := fun hh => hzx hh.symm
          simp only [pathLt, if_neg hzx, if_neg hxz, decide_eq_false_iff_not] at h1 h2
          exact absurd (lt_or_gt_of_ne hzx) (by push_neg; exact ⟨h1, h2⟩)

/-! ### Characterisations of the node predicates -/

theorem Node.is_ancestor_iff (a b : Node) :
    a.is_ancestor_of b = true ↔ a.path <+: b.path ∧ a.path ≠ b.path := by
  constructor
  · intro h
    simp only [Node.is_ancestor_of] at h
    split at h
    · simp at h
    · rename_i hlen
      push_neg at hlen
      have heq : a.path = b.path.take a.path.length := by simpa using h
      constructor
      · exact heq ▸ List.take_prefix _ _
      · intro hcontra
        rw [hcontra] at hlen
        exact absurd hlen (lt_irrefl _)
  · rintro ⟨hpre, hne⟩
    have hlen : a.path.length < b.path.length := by
      rcases lt_or_eq_of_le (List.IsPrefix.length_le hpre) with h | h
      · exact h
      · exact absurd (List.IsPrefix.eq_of_length hpre h) hne
    simp only [Node.is_ancestor_of, if_neg (not_le_of_lt hlen)]
    simpa using (List.prefix_iff_eq_take.mp hpre)

theorem Node.is_parent_iff (a b : Node) :
    a.is_parent_of b = true ↔ a.path = b.path.dropLast := by
  simp [Node.is_parent_of]

/-- An ancestor sorts strictly before its descendants. -/
theorem pathLt_of_ancestor {a b : Node} (h : a.is_ancestor_of b = true) :
    pathLt a.path b.path = true := by
  obtain ⟨hpre, hne⟩ := (Node.is_ancestor_iff a b).mp h
  exact pathLt_of_ne_prefix hpre hne

/-! ### The comparators used by the ordering operations -/

theorem node_comp_eq_zero_iff (a b : Node) : a.comp b = 0 ↔ a = b := by
  cases a; cases b
  simp only [Node.comp, Node.mk.injEq]
  split
  · simp_all
  · split <;> simp_all

theorem node_comp_eq_negone_iff (a b : Node) :
    a.comp b = -1 ↔ pathLt a.path b.path = true := by
  simp only [Node.comp]
  split
  · rename_i h
    rw [h]
    simp [pathLt_irrefl]
  · split <;> simp_all

theorem node_comp_eq_one_iff (a b : Node) :
    a.comp b = 1 ↔ pathLt b.path a.path = true := by
  simp only [Node.comp]
  split_ifs with h1 h2
  · rw [h1]
    simp [pathLt_irrefl]
  · constructor
    · intro h
      exact absurd h (by decide)
    · intro h
      exact absurd (pathLt_asymm h) (by simp [h2])
  · constructor
    · intro _
      rcases Bool.eq_false_or_eq_true (pathLt b.path a.path) with h | h
      · exact h
      · exact absurd (pathLt_antisymm (Bool.eq_false_iff.mpr h2) h) h1
    · intro _
      rfl

theorem value_comp_eq_zero_iff (a b : Value) : a.comp b = 0 ↔ a = b := by
  cases a with | mk t1 c1 =>
  cases b with | mk t2 c2 =>
  simp only [Value.comp, Value.mk.injEq]
  split_ifs with h1 h2 h3 h4
  · constructor
    · intro h; exact absurd h (by decide)
    · rintro ⟨ht, _⟩; omega
  · constructor
    · intro h; exact absurd h (by decide)
    · rintro ⟨ht, _⟩; omega
  · constructor
    · intro h; exact absurd h (by decide)
    · rintro ⟨_, hc⟩; subst hc; exact absurd h3 (lt_irrefl _)
  · constructor
    · intro h; exact absurd h (by decide)
    · rintro ⟨_, hc⟩; subst hc; exact absurd h4 (lt_irrefl _)
  · constructor
    · intro _; exact ⟨by omega, le_antisymm (le_of_not_lt h4) (le_of_not_lt h3)⟩
    · intro _; rfl

theorem value_comp_eq_negone_iff (a b : Value) :
    a.comp b = -1 ↔
      (a.type_ < b.type_ ∨ (a.type_ = b.type_ ∧ a.contents < b.contents)) := by
  simp only [Value.comp]
  split_ifs with h1 h2 h3 h4
  · constructor
    · intro _; exact Or.inl h1
    · intro _; rfl
  · constructor
    · intro h; exact absurd h (by decide)
    · rintro (hc | ⟨he, _⟩)
      · exact absurd hc h1
      · omega
  · constructor
    · intro _; exact Or.inr ⟨by omega, h3⟩
    · intro _; rfl
  · constructor
    · intro h; exact absurd h (by decide)
    · rintro (hc | ⟨_, hc⟩)
      · exact absurd hc h1
      · exact absurd hc h3
  · constructor
    · intro h; exact absurd h (by decide)
    · rintro (hc | ⟨_, hc⟩)
      · exact absurd hc h1
      · exact absurd hc h3

theorem value_comp_eq_one_iff (a b : Value) :
    a.comp b = 1 ↔ b.comp a = -1 := by
  rw [value_comp_eq_negone_iff]
  simp only [Value.comp]
  split_ifs with h1 h2 h3 h4
  · constructor
    · intro h; exact absurd h (by decide)
    · rintro (hc | ⟨he, _⟩)
      · omega
      · omega
  · constructor
    · intro _; exact Or.inl h2
    · intro _; rfl
  · constructor
    · intro h; exact absurd h (by decide)
    · rintro (hc | ⟨_, hc⟩)
      · omega
      · exact absurd hc (lt_asymm h3)
  · constructor
    · intro _; exact Or.inr ⟨by omega, h4⟩
    · intro _; rfl
  · constructor
    · intro h; exact absurd h (by decide)
    · rintro (hc | ⟨_, hc⟩)
      · omega
      · exact absurd hc h4

theorem Node.path_inj {a b : Node} (h : a.path = b.path) : a = b := by
  cases a; cases b; simpa using h

theorem pathLt_trichotomy (a b : List String) :
    pathLt a b = true ∨ a = b ∨ pathLt b a = true := by
  rcases Bool.eq_false_or_eq_true (pathLt a b) with h1 | h1
  · exact Or.inl h1
  · rcases Bool.eq_false_or_eq_true (pathLt b a) with h2 | h2
    · exact Or.inr (Or.inr h2)
    · exact Or.inr (Or.inl (pathLt_antisymm h1 h2))

/-- The strict part of the value order used by `order_by_node_value`:
`Value.comp a b = -1` as a proposition on the (kind, contents) pair. -/
def VLt (x y : Value) : Prop :=
  x.type_ < y.type_ ∨ (x.type_ = y.type_ ∧ x.contents < y.contents)

theorem VLt_irrefl (x : Value) : ¬ VLt x x := by
  rintro (h | ⟨_, h⟩)
  · exact absurd h (lt_irrefl _)
  · exact absurd h (lt_irrefl _)

theorem VLt_trans {x y z : Value} (h1 : VLt x y) (h2 : VLt y z) : VLt x z := by
  rcases h1 with h1 | ⟨he1, h1⟩ <;> rcases h2 with h2 | ⟨he2, h2⟩
  · exact Or.inl (lt_trans h1 h2)
  · exact Or.inl (he2 ▸ h1)
  · exact Or.inl (he1 ▸ h2)
  · exact Or.inr ⟨he1.trans he2, lt_trans h1 h2⟩

theorem VLt_antisymm {x y : Value} (h1 : ¬ VLt x y) (h2 : ¬ VLt y x) : x = y := by
  simp only [VLt, not_or, not_and, not_lt] at h1 h2
  obtain ⟨h1t, h1c⟩ := h1
  obtain ⟨h2t, h2c⟩ := h2
  have ht : x.type_ = y.type_ := le_antisymm h2t h1t
  have hc : x.contents = y.contents := le_antisymm (h2c ht.symm) (h1c ht)
  cases x; cases y
  simp_all

/-- The strict (node, before, after) lexicographic order that the comparator
of `order_by_node_value` realises, as a proposition. -/
def CLt (a b : Command) : Prop :=
  pathLt a.node.path b.node.path = true ∨
    (a.node = b.node ∧
      (VLt a.before b.before ∨ (a.before = b.before ∧ VLt a.after b.after)))

theorem CLt_irrefl (a : Command) : ¬ CLt a a := by
  rintro (h | ⟨_, h | ⟨_, h⟩⟩)
  · simp [pathLt_irrefl] at h
  · exact VLt_irrefl _ h
  · exact VLt_irrefl _ h

theorem CLt_trans {a b c : Command} (h1 : CLt a b) (h2 : CLt b c) : CLt a c := by
  rcases h1 with h1 | ⟨he1, h1⟩ <;> rcases h2 with h2 | ⟨he2, h2⟩
  · exact Or.inl (pathLt_trans h1 h2)
  · exact Or.inl (by rw [← he2]; exact h1)
  · exact Or.inl (by rw [he1]; exact h2)
  · refine Or.inr ⟨he1.trans he2, ?_⟩
    rcases h1 with h1 | ⟨hb1, h1⟩ <;> rcases h2 with h2 | ⟨hb2, h2⟩
    · exact Or.inl (VLt_trans h1 h2)
    · exact Or.inl (hb2 ▸ h1)
    · exact Or.inl (hb1 ▸ h2)
    · exact Or.inr ⟨hb1.trans hb2, VLt_trans h1 h2⟩

theorem CLt_antisymm {a b : Command} (h1 : ¬ CLt a b) (h2 : ¬ CLt b a) : a = b := by
  simp only [CLt, not_or] at h1 h2
  obtain ⟨h1p, h1r⟩ := h1
  obtain ⟨h2p, h2r⟩ := h2
  have hn : a.node = b.node := by
    rcases pathLt_trichotomy a.node.path b.node.path with h | h | h
    · exact absurd h (by simp_all)
    · exact Node.path_inj h
    · exact absurd h (by simp_all)
  rw [not_and] at h1r h2r
  have h1v := h1r hn
  have h2v := h2r hn.symm
  rw [not_or, not_and] at h1v h2v
  have hb : a.before = b.before := VLt_antisymm h1v.1 h2v.1
  have ha : a.after = b.after := VLt_antisymm (h1v.2 hb) (h2v.2 hb.symm)
  cases a; cases b
  simp_all

/-- The comparator of `order_by_node_value` (csequence.py lines 127-132) as a
strict "less than": `cmdLt a b` holds exactly when the comparator orders `a`
strictly before `b` (compare node, then `before`, then `after`). -/
def cmdLt (a b : Command) : Bool :=
  if a.node.comp b.node = -1 then true
  else if a.node.comp b.node = 1 then false
  else if a.before.comp b.before = -1 then true
  else if a.before.comp b.before = 1 then false
  else decide (a.after.comp b.after = -1)

theorem cmdLt_iff {a b : Command} : cmdLt a b = true ↔ CLt a b := by
  have hnode0 : a.node.comp b.node = 0 ↔ a.node = b.node := node_comp_eq_zero_iff a.node b.node
  have hbef0 : a.before.comp b.before = 0 ↔ a.before = b.before :=
    value_comp_eq_zero_iff a.before b.before
  have hntri : a.node.comp b.node = -1 ∨ a.node.comp b.node = 0 ∨ a.node.comp b.node = 1 := by
    unfold Node.comp
    split_ifs <;> simp
  have hbtri : a.before.comp b.before = -1 ∨ a.before.comp b.before = 0 ∨
      a.before.comp b.before = 1 := by
    unfold Value.comp
    split_ifs <;> simp
  simp only [cmdLt, CLt]
  split_ifs with g1 g2 g3 g4
  · simp [(node_comp_eq_negone_iff a.node b.node).mp g1]
  · simp only [false_iff, not_or, not_and]
    constructor
    · intro hlt
      rw [← node_comp_eq_negone_iff] at hlt
      omega
    · intro heq
      rw [← node_comp_eq_zero_iff] at heq
      omega
  · have hne : a.node = b.node := by rw [← hnode0]; omega
    have hv : VLt a.before b.before := by
      have := (value_comp_eq_negone_iff a.before b.before).mp g3
      exact this
    simp only [true_iff]
    exact Or.inr ⟨hne, Or.inl hv⟩
  · have hne : a.node = b.node := by rw [← hnode0]; omega
    simp only [false_iff, not_or, not_and]
    constructor
    · intro hlt
      rw [← node_comp_eq_negone_iff] at hlt
      omega
    · intro _
      constructor
      · intro hv
        simp only [VLt] at hv
        rw [← value_comp_eq_negone_iff] at hv
        omega
      · intro heq
        rw [← hbef0] at heq
        omega
  · have hne : a.node = b.node := by rw [← hnode0]; omega
    have hbe : a.before = b.before := by rw [← hbef0]; omega
    simp only [decide_eq_true_eq, value_comp_eq_negone_iff]
    constructor
    · intro hv
      exact Or.inr ⟨hne, Or.inr ⟨hbe, hv⟩⟩
    · rintro (hlt | ⟨_, hv | ⟨_, hv⟩⟩)
      · rw [← node_comp_eq_negone_iff] at hlt
        omega
      · simp only [VLt] at hv
        rw [← value_comp_eq_negone_iff] at hv
        omega
      · exact hv

theorem cmdLt_eq_false_iff {a b : Command} : cmdLt a b = false ↔ ¬ CLt a b := by
  rw [← cmdLt_iff]
  simp

/-! ### The ordering operations of `CSequence` -/

/-- The `≤` relation by which `order_by_node` sorts: `a` comes no later than
`b` when `b`'s node is not strictly less than `a`'s.  The source sorts with a
heapsort whose comparator breaks ties on equal nodes by the insertion index
(`command.order`), which makes it exactly the stable sort by node; we realise
it with the stable `List.insertionSort`. -/
def nodeSortLe (a b : Command) : Prop := pathLt b.node.path a.node.path = false

instance : DecidableRel nodeSortLe := fun a b =>
  decidable_of_iff (pathLt b.node.path a.node.path = false) Iff.rfl

instance : IsTotal Command nodeSortLe where
  total a b := by
    rcases Bool.eq_false_or_eq_true (pathLt b.node.path a.node.path) with h | h
    · exact Or.inr (pathLt_asymm h)
    · exact Or.inl h

instance : IsTrans Command nodeSortLe where
  trans a b c hab hbc := by
    unfold nodeSortLe at *
    rcases Bool.eq_false_or_eq_true (pathLt c.node.path a.node.path) with h | h
    · rcases pathLt_trichotomy b.node.path c.node.path with hb | hb | hb
      · exact absurd (pathLt_trans hb h) (by simp [hab])
      · rw [hb] at hab
        exact absurd h (by simp [hab])
      · exact absurd hb (by simp [hbc])
    · exact h

/-- `CSequence.order_by_node`: stably sort the commands by node. -/
def order_by_node (l : List Command) : List Command := List.insertionSort nodeSortLe l

/-- The `≤` relation by which `order_by_node_value` sorts: ties are possible
only between structurally equal commands, so the sorted list of command
values is unique and any correct sort realises the source's heapsort. -/
def cmdSortLe (a b : Command) : Prop := cmdLt b a = false

instance : DecidableRel cmdSortLe := fun a b =>
  decidable_of_iff (cmdLt b a = false) Iff.rfl

instance : IsTotal Command cmdSortLe where
  total a b := by
    unfold cmdSortLe
    rcases Bool.eq_false_or_eq_true (cmdLt b a) with h | h
    · refine Or.inr (cmdLt_eq_false_iff.mpr fun hc => ?_)
      exact CLt_irrefl a (CLt_trans hc (cmdLt_iff.mp h))
    · exact Or.inl h

instance : IsTrans Command cmdSortLe where
  trans a b c hab hbc := by
    unfold cmdSortLe at *
    rw [cmdLt_eq_false_iff] at *
    intro hca
    rcases Classical.em (CLt c b) with h | h
    · exact hbc h
    · rcases Classical.em (CLt b c) with h' | h'
      · exact hab (CLt_trans h' hca)
      · rw [CLt_antisymm h' h] at hab
        exact hab hca

/-- `CSequence.order_by_node_value`: sort the commands by (node, before,
after); structurally equal commands end up adjacent. -/
def order_by_node_value (l : List Command) : List Command :=
  List.insertionSort cmdSortLe l

instance : IsTrans Command CLt := ⟨fun _ _ _ => CLt_trans⟩

/-- The de-duplication loop of `from_set_union` (csequence.py lines 188-193):
keep a command unless it equals the previous one. -/
def uniq_adjacent : Option Command → List Command → List Command
  | _, [] => []
  | none, c :: rest => c :: uniq_adjacent (some c) rest
  | some p, c :: rest =>
    if c.equals p then uniq_adjacent (some c) rest
    else c :: uniq_adjacent (some c) rest

/-- `CSequence.from_set_union`: collect all commands of the inputs (`CSet`s
or `CSequence`s, both lists of commands here), order by (node, before,
after) and drop adjacent duplicates. -/
def from_set_union (css : List (List Command)) : List Command :=
  uniq_adjacent none (order_by_node_value css.flatten)

theorem uniq_adjacent_nil (prev : Option Command) : uniq_adjacent prev [] = [] := by
  cases prev <;> rfl

theorem uniq_adjacent_cons_none (c : Command) (rest : List Command) :
    uniq_adjacent none (c :: rest) = c :: uniq_adjacent (some c) rest := rfl

theorem uniq_adjacent_cons_some (p c : Command) (rest : List Command) :
    uniq_adjacent (some p) (c :: rest) =
      if c.equals p then uniq_adjacent (some c) rest
      else c :: uniq_adjacent (some c) rest := rfl

theorem uniq_adjacent_sublist :
    ∀ (prev : Option Command) (l : List Command),
      List.Sublist (uniq_adjacent prev l) l
  | prev, [] => by rw [uniq_adjacent_nil prev]
  | none, c :: rest => by
    rw [uniq_adjacent_cons_none]
    exact (uniq_adjacent_sublist (some c) rest).cons₂ c
  | some p, c :: rest => by
    rw [uniq_adjacent_cons_some]
    by_cases h : c.equals p
    · rw [if_pos h]
      exact (uniq_adjacent_sublist (some c) rest).cons c
    · rw [if_neg h]
      exact (uniq_adjacent_sublist (some c) rest).cons₂ c

theorem mem_uniq_adjacent {x : Command} :
    ∀ (prev : Option Command) (l : List Command),
      x ∈ l → x ∈ uniq_adjacent prev l ∨ prev = some x
  | _, [], h => absurd h (List.not_mem_nil x)
  | none, c :: rest, h => by
    rw [uniq_adjacent_cons_none]
    rcases List.mem_cons.mp h with rfl | h'
    · exact Or.inl (List.mem_cons_self _ _)
    · rcases mem_uniq_adjacent (some c) rest h' with h'' | h''
      · exact Or.inl (List.mem_cons_of_mem _ h'')
      · exact Or.inl (by rw [Option.some_inj.mp h'']; exact List.mem_cons_self _ _)
  | some p, c :: rest, h => by
    rw [uniq_adjacent_cons_some]
    by_cases hc : c.equals p
    · rw [if_pos hc]
      rcases List.mem_cons.mp h with rfl | h'
      · exact Or.inr (by rw [(command_equals_iff _ _).mp hc])
      · rcases mem_uniq_adjacent (some c) rest h' with h'' | h''
        · exact Or.inl h''
        · exact Or.inr (by rw [← (command_equals_iff _ _).mp hc]; exact h'')
    · rw [if_neg hc]
      rcases List.mem_cons.mp h with rfl | h'
      · exact Or.inl (List.mem_cons_self _ _)
      · rcases mem_uniq_adjacent (some c) rest h' with h'' | h''
        · exact Or.inl (List.mem_cons_of_mem _ h'')
        · exact Or.inl (by rw [Option.some_inj.mp h'']; exact List.mem_cons_self _ _)

theorem uniq_adjacent_head_ne (p : Command) :
    ∀ (l : List Command) (y : Command),
      (uniq_adjacent (some p) l).head? = some y → y ≠ p
  | [], y, h => by rw [uniq_adjacent_nil] at h; simp at h
  | c :: rest, y, h => by
    rw [uniq_adjacent_cons_some] at h
    by_cases hc : c.equals p
    · rw [if_pos hc] at h
      have := uniq_adjacent_head_ne c rest y h
      rwa [(command_equals_iff _ _).mp hc] at this
    · rw [if_neg hc] at h
      simp only [List.head?_cons, Option.some_inj] at h
      subst h
      exact fun hco => hc (by rw [hco]; exact (command_equals_iff p p).mpr rfl)

theorem uniq_adjacent_chain_ne :
    ∀ (prev : Option Command) (l : List Command),
      List.Chain' (fun a b => a ≠ b) (uniq_adjacent prev l)
  | prev, [] => by rw [uniq_adjacent_nil prev]; exact List.chain'_nil
  | none, c :: rest => by
    rw [uniq_adjacent_cons_none]
    refine List.chain'_cons'.mpr ⟨?_, uniq_adjacent_chain_ne (some c) rest⟩
    intro y hy
    exact Ne.symm (uniq_adjacent_head_ne c rest y hy)
  | some p, c :: rest => by
    rw [uniq_adjacent_cons_some]
    by_cases hc : c.equals p
    · rw [if_pos hc]
      exact uniq_adjacent_chain_ne (some c) rest
    · rw [if_neg hc]
      refine List.chain'_cons'.mpr ⟨?_, uniq_adjacent_chain_ne (some c) rest⟩
      intro y hy
      exact Ne.symm (uniq_adjacent_head_ne c rest y hy)

theorem chain'_conj {α : Type} {R S : α → α → Prop} {l : List α}
    (h1 : List.Chain' R l) (h2 : List.Chain' S l) :
    List.Chain' (fun a b => R a b ∧ S a b) l := by
  induction l with
  | nil => exact List.chain'_nil
  | cons a l ih =>
    cases l with
    | nil => simp
    | cons b l' =>
      rw [List.chain'_cons] at h1 h2 ⊢
      exact ⟨⟨h1.1, h2.1⟩, ih h1.2 h2.2⟩

theorem from_set_union_pairwise_clt (css : List (List Command)) :
    (from_set_union css).Pairwise CLt := by
  have hs : (order_by_node_value css.flatten).Pairwise cmdSortLe :=
    List.sorted_insertionSort cmdSortLe css.flatten
  have hsub := uniq_adjacent_sublist none (order_by_node_value css.flatten)
  have hP : (from_set_union css).Pairwise cmdSortLe := hs.sublist hsub
  have hchain_le : List.Chain' cmdSortLe (from_set_union css) := hP.chain'
  have hchain_ne : List.Chain' (fun a b => a ≠ b) (from_set_union css) :=
    uniq_adjacent_chain_ne none _
  have hchain : List.Chain' CLt (from_set_union css) := by
    refine (chain'_conj hchain_le hchain_ne).imp ?_
    rintro a b ⟨hle, hne⟩
    rcases Classical.em (CLt a b) with h | h
    · exact h
    · exact absurd (CLt_antisymm h (cmdLt_eq_false_iff.mp hle)) hne
  exact List.chain'_iff_pairwise.mp hchain

theorem mem_from_set_union {c : Command} {css : List (List Command)} :
    c ∈ from_set_union css ↔ ∃ s ∈ css, c ∈ s := by
  constructor
  · intro h
    have h1 : c ∈ order_by_node_value css.flatten :=
      (uniq_adjacent_sublist none _).subset h
    have h2 : c ∈ css.flatten := by
      simpa [order_by_node_value] using h1
    exact List.mem_flatten.mp h2
  · rintro ⟨s, hs, hcs⟩
    have hmem : c ∈ order_by_node_value css.flatten := by
      simp only [order_by_node_value, List.mem_insertionSort]
      exact List.mem_flatten.mpr ⟨s, hs, hcs⟩
    rcases mem_uniq_adjacent none _ hmem with h | h
    · exact h
    · cases h

/-- C1: `from_set_union` returns a sequence ordered lexicographically by
(node, before, after) in which a command appears iff some input contains a
structurally equal command, and no two equal commands appear. -/
theorem from_set_union_ordered_union_dedup (css : List (List Command)) :
    (from_set_union css).Pairwise (fun a b => cmdLt a b = true)
    ∧ (∀ c : Command, c ∈ from_set_union css ↔ ∃ s ∈ css, ∃ c' ∈ s, c'.equals c = true)
    ∧ (from_set_union css).Pairwise (fun a b => a ≠ b) := by
  refine ⟨?_, ?_, ?_⟩
  · exact (from_set_union_pairwise_clt css).imp fun h => cmdLt_iff.mpr h
  · intro c
    rw [mem_from_set_union]
    constructor
    · rintro ⟨s, hs, hc⟩
      exact ⟨s, hs, c, hc, (command_equals_iff c c).mpr rfl⟩
    · rintro ⟨s, hs, c', hc', he⟩
      exact ⟨s, hs, by rwa [(command_equals_iff c' c).mp he] at hc'⟩
  · exact (from_set_union_pairwise_clt css).imp fun h => fun he => CLt_irrefl _ (he ▸ h)

/-! ### Up pointers (`add_up_pointers`) -/

/-- The search loop of `add_up_pointers` (csequence.py lines 146-151): walk
from the previous command along its chain of `up` pointers until a command on
a strict ancestor of `n` (or the end of the chain) is found.  A chain lists a
command's `up` pointer, then the `up` of the `up`, and so on; the result is
the chain suffix starting at the found command. -/
def up_search (n : Node) : List Command → List Command
  | [] => []
  | c :: rest => if c.node.is_ancestor_of n then c :: rest else up_search n rest

/-- Worker of `add_up_pointers`: `chain` is the previous command consed onto
its own up-chain (empty before the first command).  Each command of the input
is paired with its computed up-chain; its `up` pointer is the chain's head. -/
def add_up_aux : List Command → List Command → List (Command × List Command)
  | _, [] => []
  | chain, c :: rest =>
    (c, up_search c.node chain) :: add_up_aux (c :: up_search c.node chain) rest

/-- `CSequence.add_up_pointers`: on a node-sorted sequence, compute for every
command the `up` pointer (the head of the returned chain). -/
def add_up_pointers (l : List Command) : List (Command × List Command) :=
  add_up_aux [] l

/-- The `up` pointer of each processed command. -/
def up_of (p : Command × List Command) : Option Command := p.2.head?

theorem add_up_aux_nil (chain : List Command) : add_up_aux chain [] = [] := by
  cases chain <;> rfl

theorem add_up_aux_cons (chain : List Command) (c : Command) (rest : List Command) :
    add_up_aux chain (c :: rest) =
      (c, up_search c.node chain) :: add_up_aux (c :: up_search c.node chain) rest := by
  cases chain <;> rfl

theorem add_up_aux_fst : ∀ (chain l : List Command),
    (add_up_aux chain l).map Prod.fst = l
  | _, [] => by rw [add_up_aux_nil]; rfl
  | chain, c :: rest => by
    rw [add_up_aux_cons, List.map_cons, add_up_aux_fst]

theorem mem_up_search {d : Command} {n : Node} :
    ∀ {chain : List Command}, d ∈ up_search n chain → d ∈ chain := by
  intro chain
  induction chain with
  | nil => intro h; exact absurd h (List.not_mem_nil d)
  | cons c rest ih =>
    intro h
    simp only [up_search] at h
    split_ifs at h with hc
    · exact h
    · exact List.mem_cons_of_mem _ (ih h)

/-- Dropping the part of the chain that is not an ancestor of `m` does not
change the head found for any `n` at or below `m`'s position, provided every
dropped command that fails to be an ancestor of `m` also fails for `n`. -/
theorem up_search_head_congr {m n : Node} :
    ∀ (chain : List Command),
      (∀ d ∈ chain, d.node.is_ancestor_of m = false → d.node.is_ancestor_of n = false) →
      (up_search n (up_search m chain)).head? = (up_search n chain).head? := by
  intro chain
  induction chain with
  | nil => intro _; rfl
  | cons c rest ih =>
    intro hdrop
    by_cases hcm : c.node.is_ancestor_of m
    · simp only [up_search, if_pos hcm]
    · have hcn : c.node.is_ancestor_of n = false :=
        hdrop c (List.mem_cons_self _ _) (Bool.eq_false_iff.mpr hcm)
      simp only [up_search, if_neg hcm, if_neg (by simp [hcn] : ¬ c.node.is_ancestor_of n = true)]
      exact ih fun d hd => hdrop d (List.mem_cons_of_mem _ hd)

theorem anc_path_congr {x y n : Node} (h : x.path = y.path) :
    x.is_ancestor_of n = y.is_ancestor_of n := by
  simp [Node.is_ancestor_of, h]

/-- The specification of the up pointers, from the claim: for each command,
the nearest preceding command whose node is a strict ancestor.  `pre` is the
reversed prefix of already-seen commands (most recent first). -/
def nearest_up_list (pre : List Command) : List Command → List (Option Command)
  | [] => []
  | c :: rest =>
    pre.find? (fun d => d.node.is_ancestor_of c.node) :: nearest_up_list (c :: pre) rest

theorem add_up_aux_heads :
    ∀ (l pre chain : List Command),
      (∀ d ∈ chain, d ∈ pre) →
      (∀ n : Node, (∀ d ∈ pre, pathLt n.path d.node.path = false) →
        (up_search n chain).head? = pre.find? (fun d => d.node.is_ancestor_of n)) →
      (∀ d ∈ pre, ∀ c ∈ l, pathLt c.node.path d.node.path = false) →
      l.Pairwise nodeSortLe →
      (add_up_aux chain l).map up_of = nearest_up_list pre l
  | [], pre, chain, _, _, _, _ => by rw [add_up_aux_nil]; rfl
  | c :: rest, pre, chain, hmem, hinv, hle, hsort => by
    rw [add_up_aux_cons, List.map_cons, nearest_up_list]
    have hcge : ∀ d ∈ pre, pathLt c.node.path d.node.path = false :=
      fun d hd => hle d hd c (List.mem_cons_self _ _)
    have hhead : up_of (c, up_search c.node chain) =
        pre.find? (fun d => d.node.is_ancestor_of c.node) := hinv c.node hcge
    rw [hhead]
    congr 1
    obtain ⟨hc_rest, hsort'⟩ := List.pairwise_cons.mp hsort
    refine add_up_aux_heads rest (c :: pre) (c :: up_search c.node chain) ?_ ?_ ?_ hsort'
    · intro d hd
      rcases List.mem_cons.mp hd with rfl | hd'
      · exact List.mem_cons_self _ _
      · exact List.mem_cons_of_mem _ (hmem d (mem_up_search hd'))
    · intro n hn
      have hnc : pathLt n.path c.node.path = false := hn c (List.mem_cons_self _ _)
      have hnpre : ∀ d ∈ pre, pathLt n.path d.node.path = false :=
        fun d hd => hn d (List.mem_cons_of_mem _ hd)
      by_cases hanc : c.node.is_ancestor_of n
      · have h1 : up_search n (c :: up_search c.node chain) =
            c :: up_search c.node chain := by
          simp only [up_search, if_pos hanc]
        rw [h1, List.head?_cons, List.find?_cons_of_pos _ (by simpa using hanc)]
      · have hanc' : c.node.is_ancestor_of n = false := Bool.eq_false_iff.mpr hanc
        have h1 : up_search n (c :: up_search c.node chain) =
            up_search n (up_search c.node chain) := by
          simp only [up_search, if_neg hanc]
        have h2 : List.find? (fun d => d.node.is_ancestor_of n) (c :: pre) =
            List.find? (fun d => d.node.is_ancestor_of n) pre := by
          rw [List.find?_cons_of_neg]
          simp [hanc']
        have hdropped : ∀ d ∈ chain, d.node.is_ancestor_of c.node = false →
            d.node.is_ancestor_of n = false := by
          intro d hd hdm
          rcases Bool.eq_false_or_eq_true (d.node.is_ancestor_of n) with hdn | hdn
          · exfalso
            obtain ⟨hpre, hne⟩ := (Node.is_ancestor_iff _ _).mp hdn
            have hdc : pathLt c.node.path d.node.path = false := hcge d (hmem d hd)
            have hdpre : d.node.path <+: c.node.path := prefix_of_between hpre hdc hnc
            rcases Classical.em (d.node.path = c.node.path) with heq | hneq
            · rw [anc_path_congr heq] at hdn
              rw [hdn] at hanc'
              exact Bool.true_eq_false.mp hanc'
            · have : d.node.is_ancestor_of c.node = true :=
                (Node.is_ancestor_iff _ _).mpr ⟨hdpre, hneq⟩
              rw [this] at hdm
              exact Bool.true_eq_false.mp hdm
          · exact hdn
        rw [h1, h2, up_search_head_congr chain hdropped, hinv n hnpre]
    · intro d hd c' hc'
      rcases List.mem_cons.mp hd with rfl | hd'
      · exact hc_rest c' hc'
      · exact hle d hd' c' (List.mem_cons_of_mem _ hc')

/-- C6: on a sequence sorted lexicographically by node, `add_up_pointers`
assigns every command the nearest preceding command whose node is a strict
ancestor of its node (or null when there is none) as its `up` pointer; the
commands themselves are unchanged. -/
theorem add_up_pointers_nearest_preceding_ancestor (l : List Command)
    (h : l.Pairwise nodeSortLe) :
    (add_up_pointers l).map Prod.fst = l
    ∧ (add_up_pointers l).map up_of = nearest_up_list [] l := by
  refine ⟨add_up_aux_fst [] l, ?_⟩
  refine add_up_aux_heads l [] [] ?_ ?_ ?_ h
  · intro d hd
    exact absurd hd (List.not_mem_nil d)
  · intro n _
    rfl
  · intro d hd
    exact absurd hd (List.not_mem_nil d)

/-- Witness for C6 at a concrete sorted sequence. -/
theorem add_up_pointers_nearest_preceding_ancestor_witness :
    ([⟨⟨["a"]⟩, ⟨100, ""⟩, ⟨102, ""⟩⟩, ⟨⟨["a", "b"]⟩, ⟨100, ""⟩, ⟨101, "x"⟩⟩] :
        List Command).Pairwise nodeSortLe
    ∧ ((add_up_pointers [⟨⟨["a"]⟩, ⟨100, ""⟩, ⟨102, ""⟩⟩,
          ⟨⟨["a", "b"]⟩, ⟨100, ""⟩, ⟨101, "x"⟩⟩]).map Prod.fst =
        [⟨⟨["a"]⟩, ⟨100, ""⟩, ⟨102, ""⟩⟩, ⟨⟨["a", "b"]⟩, ⟨100, ""⟩, ⟨101, "x"⟩⟩]
      ∧ (add_up_pointers [⟨⟨["a"]⟩, ⟨100, ""⟩, ⟨102, ""⟩⟩,
          ⟨⟨["a", "b"]⟩, ⟨100, ""⟩, ⟨101, "x"⟩⟩]).map up_of =
        nearest_up_list [] [⟨⟨["a"]⟩, ⟨100, ""⟩, ⟨102, ""⟩⟩,
          ⟨⟨["a", "b"]⟩, ⟨100, ""⟩, ⟨101, "x"⟩⟩]) :=
  ⟨by decide, add_up_pointers_nearest_preceding_ancestor _ (by decide)⟩

/-! ### C10: parent of the root -/

theorem Node.equals_false_iff (a b : Node) : a.equals b = false ↔ a ≠ b := by
  rw [Bool.eq_false_iff]
  constructor
  · intro h he
    exact h ((node_equals_iff a b).mpr he)
  · intro h he
    exact h ((node_equals_iff a b).mp he)

/-- C10: `Node([])` is its own parent (`is_parent_of` and `get_parent` agree
on this), while a node with a non-empty path is never its own parent. -/
theorem root_parent_of_itself :
    (Node.mk []).is_parent_of ⟨[]⟩ = true
    ∧ ((Node.mk []).get_parent).equals ⟨[]⟩ = true
    ∧ ∀ n : Node, n.path ≠ [] → n.is_parent_of n = false := by
  refine ⟨rfl, rfl, ?_⟩
  intro n hne
  simp only [Node.is_parent_of, beq_eq_false_iff_ne, ne_eq]
  intro heq
  have hlen := congrArg List.length heq
  rw [List.length_dropLast] at hlen
  have : n.path.length ≠ 0 := fun h0 => hne (List.length_eq_zero.mp h0)
  omega

/-- Witness for C10 at a concrete non-root node. -/
theorem root_parent_of_itself_witness :
    (Node.mk ["a"]).path ≠ [] ∧ (Node.mk ["a"]).is_parent_of ⟨["a"]⟩ = false :=
  ⟨by decide, root_parent_of_itself.2.2 ⟨["a"]⟩ (by decide)⟩

/-! ### `is_set_canonical` (C5) -/

/-- `CSequence.from_set`: a `CSet` is modelled as a list of its commands in
an arbitrary order, so the conversion to a sequence is the identity. -/
def from_set (s : List Command) : List Command := s

/-- The same-node test against the previous command's node in the scan of
`is_set_canonical`. -/
def prev_same : Option Node → Command → Bool
  | some p, c => p.equals c.node
  | none, _ => false

/-- The scan of `is_set_canonical` (csequence.py lines 227-238): reject two
successive commands on one node, and reject a command whose `up` pointer
forms neither a constructor pair nor a destructor pair with it. -/
def canonical_scan : Option Node → List (Command × List Command) → Bool
  | _, [] => true
  | prev, (c, ch) :: rest =>
    if prev_same prev c then false
    else
      match ch.head? with
      | some u =>
        if u.is_constructor_pair_with_next c || c.is_destructor_pair_with_next u then
          canonical_scan (some c.node) rest
        else false
      | none => canonical_scan (some c.node) rest

/-- `CSequence.is_set_canonical`. -/
def is_set_canonical (s : List Command) : Bool :=
  canonical_scan none (add_up_pointers (order_by_node (from_set s)))

theorem canonical_scan_iff (l : List (Command × List Command)) :
    ∀ (prev : Option Node),
      canonical_scan prev l = true ↔
        ((∀ x, l.head? = some x → prev_same prev x.1 = false)
          ∧ List.Chain' (fun p q => p.1.node ≠ q.1.node) l
          ∧ ∀ p ∈ l, ∀ u, p.2.head? = some u →
              (u.is_constructor_pair_with_next p.1
                || p.1.is_destructor_pair_with_next u) = true) := by
  induction l with
  | nil =>
    intro prev
    simp [canonical_scan]
  | cons x rest ih =>
    intro prev
    obtain ⟨c, ch⟩ := x
    by_cases hprev : prev_same prev c
    · simp only [canonical_scan, if_pos hprev]
      constructor
      · intro h
        exact absurd h (by simp)
      · rintro ⟨hA, _, _⟩
        have := hA (c, ch) rfl
        rw [this] at hprev
        exact absurd hprev (by simp)
    · have hprev' : prev_same prev c = false := Bool.eq_false_iff.mpr hprev
      have hAok : ∀ x, ((c, ch) :: rest).head? = some x → prev_same prev x.1 = false := by
        intro x hx
        rw [List.head?_cons, Option.some_inj] at hx
        subst hx
        exact hprev'
      have hchain : List.Chain' (fun p q => p.1.node ≠ q.1.node) ((c, ch) :: rest) ↔
          ((∀ y, rest.head? = some y → c.node ≠ y.1.node)
            ∧ List.Chain' (fun p q => p.1.node ≠ q.1.node) rest) := by
        rw [List.chain'_cons']
        constructor
        · rintro ⟨h1, h2⟩
          exact ⟨fun y hy => h1 y hy, h2⟩
        · rintro ⟨h1, h2⟩
          exact ⟨fun y hy => h1 y hy, h2⟩
      have hAnext : ∀ y, rest.head? = some y →
          (prev_same (some c.node) y.1 = false ↔ c.node ≠ y.1.node) := by
        intro y _
        simp only [prev_same]
        exact Node.equals_false_iff _ _
      cases hch : ch.head? with
      | none =>
        simp only [canonical_scan, if_neg hprev, hch]
        rw [ih (some c.node)]
        constructor
        · rintro ⟨hA, hB, hC⟩
          refine ⟨hAok, hchain.mpr ⟨fun y hy => (hAnext y hy).mp (hA y hy), hB⟩, ?_⟩
          intro p hp u hu
          rcases List.mem_cons.mp hp with rfl | hp'
          · rw [hch] at hu
            cases hu
          · exact hC p hp' u hu
        · rintro ⟨_, hB, hC⟩
          obtain ⟨h1, h2⟩ := hchain.mp hB
          refine ⟨fun y hy => (hAnext y hy).mpr (h1 y hy), h2, ?_⟩
          intro p hp u hu
          exact hC p (List.mem_cons_of_mem _ hp) u hu
      | some u =>
        by_cases hpair : (u.is_constructor_pair_with_next c
            || c.is_destructor_pair_with_next u) = true
        · simp only [canonical_scan, if_neg hprev, hch, if_pos hpair]
          rw [ih (some c.node)]
          constructor
          · rintro ⟨hA, hB, hC⟩
            refine ⟨hAok, hchain.mpr ⟨fun y hy => (hAnext y hy).mp (hA y hy), hB⟩, ?_⟩
            intro p hp u' hu'
            rcases List.mem_cons.mp hp with rfl | hp'
            · rw [hch] at hu'
              rw [Option.some_inj.mp hu'] at hpair
              exact hpair
            · exact hC p hp' u' hu'
          · rintro ⟨_, hB, hC⟩
            obtain ⟨h1, h2⟩ := hchain.mp hB
            refine ⟨fun y hy => (hAnext y hy).mpr (h1 y hy), h2, ?_⟩
            intro p hp u' hu'
            exact hC p (List.mem_cons_of_mem _ hp) u' hu'
        · simp only [canonical_scan, if_neg hprev, hch, if_neg hpair]
          constructor
          · intro h
            exact absurd h (by simp)
          · rintro ⟨_, _, hC⟩
            exact absurd (hC (c, ch) (List.mem_cons_self _ _) u hch) hpair

/-- C5: `is_set_canonical` returns false iff in the node-ordered sequence
with up pointers two successive commands share a node, or some command has a
non-null `up` forming neither a constructor pair nor a destructor pair with
it; in particular a set with two commands on one node and a set whose
closest strict-ancestor command is not on the parent are both rejected. -/
theorem is_set_canonical_false_characterisation :
    (∀ s : List Command,
      is_set_canonical s = false ↔
        ((∃ i, ∃ _h : i < (add_up_pointers (order_by_node (from_set s))).length - 1,
            ((add_up_pointers (order_by_node (from_set s))).get ⟨i, by omega⟩).1.node =
              ((add_up_pointers (order_by_node (from_set s))).get
                ⟨i + 1, by omega⟩).1.node)
          ∨ ∃ p ∈ add_up_pointers (order_by_node (from_set s)), ∃ u,
              up_of p = some u ∧
              ¬(u.is_constructor_pair_with_next p.1 = true ∨
                p.1.is_destructor_pair_with_next u = true)))
    ∧ is_set_canonical
        [⟨⟨["d1", "d2", "f3"]⟩, ⟨100, ""⟩, ⟨101, "f1"⟩⟩,
         ⟨⟨["d1", "d2", "f3"]⟩, ⟨101, "f1"⟩, ⟨101, "f2"⟩⟩] = false
    ∧ is_set_canonical
        [⟨⟨["d1"]⟩, ⟨100, ""⟩, ⟨102, ""⟩⟩,
         ⟨⟨["d1", "d2", "f3"]⟩, ⟨100, ""⟩, ⟨101, "f1"⟩⟩] = false := by
  refine ⟨?_, by decide, by decide⟩
  intro s
  have hA : ∀ x, (add_up_pointers (order_by_node (from_set s))).head? = some x →
      prev_same none x.1 = false := fun x _ => rfl
  rw [Bool.eq_false_iff, Ne, is_set_canonical, canonical_scan_iff]
  constructor
  · intro hnot
    rcases Classical.em (List.Chain' (fun p q => p.1.node ≠ q.1.node)
        (add_up_pointers (order_by_node (from_set s)))) with hB | hB
    · rcases Classical.em (∀ p ∈ add_up_pointers (order_by_node (from_set s)),
          ∀ u, p.2.head? = some u →
            (u.is_constructor_pair_with_next p.1
              || p.1.is_destructor_pair_with_next u) = true) with hC | hC
      · exact absurd ⟨hA, hB, hC⟩ hnot
      · right
        push_neg at hC
        obtain ⟨p, hp, u, hu, hne⟩ := hC
        refine ⟨p, hp, u, hu, fun hor => hne (Bool.or_eq_true _ _ |>.mpr ?_)⟩
        rcases hor with h | h
        · exact Or.inl h
        · exact Or.inr h
    · left
      rw [List.chain'_iff_get] at hB
      push_neg at hB
      obtain ⟨i, h, heq⟩ := hB
      exact ⟨i, h, heq⟩
  · rintro (⟨i, h, heq⟩ | ⟨p, hp, u, hu, hnp⟩) hand
    · obtain ⟨_, hB, _⟩ := hand
      exact (List.chain'_iff_get.mp hB i h) heq
    · obtain ⟨_, _, hC⟩ := hand
      have := hC p hp u hu
      rcases Bool.or_eq_true _ _ |>.mp this with h | h
      · exact hnp (Or.inl h)
      · exact hnp (Or.inr h)

/-! ### `get_canonical_set` (C4) -/

/-- The accumulation loop of `get_canonical_set` (csequence.py lines
247-276).  The state is the previous command and the pending replacement's
input value (`repl_before`); on a node change the pending replacement
`<prev.node, repl_before, prev.after>` is emitted unless it is null, and on a
same-node step with `checks` on, a mismatch between the previous `after` and
the current `before` raises the breaking error. -/
def canonical_accum (checks : Bool) :
    Command → Value → List Command → Except String (List Command)
  | prev, rb, [] =>
    let replacement : Command := ⟨prev.node, rb, prev.after⟩
    pure (if replacement.is_null then [] else [replacement])
  | prev, rb, c :: rest =>
    if c.node.equals prev.node then
      if checks && !(prev.after.equals c.before) then
        Except.error "Input sequence is breaking: input/output value mismatch"
      else canonical_accum checks c rb rest
    else
      let replacement : Command := ⟨prev.node, rb, prev.after⟩
      do
        let out ← canonical_accum checks c c.before rest
        pure (if replacement.is_null then out else replacement :: out)

/-- The main loop of `get_canonical_set` on the already node-sorted
sequence: an empty sequence yields the empty set, otherwise the fold starts
from the first command. -/
def get_canonical_set_core (checks : Bool) : List Command → Except String (List Command)
  | [] => Except.ok []
  | c :: rest => canonical_accum checks c c.before rest

/-- `CSequence.get_canonical_set`: order by node, collapse each run of
commands on one node into one replacement command, drop null replacements,
and (with `checks`) re-check canonicality of the result. -/
def get_canonical_set (l : List Command) (checks : Bool) :
    Except String (List Command) :=
  match get_canonical_set_core checks (order_by_node l) with
  | Except.error e => Except.error e
  | Except.ok out =>
    if checks && !(is_set_canonical out) then
      Except.error "Input sequence is breaking #2"
    else Except.ok out

/-- The specification of `get_canonical_set` in the words of the spec: for
each maximal run of commands on one node of the (stably) node-sorted
sequence, the single replacement `<n, first.before, last.after>`, with null
replacements omitted. -/
def canonical_spec_of_sorted : List Command → List Command
  | [] => []
  | c :: rest =>
    let run_tail := rest.takeWhile (fun d => d.node == c.node)
    let repl : Command := ⟨c.node, c.before, (run_tail.getLastD c).after⟩
    let tail := canonical_spec_of_sorted (rest.dropWhile (fun d => d.node == c.node))
    if repl.is_null then tail else repl :: tail
termination_by l => l.length
decreasing_by
  simp only [List.length_cons]
  have := (List.dropWhile_sublist (l := rest) (p := fun d => d.node == c.node)).length_le
  omega

/-- A breaking point: some command and the next one, on the same node, whose
`after` and `before` do not chain. -/
def has_break : List Command → Prop
  | x :: y :: rest => (x.node = y.node ∧ x.after ≠ y.before) ∨ has_break (y :: rest)
  | _ => False

instance instDecidableHasBreak : (l : List Command) → Decidable (has_break l)
  | [] => isFalse (fun h => h)
  | [_] => isFalse (fun h => h)
  | x :: y :: rest =>
    letI := instDecidableHasBreak (y :: rest)
    decidable_of_iff ((x.node = y.node ∧ x.after ≠ y.before) ∨ has_break (y :: rest))
      Iff.rfl

theorem getLastD_after_eq {x y : Command} (h : x.after = y.after) :
    ∀ (tw : List Command), (tw.getLastD x).after = (tw.getLastD y).after
  | [] => h
  | a :: l => by rw [List.getLastD_cons, List.getLastD_cons]

theorem canonical_spec_absorb (m c : Command) (rest : List Command)
    (h : c.node = m.node) :
    canonical_spec_of_sorted (m :: c :: rest) =
      canonical_spec_of_sorted (⟨c.node, m.before, c.after⟩ :: rest) := by
  have hbeq : (c.node == m.node) = true := beq_iff_eq.mpr h
  have hpred : (fun d : Command => d.node == c.node) = (fun d => d.node == m.node) := by
    funext d
    rw [h]
  have hafter : ((rest.takeWhile (fun d => d.node == m.node)).getLastD
        (⟨c.node, m.before, c.after⟩ : Command)).after =
      ((rest.takeWhile (fun d => d.node == m.node)).getLastD c).after :=
    @getLastD_after_eq ⟨c.node, m.before, c.after⟩ c rfl _
  have e1 : (c :: rest).takeWhile (fun d => d.node == m.node) =
      c :: rest.takeWhile (fun d => d.node == m.node) := by
    simp [List.takeWhile_cons, hbeq]
  have e2 : (c :: rest).dropWhile (fun d => d.node == m.node) =
      rest.dropWhile (fun d => d.node == m.node) := by
    simp [List.dropWhile_cons, hbeq]
  have e3 : rest.takeWhile (fun d => d.node == c.node) =
      rest.takeWhile (fun d => d.node == m.node) := by rw [hpred]
  have e4 : rest.dropWhile (fun d => d.node == c.node) =
      rest.dropWhile (fun d => d.node == m.node) := by rw [hpred]
  conv_lhs => rw [canonical_spec_of_sorted]
  conv_rhs => rw [canonical_spec_of_sorted]
  rw [e1, e2, e3, e4, List.getLastD_cons, hafter, h]

theorem canonical_accum_false :
    ∀ (l : List Command) (prev : Command) (rb : Value),
      canonical_accum false prev rb l =
        .ok (canonical_spec_of_sorted (⟨prev.node, rb, prev.after⟩ :: l))
  | [], prev, rb => by
    rw [canonical_accum, canonical_spec_of_sorted]
    simp only [List.takeWhile_nil, List.dropWhile_nil, List.getLastD_nil,
      canonical_spec_of_sorted]
    split_ifs <;> rfl
  | c :: rest, prev, rb => by
    rw [canonical_accum]
    by_cases hnode : c.node.equals prev.node
    · rw [if_pos hnode, if_neg (by simp)]
      have heq : c.node = prev.node := (node_equals_iff _ _).mp hnode
      rw [canonical_accum_false rest c rb]
      rw [canonical_spec_absorb ⟨prev.node, rb, prev.after⟩ c rest heq]
    · rw [if_neg hnode]
      have hne : ¬ (c.node = prev.node) := fun hc => hnode ((node_equals_iff _ _).mpr hc)
      rw [canonical_accum_false rest c c.before]
      have hbeq : (c.node == prev.node) = false := by
        rw [beq_eq_false_iff_ne]
        exact hne
      have hspec : canonical_spec_of_sorted (⟨prev.node, rb, prev.after⟩ :: c :: rest) =
          if (⟨prev.node, rb, prev.after⟩ : Command).is_null then
            canonical_spec_of_sorted (c :: rest)
          else ⟨prev.node, rb, prev.after⟩ :: canonical_spec_of_sorted (c :: rest) := by
        conv_lhs => rw [canonical_spec_of_sorted]
        simp only [List.takeWhile_cons, List.dropWhile_cons, hbeq, Bool.false_eq_true,
          if_false, List.getLastD_nil]
      rw [hspec]
      rfl

theorem canonical_accum_error :
    ∀ (l : List Command) (prev : Command) (rb : Value),
      has_break (prev :: l) →
      ∃ e, canonical_accum true prev rb l = .error e
  | [], prev, rb, hb => absurd hb (by simp [has_break])
  | c :: rest, prev, rb, hb => by
    rw [canonical_accum]
    by_cases hnode : c.node.equals prev.node
    · rw [if_pos hnode]
      by_cases hmis : prev.after.equals c.before
      · rw [if_neg (by simp [hmis])]
        have heq : prev.after = c.before := (value_equals_iff _ _).mp hmis
        rcases hb with ⟨_, hne⟩ | hb'
        · exact absurd heq hne
        · exact canonical_accum_error rest c rb hb'
      · rw [if_pos (by simp [Bool.eq_false_iff.mpr hmis])]
        exact ⟨_, rfl⟩
    · rw [if_neg hnode]
      have hne : ¬ (c.node = prev.node) := fun hc => hnode ((node_equals_iff _ _).mpr hc)
      rcases hb with ⟨heq, _⟩ | hb'
      · exact absurd heq.symm hne
      · obtain ⟨e, he⟩ := canonical_accum_error rest c c.before hb'
        refine ⟨e, ?_⟩
        show (canonical_accum true c c.before rest).bind _ = _
        rw [he]
        rfl

/-- C4: with `checks` off, `get_canonical_set` returns exactly the
replacement command `<n, first.before, last.after>` of each maximal run of
the stably node-sorted sequence, nulls omitted; with `checks` on it raises an
error whenever some command's `after` differs from the next same-node
command's `before`. -/
theorem get_canonical_set_run_replacements :
    (∀ s : List Command,
      get_canonical_set s false = .ok (canonical_spec_of_sorted (order_by_node s)))
    ∧ (∀ s : List Command, has_break (order_by_node s) →
        ∃ e, get_canonical_set s true = .error e) := by
  constructor
  · intro s
    unfold get_canonical_set
    cases h : order_by_node s with
    | nil =>
      rw [show canonical_spec_of_sorted [] = [] from by rw [canonical_spec_of_sorted]]
      rfl
    | cons c rest =>
      rw [get_canonical_set_core, canonical_accum_false rest c c.before]
      rfl
  · intro s hb
    unfold get_canonical_set
    cases h : order_by_node s with
    | nil => rw [h] at hb; exact absurd hb (fun hf => hf)
    | cons c rest =>
      rw [h] at hb
      obtain ⟨e, he⟩ := canonical_accum_error rest c c.before hb
      rw [get_canonical_set_core, he]
      exact ⟨e, rfl⟩

/-! ### `order_set` (C7) -/

/-- `CSequence.order_set` (csequence.py lines 200-215): order the set by
node, then output all constructors in forward order followed by all other
commands in backward order. -/
def order_set (s : List Command) : List Command :=
  (order_by_node s).filter (fun c => c.is_constructor)
    ++ (order_by_node s).reverse.filter (fun c => !(c.is_constructor))

/-- The strict node order between commands. -/
def nodeLtStrict (a b : Command) : Prop := pathLt a.node.path b.node.path = true

instance : IsTrans Command nodeLtStrict := ⟨fun _ _ _ => pathLt_trans⟩

/-- On a canonical set the node-sorted sequence has strictly increasing
nodes. -/
theorem canonical_sorted_strict {s : List Command} (h : is_set_canonical s = true) :
    (order_by_node s).Pairwise nodeLtStrict := by
  have hiff := (canonical_scan_iff (add_up_pointers (order_by_node (from_set s))) none).mp h
  obtain ⟨_, hB, _⟩ := hiff
  have hmap : (add_up_pointers (order_by_node (from_set s))).map Prod.fst =
      order_by_node s := add_up_aux_fst [] _
  have hchain_ne : List.Chain' (fun a b => a.node ≠ b.node) (order_by_node s) := by
    rw [← hmap]
    rw [List.chain'_map]
    exact hB
  have hsorted : (order_by_node s).Pairwise nodeSortLe :=
    List.sorted_insertionSort nodeSortLe s
  have hchain : List.Chain' nodeLtStrict (order_by_node s) := by
    refine (chain'_conj hsorted.chain' hchain_ne).imp ?_
    rintro a b ⟨hle, hne⟩
    have hle' : pathLt b.node.path a.node.path = false := hle
    rcases pathLt_trichotomy a.node.path b.node.path with ht | ht | ht
    · exact ht
    · exact absurd (Node.path_inj ht) hne
    · exact absurd ht (by simp [hle'])
  exact List.chain'_iff_pairwise.mp hchain

/-- C7: for a canonical set, `order_set` is a permutation of the set (its
`as_set` is the input), every constructor precedes every non-constructor,
constructors come in strictly node-ascending order and the other commands in
strictly node-descending order. -/
theorem order_set_executable_round_trip (s : List Command)
    (h : is_set_canonical s = true) :
    (∀ x : Command, x ∈ order_set s ↔ x ∈ s)
    ∧ (order_set s).Pairwise
        (fun a b => b.is_constructor = true → a.is_constructor = true)
    ∧ ((order_set s).filter (fun c => c.is_constructor)).Pairwise nodeLtStrict
    ∧ ((order_set s).filter (fun c => !(c.is_constructor))).Pairwise
        (fun a b => nodeLtStrict b a) := by
  have hperm : ∀ x : Command, x ∈ order_by_node s ↔ x ∈ s := by
    intro x
    exact List.mem_insertionSort nodeSortLe
  have hstrict := canonical_sorted_strict h
  have hA : ∀ a ∈ (order_by_node s).filter (fun c => c.is_constructor),
      a.is_constructor = true := by
    intro a ha
    simpa using (List.mem_filter.mp ha).2
  have hBne : ∀ b ∈ (order_by_node s).reverse.filter (fun c => !(c.is_constructor)),
      b.is_constructor = false := by
    intro b hb
    simpa using (List.mem_filter.mp hb).2
  refine ⟨?_, ?_, ?_, ?_⟩
  · intro x
    rw [order_set, List.mem_append]
    constructor
    · rintro (hx | hx)
      · exact (hperm x).mp (List.mem_of_mem_filter hx)
      · exact (hperm x).mp (by
          have := List.mem_of_mem_filter hx
          exact List.mem_reverse.mp this)
    · intro hx
      have hx' : x ∈ order_by_node s := (hperm x).mpr hx
      rcases Bool.eq_false_or_eq_true x.is_constructor with hc | hc
      · exact Or.inl (List.mem_filter.mpr ⟨hx', by simp [hc]⟩)
      · exact Or.inr (List.mem_filter.mpr ⟨List.mem_reverse.mpr hx', by simp [hc]⟩)
  · rw [order_set, List.pairwise_append]
    refine ⟨?_, ?_, ?_⟩
    · exact List.pairwise_of_forall_mem_list fun a ha _ _ _ => hA a ha
    · refine List.pairwise_of_forall_mem_list fun a _ b hb hctor => ?_
      rw [hBne b hb] at hctor
      exact absurd hctor (by simp)
    · intro a _ b hb hctor
      rw [hBne b hb] at hctor
      exact absurd hctor (by simp)
  · have hAA : ((order_by_node s).filter (fun c => c.is_constructor)).filter
        (fun c => c.is_constructor) =
        (order_by_node s).filter (fun c => c.is_constructor) :=
      List.filter_eq_self.mpr (fun a ha => hA a ha)
    have hBB : ((order_by_node s).reverse.filter (fun c => !(c.is_constructor))).filter
        (fun c => c.is_constructor) = [] :=
      List.filter_eq_nil_iff.mpr (fun b hb => by simp [hBne b hb])
    have he : (order_set s).filter (fun c => c.is_constructor) =
        (order_by_node s).filter (fun c => c.is_constructor) := by
      rw [order_set, List.filter_append, hAA, hBB, List.append_nil]
    rw [he]
    exact hstrict.sublist (List.filter_sublist _)
  · have hAB : ((order_by_node s).filter (fun c => c.is_constructor)).filter
        (fun c => !(c.is_constructor)) = [] :=
      List.filter_eq_nil_iff.mpr (fun a ha => by simp [hA a ha])
    have hBB2 : ((order_by_node s).reverse.filter (fun c => !(c.is_constructor))).filter
        (fun c => !(c.is_constructor)) =
        (order_by_node s).reverse.filter (fun c => !(c.is_constructor)) :=
      List.filter_eq_self.mpr (fun b hb => by simp [hBne b hb])
    have he : (order_set s).filter (fun c => !(c.is_constructor)) =
        (order_by_node s).reverse.filter (fun c => !(c.is_constructor)) := by
      rw [order_set, List.filter_append, hAB, hBB2, List.nil_append]
    rw [he]
    have hrev : (order_by_node s).reverse.Pairwise (fun a b => nodeLtStrict b a) :=
      List.pairwise_reverse.mpr hstrict
    exact hrev.sublist (List.filter_sublist _)

/-- Witness for C7 at a concrete canonical set. -/
theorem order_set_executable_round_trip_witness :
    is_set_canonical [⟨⟨["a"]⟩, ⟨100, ""⟩, ⟨102, ""⟩⟩,
        ⟨⟨["a", "b"]⟩, ⟨100, ""⟩, ⟨101, "x"⟩⟩] = true
    ∧ (∀ x : Command,
        x ∈ order_set [⟨⟨["a"]⟩, ⟨100, ""⟩, ⟨102, ""⟩⟩,
            ⟨⟨["a", "b"]⟩, ⟨100, ""⟩, ⟨101, "x"⟩⟩] ↔
        x ∈ [⟨⟨["a"]⟩, ⟨100, ""⟩, ⟨102, ""⟩⟩, ⟨⟨["a", "b"]⟩, ⟨100, ""⟩, ⟨101, "x"⟩⟩]) :=
  ⟨by decide,
    (order_set_executable_round_trip _ (by decide)).1⟩

/-- Witness for C4 at a concrete breaking sequence. -/
theorem get_canonical_set_run_replacements_witness :
    has_break (order_by_node
      [⟨⟨["a"]⟩, ⟨100, ""⟩, ⟨101, "x"⟩⟩, ⟨⟨["a"]⟩, ⟨101, "y"⟩, ⟨101, "z"⟩⟩])
    ∧ ∃ e, get_canonical_set
        [⟨⟨["a"]⟩, ⟨100, ""⟩, ⟨101, "x"⟩⟩, ⟨⟨["a"]⟩, ⟨101, "y"⟩, ⟨101, "z"⟩⟩] true =
        .error e :=
  ⟨by decide, get_canonical_set_run_replacements.2 _ (by decide)⟩

/-! ### Session node interning (C9) -/

/-- A `Node` as a Python object: a path together with an object identity.
`Session.__init__` creates a fresh `Node` object for every parsed command, so
object identity is modelled by a distinguishing `oid`. -/
structure SNode where
  path : List String
  oid : Nat
deriving DecidableEq, Repr

/-- A parsed command of a Session; the interning pass only rewrites the node
reference. -/
structure SCmd where
  node : SNode
  before : Value
  after : Value
deriving DecidableEq, Repr

/-- The interning pass of `Session.__init__` (session.py lines 71-77): walk
the node-sorted list of all commands and, whenever a command's node path
equals the previous node's path, replace the command's node by that previous
node object. -/
def intern_nodes : Option SNode → List SCmd → List SCmd
  | _, [] => []
  | some p, c :: rest =>
    if c.node.path = p.path then { c with node := p } :: intern_nodes (some p) rest
    else c :: intern_nodes (some c.node) rest
  | none, c :: rest => c :: intern_nodes (some c.node) rest

theorem intern_nodes_nil (prev : Option SNode) : intern_nodes prev [] = [] := by
  cases prev <;> rfl

theorem intern_nodes_paths :
    ∀ (prev : Option SNode) (l : List SCmd),
      ∀ c ∈ intern_nodes prev l, ∃ d ∈ l, c.node.path = d.node.path
  | prev, [] => by rw [intern_nodes_nil]; intro c hc; exact absurd hc (List.not_mem_nil c)
  | some p, x :: rest => by
    by_cases hx : x.node.path = p.path
    · rw [intern_nodes, if_pos hx]
      intro c hc
      rcases List.mem_cons.mp hc with rfl | hc'
      · exact ⟨x, List.mem_cons_self _ _, hx.symm ▸ rfl⟩
      · obtain ⟨d, hd, he⟩ := intern_nodes_paths (some p) rest c hc'
        exact ⟨d, List.mem_cons_of_mem _ hd, he⟩
    · rw [intern_nodes, if_neg hx]
      intro c hc
      rcases List.mem_cons.mp hc with rfl | hc'
      · exact ⟨c, List.mem_cons_self _ _, rfl⟩
      · obtain ⟨d, hd, he⟩ := intern_nodes_paths (some x.node) rest c hc'
        exact ⟨d, List.mem_cons_of_mem _ hd, he⟩
  | none, x :: rest => by
    rw [intern_nodes]
    intro c hc
    rcases List.mem_cons.mp hc with rfl | hc'
    · exact ⟨c, List.mem_cons_self _ _, rfl⟩
    · obtain ⟨d, hd, he⟩ := intern_nodes_paths (some x.node) rest c hc'
      exact ⟨d, List.mem_cons_of_mem _ hd, he⟩

theorem intern_nodes_unifies :
    ∀ (l : List SCmd) (p : SNode),
      l.Pairwise (fun a b => pathLt b.node.path a.node.path = false) →
      (∀ c ∈ l, pathLt c.node.path p.path = false) →
      (∀ c ∈ intern_nodes (some p) l, c.node.path = p.path → c.node = p)
      ∧ (∀ c ∈ intern_nodes (some p) l, ∀ c' ∈ intern_nodes (some p) l,
          c.node.path = c'.node.path → c.node = c'.node)
  | [], p, _, _ => by
    rw [intern_nodes_nil]
    exact ⟨fun c hc => absurd hc (List.not_mem_nil c),
      fun c hc => absurd hc (List.not_mem_nil c)⟩
  | x :: rest, p, hsorted, hge => by
    obtain ⟨hx_rest, hsorted'⟩ := List.pairwise_cons.mp hsorted
    by_cases hx : x.node.path = p.path
    · rw [intern_nodes, if_pos hx]
      have hge' : ∀ c ∈ rest, pathLt c.node.path p.path = false := by
        intro c hc
        have := hx_rest c hc
        rw [← hx]
        exact this
      obtain ⟨ih1, ih2⟩ := intern_nodes_unifies rest p hsorted' hge'
      constructor
      · intro c hc hcp
        rcases List.mem_cons.mp hc with rfl | hc'
        · rfl
        · exact ih1 c hc' hcp
      · intro c hc c' hc' hpath
        rcases List.mem_cons.mp hc with rfl | hc1
        · rcases List.mem_cons.mp hc' with heq | hc2
          · rw [heq]
          · exact (ih1 c' hc2 (by rw [← hpath])).symm
        · rcases List.mem_cons.mp hc' with heq | hc2
          · subst heq
            exact ih1 c hc1 hpath
          · exact ih2 c hc1 c' hc2 hpath
    · rw [intern_nodes, if_neg hx]
      have hgex : ∀ c ∈ rest, pathLt c.node.path x.node.path = false :=
        fun c hc => hx_rest c hc
      obtain ⟨ih1, ih2⟩ := intern_nodes_unifies rest x.node hsorted' hgex
      have hstrict : pathLt p.path x.node.path = true := by
        rcases pathLt_trichotomy p.path x.node.path with ht | ht | ht
        · exact ht
        · exact absurd ht.symm hx
        · exact absurd ht (by simp [hge x (List.mem_cons_self _ _)])
      have hno_p : ∀ c ∈ intern_nodes (some x.node) rest, c.node.path ≠ p.path := by
        intro c hc hcp
        obtain ⟨d, hd, he⟩ := intern_nodes_paths (some x.node) rest c hc
        have hdx : pathLt d.node.path x.node.path = false := hgex d hd
        rw [hcp] at he
        rw [he] at hstrict
        exact absurd hstrict (by simp [hdx])
      constructor
      · intro c hc hcp
        rcases List.mem_cons.mp hc with rfl | hc'
        · exact absurd hcp hx
        · exact absurd hcp (hno_p c hc')
      · intro c hc c' hc' hpath
        rcases List.mem_cons.mp hc with rfl | hc1
        · rcases List.mem_cons.mp hc' with heq | hc2
          · rw [heq]
          · exact (ih1 c' hc2 hpath.symm).symm
        · rcases List.mem_cons.mp hc' with heq | hc2
          · subst heq
            exact ih1 c hc1 hpath
          · exact ih2 c hc1 c' hc2 hpath

/-- C9: after the Session interning pass over the node-sorted list of all
parsed commands, path equality of two commands' nodes implies that they hold
the identical node object. -/
theorem session_intern_path_implies_identity (all sorted : List SCmd)
    (_hperm : sorted.Perm all)
    (hsorted : sorted.Pairwise (fun a b => pathLt b.node.path a.node.path = false)) :
    ∀ c ∈ intern_nodes none sorted, ∀ c' ∈ intern_nodes none sorted,
      c.node.path = c'.node.path → c.node = c'.node := by
  cases sorted with
  | nil =>
    rw [intern_nodes_nil]
    intro c hc
    exact absurd hc (List.not_mem_nil c)
  | cons x rest =>
    rw [intern_nodes]
    obtain ⟨hx_rest, hsorted'⟩ := List.pairwise_cons.mp hsorted
    obtain ⟨ih1, ih2⟩ := intern_nodes_unifies rest x.node hsorted'
      (fun c hc => hx_rest c hc)
    intro c hc c' hc' hpath
    rcases List.mem_cons.mp hc with rfl | hc1
    · rcases List.mem_cons.mp hc' with heq | hc2
      · rw [heq]
      · exact (ih1 c' hc2 hpath.symm).symm
    · rcases List.mem_cons.mp hc' with heq | hc2
      · subst heq
        exact ih1 c hc1 hpath
      · exact ih2 c hc1 c' hc2 hpath

/-- Witness for C9 at a concrete session batch: three parsed commands, two of
them on the path a/b through distinct node objects. -/
theorem session_intern_path_implies_identity_witness :
    ([⟨⟨["a"], 1⟩, ⟨100, ""⟩, ⟨102, ""⟩⟩,
      ⟨⟨["a", "b"], 0⟩, ⟨100, ""⟩, ⟨101, "x"⟩⟩,
      ⟨⟨["a", "b"], 2⟩, ⟨101, "x"⟩, ⟨101, "y"⟩⟩] : List SCmd).Perm
      [⟨⟨["a", "b"], 0⟩, ⟨100, ""⟩, ⟨101, "x"⟩⟩,
       ⟨⟨["a"], 1⟩, ⟨100, ""⟩, ⟨102, ""⟩⟩,
       ⟨⟨["a", "b"], 2⟩, ⟨101, "x"⟩, ⟨101, "y"⟩⟩]
    ∧ ∀ c ∈ intern_nodes none
        [⟨⟨["a"], 1⟩, ⟨100, ""⟩, ⟨102, ""⟩⟩,
         ⟨⟨["a", "b"], 0⟩, ⟨100, ""⟩, ⟨101, "x"⟩⟩,
         ⟨⟨["a", "b"], 2⟩, ⟨101, "x"⟩, ⟨101, "y"⟩⟩],
      ∀ c' ∈ intern_nodes none
        [⟨⟨["a"], 1⟩, ⟨100, ""⟩, ⟨102, ""⟩⟩,
         ⟨⟨["a", "b"], 0⟩, ⟨100, ""⟩, ⟨101, "x"⟩⟩,
         ⟨⟨["a", "b"], 2⟩, ⟨101, "x"⟩, ⟨101, "y"⟩⟩],
      c.node.path = c'.node.path → c.node = c'.node := by
  refine ⟨by decide, ?_⟩
  exact session_intern_path_implies_identity
    [⟨⟨["a", "b"], 0⟩, ⟨100, ""⟩, ⟨101, "x"⟩⟩,
     ⟨⟨["a"], 1⟩, ⟨100, ""⟩, ⟨102, ""⟩⟩,
     ⟨⟨["a", "b"], 2⟩, ⟨101, "x"⟩, ⟨101, "y"⟩⟩]
    [⟨⟨["a"], 1⟩, ⟨100, ""⟩, ⟨102, ""⟩⟩,
     ⟨⟨["a", "b"], 0⟩, ⟨100, ""⟩, ⟨101, "x"⟩⟩,
     ⟨⟨["a", "b"], 2⟩, ⟨101, "x"⟩, ⟨101, "y"⟩⟩]
    (by decide) (by decide)

/-! ### `get_any_merger` (C8)

The full merger-enumeration engine of csequence.py lines 415-714.  The
double-linked list is a Lean list (backward iteration is iteration over the
reversed list); the per-node flags mutated on `Node` objects are functions
keyed by path (sound because of the Session interning invariant, claim C9);
the per-command `delete` flag is a function keyed by the command value,
sound because `from_set_union` de-duplicates, making the union's commands
pairwise distinct; Python asserts and `IndexError`s become `Except.error`.
A fresh Session is assumed, so all transient flags start unset. -/

/-- One record of the decision vector; the fields are Python ints. -/
structure Decision where
  current_decision : Int
  num_options : Int
  comment : String
deriving DecidableEq, Repr

/-- The decision-vector increment at the top of `get_any_merger`
(csequence.py lines 438-446), on the reversed vector (rightmost entry
first): bump the rightmost entry that still has options, popping exhausted
entries to its right; `none` when the leftmost entry is reached exhausted. -/
def increment_rev : List Decision → Option (List Decision)
  | [] => none
  | [d] =>
    if d.current_decision < d.num_options - 1 then
      some [{ d with current_decision := d.current_decision + 1 }]
    else none
  | d :: e :: rest =>
    if d.current_decision < d.num_options - 1 then
      some ((e :: rest).reverse ++
        [{ d with current_decision := d.current_decision + 1 }])
    else increment_rev (e :: rest)

/-- The decision-vector increment of `get_any_merger` (csequence.py lines
435-446): an empty vector passes through unchanged (the loop body never
runs); otherwise walk from the right. -/
def increment_decisions : List Decision → Option (List Decision)
  | [] => some []
  | d :: rest => increment_rev (d :: rest).reverse

/-- `Value.as_string` ("E(...)", "F(...)", "D(...)"). -/
def Value.as_string (v : Value) : String :=
  (if v.type_ = Value.T_EMPTY then "E" else if v.type_ = Value.T_FILE then "F" else "D")
    ++ "(" ++ v.contents ++ ")"

/-- `Node.as_string`. -/
def Node.as_string (n : Node) : String := String.intercalate "/" n.path

/-- `Command.as_string` (without color). -/
def Command.as_string (c : Command) : String :=
  "<" ++ c.node.as_string ++ "|" ++ c.before.as_string ++ "|" ++ c.after.as_string ++ ">"

/-- Python list indexing (`commands[d]`): negative indices count from the
end; anything out of range raises. -/
def py_index {α : Type} (l : List α) (i : Int) : Except String α :=
  let j : Int := if i < 0 then (l.length : Int) + i else i
  if h : 0 ≤ j ∧ j.toNat < l.length then Except.ok (l.get ⟨j.toNat, h.2⟩)
  else Except.error "list index out of range"

/-- The mutable state of one `get_any_merger` invocation: the five per-node
flags (keyed by path), the per-command `delete` flag, and the decision
vector with the replay index. -/
structure MergerState where
  has_destructor_on_dir : List String → Bool
  has_constructor_on_empty_child : List String → Bool
  delete_creators_down : List String → Bool
  delete_creators_strictly_down : List String → Bool
  delete_destructors_up : List String → Bool
  deleted : Command → Bool
  decisions : List Decision
  decision_index : Nat

/-- Update a path-keyed flag at one path. -/
def set_flag (f : List String → Bool) (p : List String) (b : Bool) :
    List String → Bool :=
  fun q => if q = p then b else f q

/-- Update the command-keyed `delete` flag at one command. -/
def set_deleted (f : Command → Bool) (c : Command) (b : Bool) : Command → Bool :=
  fun d => if d = c then b else f d

/-- `make_decision` (csequence.py lines 449-464): take the current decision
from the vector, or append a fresh one; the options carry their up-chains so
that callers can follow the winner's `up` pointer. -/
def make_decision (st : MergerState) (options : List (Command × List Command)) :
    Except String (MergerState × (Command × List Command)) :=
  if st.decisions.length ≤ st.decision_index then
    if st.decisions.length = st.decision_index then
      match options with
      | [] => Except.error "list index out of range"
      | o :: _ =>
        Except.ok
          ({ st with
              decisions := st.decisions ++
                [⟨0, options.length,
                  String.intercalate " vs " (options.map (fun p => p.1.as_string))⟩],
              decision_index := st.decision_index + 1 },
            o)
    else Except.error "assertion failed: len(decisions) == decision_index"
  else
    match st.decisions.get? st.decision_index with
    | none => Except.error "list index out of range"
    | some dec =>
      if dec.num_options = (options.length : Int) then
        match py_index options dec.current_decision with
        | Except.error e => Except.error e
        | Except.ok o =>
          Except.ok ({ st with decision_index := st.decision_index + 1 }, o)
      else Except.error "assertion failed: num_options == len(commands)"

/-- `process_flags` (csequence.py lines 483-501). -/
def process_flags (st : MergerState) (p : Command × List Command) : MergerState :=
  let c := p.1
  let st1 := match p.2.head? with
    | some u =>
      if st.delete_creators_strictly_down u.node.path then
        { st with delete_creators_down := set_flag st.delete_creators_down c.node.path true }
      else st
    | none => st
  let st2 := match p.2.head? with
    | some u =>
      if st1.delete_creators_down u.node.path then
        { st1 with delete_creators_down := set_flag st1.delete_creators_down c.node.path true }
      else st1
    | none => st1
  let st3 :=
    if st2.delete_creators_down c.node.path && !(c.after.is_empty) then
      { st2 with deleted := set_deleted st2.deleted c true }
    else st2
  if st3.delete_destructors_up c.node.path && c.is_destructor then
    { st3 with deleted := set_deleted st3.deleted c true }
  else st3

/-- `mark_delete_destructors_up` (csequence.py lines 503-515): walk up from a
command along its up-chain, setting `delete_destructors_up` and clearing
`has_destructor_on_dir`, stopping at the first node already flagged. -/
def mark_ddu (st : MergerState) : Command → List Command → MergerState
  | c, ch =>
    if st.delete_destructors_up c.node.path then st
    else
      let st' := { st with
        delete_destructors_up := set_flag st.delete_destructors_up c.node.path true,
        has_destructor_on_dir := set_flag st.has_destructor_on_dir c.node.path false }
      match ch with
      | [] => st'
      | u :: rest => mark_ddu st' u rest

/-- Flag initialisation, step (0) of `get_any_merger` (csequence.py lines
525-537); on a fresh Session every flag starts unset. -/
def init_flags (st0 : MergerState) (items : List (Command × List Command)) :
    MergerState :=
  items.foldl
    (fun st p =>
      let st :=
        if p.1.is_destructor && p.1.before.is_dir then
          { st with has_destructor_on_dir :=
              set_flag st.has_destructor_on_dir p.1.node.path true }
        else st
      match p.2.head? with
      | some u =>
        if p.1.is_constructor && p.1.before.is_empty then
          { st with has_constructor_on_empty_child :=
              set_flag st.has_constructor_on_empty_child u.node.path true }
        else st
      | none => st)
    st0

/-- The grouping scan of passes 1, 3 and (over the reversed union) 4
(csequence.py lines 569-586, 640-656, 679-695): process the flags, skip
deleted commands, group adjacent surviving commands on one node, and hand
every completed group to `proc`. -/
def group_scan
    (proc : MergerState → List (Command × List Command) → Except String MergerState)
    (st : MergerState) (items : List (Command × List Command)) :
    Except String MergerState := do
  let acc ← items.foldlM
    (fun (acc : MergerState × Option Command × List (Command × List Command)) p => do
      let (st, prev, group) := acc
      let st := process_flags st p
      if st.deleted p.1 then
        pure (st, prev, group)
      else
        match prev with
        | some pc =>
          if pc.node.equals p.1.node then
            pure (st, some p.1, group ++ [p])
          else do
            let st ← proc st group
            pure (st, some p.1, [p])
        | none => pure (st, some p.1, [p]))
    (st, none, [])
  proc acc.1 acc.2.2

/-- `process_node_commands_1` (csequence.py lines 542-567): file-node
conflicts. -/
def process_node_commands_1 (st : MergerState)
    (group : List (Command × List Command)) : Except String MergerState :=
  match group with
  | [] => Except.ok st
  | (c0, _) :: _ =>
    if group.length == 1 then Except.ok st
    else if c0.before.is_file then do
      let (st1, keep) ← make_decision st group
      let st2 :=
        if keep.1.is_destructor then
          { st1 with delete_creators_strictly_down :=
              set_flag st1.delete_creators_strictly_down keep.1.node.path true }
        else if keep.1.is_constructor then
          mark_ddu st1 keep.1 keep.2
        else
          let stm := mark_ddu st1 keep.1 keep.2
          { stm with delete_creators_strictly_down :=
              set_flag stm.delete_creators_strictly_down keep.1.node.path true }
      pure (group.foldl
        (fun st p =>
          if p.1.equals keep.1 then st
          else { st with deleted := set_deleted st.deleted p.1 true }) st2)
    else Except.ok st

/-- Pass 2 (csequence.py lines 589-616): parent-destructor versus
child-constructor conflicts, walking the union backward. -/
def pass2 (st : MergerState) (items : List (Command × List Command)) :
    Except String MergerState := do
  let acc ← items.reverse.foldlM
    (fun (acc : MergerState × Option Command) p => do
      let (st, prev) := acc
      let st := process_flags st p
      if st.deleted p.1 then pure (st, prev)
      else do
        let st ←
          if (match prev with
              | some pc => !(pc.node.equals p.1.node)
              | none => true) then
            if st.has_destructor_on_dir p.1.node.path &&
                st.has_constructor_on_empty_child p.1.node.path then do
              let (st1, keep) ← make_decision st
                [(p.1, p.2),
                 (⟨⟨["_children"]⟩, ⟨Value.T_EMPTY, ""⟩, ⟨Value.T_DIR, ""⟩⟩, [])]
              if keep.1.equals p.1 then
                pure ({ st1 with delete_creators_strictly_down := (set_flag
                  st1.delete_creators_strictly_down p.1.node.path true) })
              else pure (mark_ddu st1 p.1 p.2)
            else pure st
          else pure st
        pure (st, some p.1))
    (st, none)
  pure acc.1

/-- `process_node_commands_3` (csequence.py lines 621-638): empty-node
conflicts. -/
def process_node_commands_3 (st : MergerState)
    (group : List (Command × List Command)) : Except String MergerState :=
  match group with
  | [] => Except.ok st
  | (c0, _) :: _ =>
    if group.length == 1 then Except.ok st
    else if c0.before.is_empty then do
      let (st1, keep) ← make_decision st group
      let st2 :=
        if keep.1.after.is_file then
          { st1 with delete_creators_strictly_down :=
              set_flag st1.delete_creators_strictly_down keep.1.node.path true }
        else st1
      pure (group.foldl
        (fun st p =>
          if p.1.equals keep.1 then st
          else { st with deleted := set_deleted st.deleted p.1 true }) st2)
    else Except.ok st

/-- `process_node_commands_4` (csequence.py lines 661-677): directory-node
conflicts. -/
def process_node_commands_4 (st : MergerState)
    (group : List (Command × List Command)) : Except String MergerState :=
  match group with
  | [] => Except.ok st
  | (c0, _) :: _ =>
    if group.length == 1 then Except.ok st
    else if c0.before.is_dir then do
      let (st1, keep) ← make_decision st group
      let st2 :=
        if keep.1.after.is_file then
          match keep.2 with
          | u :: rest => mark_ddu st1 u rest
          | [] => st1
        else st1
      pure (group.foldl
        (fun st p =>
          if p.1.equals keep.1 then st
          else { st with deleted := set_deleted st.deleted p.1 true }) st2)
    else Except.ok st

/-- Pass 5 (csequence.py lines 697-703): collect the surviving commands. -/
def pass5 (st : MergerState) (items : List (Command × List Command)) :
    MergerState × List Command :=
  items.foldl
    (fun (acc : MergerState × List Command) p =>
      let st := process_flags acc.1 p
      if st.deleted p.1 then (st, acc.2) else (st, acc.2 ++ [p.1]))
    (st, [])

/-- One replay of the merger engine on an already incremented decision
vector: union with up pointers, flag initialisation and the five passes. -/
def run_merger (css : List (List Command)) (ds : List Decision) :
    Except String (List Decision × List Command) := do
  let union := add_up_pointers (from_set_union css)
  let st0 : MergerState :=
    { has_destructor_on_dir := fun _ => false,
      has_constructor_on_empty_child := fun _ => false,
      delete_creators_down := fun _ => false,
      delete_creators_strictly_down := fun _ => false,
      delete_destructors_up := fun _ => false,
      deleted := fun _ => false,
      decisions := ds,
      decision_index := 0 }
  let st := init_flags st0 union
  let st ← group_scan process_node_commands_1 st union
  let st ← pass2 st union
  let st ← group_scan process_node_commands_3 st union
  let st ← group_scan process_node_commands_4 st union.reverse
  let res := pass5 st union
  pure (res.1.decisions, res.2)

/-- Wrap a successful replay in `some`; errors propagate. -/
def run_wrap (css : List (List Command)) (ds : List Decision) :
    Except String (Option (List Decision × List Command)) :=
  match run_merger css ds with
  | Except.error e => Except.error e
  | Except.ok r => Except.ok (some r)

/-- `CSequence.get_any_merger`: `none` for the decision vector starts the
enumeration; a vector is first incremented (popping exhausted entries) and
`(None, None)` — here `Except.ok none` — is returned when it is exhausted;
otherwise the merger is replayed with the new vector. -/
def get_any_merger (css : List (List Command))
    (decisions : Option (List Decision)) :
    Except String (Option (List Decision × List Command)) :=
  match decisions with
  | none => run_wrap css []
  | some ds =>
    match increment_decisions ds with
    | none => Except.ok none
    | some ds' => run_wrap css ds'

theorem run_wrap_ne_ok_none (css : List (List Command)) (ds : List Decision) :
    run_wrap css ds ≠ Except.ok none := by
  unfold run_wrap
  cases run_merger css ds <;> simp

theorem get_any_merger_some_eq (css : List (List Command)) (ds : List Decision) :
    get_any_merger css (some ds) =
      (match increment_decisions ds with
       | none => Except.ok none
       | some ds' => run_wrap css ds') := rfl

theorem increment_rev_none_iff :
    ∀ (r : List Decision), r ≠ [] →
      (increment_rev r = none ↔ ∀ d ∈ r, d.num_options - 1 ≤ d.current_decision)
  | [], h => absurd rfl h
  | [d], _ => by
    rw [increment_rev]
    by_cases hb : d.current_decision < d.num_options - 1
    · rw [if_pos hb]
      simp only [reduceCtorEq, false_iff]
      intro hall
      have := hall d (List.mem_singleton_self d)
      omega
    · rw [if_neg hb]
      simp only [true_iff]
      intro e he
      rw [List.mem_singleton.mp he]
      omega
  | d :: e :: rest, _ => by
    rw [increment_rev]
    by_cases hb : d.current_decision < d.num_options - 1
    · rw [if_pos hb]
      simp only [reduceCtorEq, false_iff]
      intro hall
      have := hall d (List.mem_cons_self _ _)
      omega
    · rw [if_neg hb, increment_rev_none_iff (e :: rest) (by simp)]
      constructor
      · intro hall x hx
        rcases List.mem_cons.mp hx with rfl | hx'
        · omega
        · exact hall x hx'
      · intro hall x hx
        exact hall x (List.mem_cons_of_mem _ hx)

theorem increment_decisions_none_iff (ds : List Decision) :
    increment_decisions ds = none ↔
      (ds ≠ [] ∧ ∀ d ∈ ds, d.num_options - 1 ≤ d.current_decision) := by
  cases ds with
  | nil =>
    rw [increment_decisions]
    simp
  | cons d rest =>
    rw [increment_decisions]
    rw [increment_rev_none_iff (d :: rest).reverse (by simp)]
    constructor
    · intro hall
      exact ⟨by simp, fun x hx => hall x (List.mem_reverse.mpr hx)⟩
    · rintro ⟨_, hall⟩ x hx
      exact hall x (List.mem_reverse.mp hx)

theorem increment_rev_spec :
    ∀ (l2r : List Decision) (d : Decision) (l1r : List Decision),
      (∀ e ∈ l2r, e.num_options - 1 ≤ e.current_decision) →
      d.current_decision < d.num_options - 1 →
      increment_rev (l2r ++ d :: l1r) =
        some (l1r.reverse ++ [{ d with current_decision := d.current_decision + 1 }])
  | [], d, l1r, _, hb => by
    rw [List.nil_append]
    cases l1r with
    | nil =>
      rw [increment_rev, if_pos hb]
      rfl
    | cons x xs =>
      rw [increment_rev, if_pos hb]
  | e :: l2r', d, l1r, hmax, hb => by
    have hmaxe := hmax e (List.mem_cons_self _ _)
    rw [List.cons_append]
    cases hl : l2r' ++ d :: l1r with
    | nil => exact absurd hl (by simp)
    | cons x xs =>
      rw [increment_rev,
        if_neg (show ¬ (e.current_decision < e.num_options - 1) from by omega), ← hl]
      exact increment_rev_spec l2r' d l1r
        (fun e' he' => hmax e' (List.mem_cons_of_mem _ he')) hb

theorem increment_decisions_spec (l1 : List Decision) (d : Decision)
    (l2 : List Decision)
    (hmax : ∀ e ∈ l2, e.num_options - 1 ≤ e.current_decision)
    (hb : d.current_decision < d.num_options - 1) :
    increment_decisions (l1 ++ d :: l2) =
      some (l1 ++ [{ d with current_decision := d.current_decision + 1 }]) := by
  cases hl : l1 ++ d :: l2 with
  | nil => exact absurd hl (by simp)
  | cons x xs =>
    rw [increment_decisions, ← hl]
    rw [show (l1 ++ d :: l2).reverse = l2.reverse ++ d :: l1.reverse from by
      rw [List.reverse_append, List.reverse_cons]
      simp]
    rw [increment_rev_spec l2.reverse d l1.reverse
      (fun e he => hmax e (List.mem_reverse.mp he)) hb]
    rw [List.reverse_reverse]

/-- C8 (amended): `get_any_merger` on a non-null decision vector returns
`(None, None)` iff the vector is non-empty and every entry has
`current_decision ≥ num_options - 1`; otherwise, before replaying, the
rightmost entry with `current_decision < num_options - 1` is incremented
and all (exhausted) entries to its right are removed, an empty vector
passing through unchanged. -/
theorem get_any_merger_decision_vector (css : List (List Command))
    (ds : List Decision) :
    (get_any_merger css (some ds) = Except.ok none ↔
      (ds ≠ [] ∧ ∀ d ∈ ds, d.num_options - 1 ≤ d.current_decision))
    ∧ (∀ (l1 : List Decision) (d : Decision) (l2 : List Decision),
        ds = l1 ++ d :: l2 →
        d.current_decision < d.num_options - 1 →
        (∀ e ∈ l2, e.num_options - 1 ≤ e.current_decision) →
        increment_decisions ds =
          some (l1 ++ [{ d with current_decision := d.current_decision + 1 }])) := by
  constructor
  · rw [← increment_decisions_none_iff, get_any_merger_some_eq]
    cases hinc : increment_decisions ds with
    | none => simp
    | some ds' =>
      simp only [reduceCtorEq, iff_false]
      exact run_wrap_ne_ok_none css ds'
  · intro l1 d l2 heq hb hmax
    rw [heq]
    exact increment_decisions_spec l1 d l2 hmax hb

/-- The claim as stated is false: on the empty vector every entry is
vacuously exhausted yet the call returns a merger, and on an entry with
`num_options = 0` no entry satisfies `current_decision = num_options - 1`
yet the call returns `(None, None)`. -/
theorem get_any_merger_decision_vector_counterexample :
    ((∀ d ∈ ([] : List Decision), d.current_decision = d.num_options - 1)
      ∧ get_any_merger [] (some []) ≠ Except.ok none)
    ∧ ((¬ ∀ d ∈ [(⟨0, 0, ""⟩ : Decision)],
          d.current_decision = d.num_options - 1)
      ∧ get_any_merger [] (some [⟨0, 0, ""⟩]) = Except.ok none) := by
  refine ⟨⟨by decide, fun hc => ?_⟩, ⟨by decide, rfl⟩⟩
  have hc' : (Except.ok (some (([] : List Decision), ([] : List Command))) :
      Except String (Option (List Decision × List Command))) = Except.ok none := hc
  exact Option.noConfusion (Except.ok.inj hc')

/-- Witness for C8 at a concrete decision vector. -/
theorem get_any_merger_decision_vector_witness :
    ([(⟨0, 2, "a"⟩ : Decision), ⟨1, 2, "b"⟩] =
        [] ++ (⟨0, 2, "a"⟩ : Decision) :: [⟨1, 2, "b"⟩])
    ∧ ((⟨0, 2, "a"⟩ : Decision).current_decision <
        (⟨0, 2, "a"⟩ : Decision).num_options - 1)
    ∧ (∀ e ∈ [(⟨1, 2, "b"⟩ : Decision)],
        e.num_options - 1 ≤ e.current_decision)
    ∧ increment_decisions [⟨0, 2, "a"⟩, ⟨1, 2, "b"⟩] =
        some ([] ++ [{ (⟨0, 2, "a"⟩ : Decision) with
          current_decision := (⟨0, 2, "a"⟩ : Decision).current_decision + 1 }]) := by
  refine ⟨rfl, by decide, by decide, ?_⟩
  exact (get_any_merger_decision_vector [] [⟨0, 2, "a"⟩, ⟨1, 2, "b"⟩]).2
    [] ⟨0, 2, "a"⟩ [⟨1, 2, "b"⟩] rfl (by decide) (by decide)

/-! ### `check_refluent` (C2) -/

/-- The per-node replica bitmaps (`node.index`): bit `i` is set iff input
set `i` contains a command on that path (csequence.py lines 350-363; the
bitmap lives on the interned `Node` object, hence keyed by path). -/
def node_index (css : List (List Command)) (p : List String) : Nat :=
  css.enum.foldl
    (fun acc pair =>
      if pair.2.any (fun c => c.node.path == p) then acc ||| (1 <<< pair.1) else acc)
    0

/-- Condition (b) of the `check_refluent` scan at one command (csequence.py
lines 381-387), true when violated: the up pointer, when present, does not
point to the parent. -/
def cond_b (p : Command × List Command) : Bool :=
  match p.2.head? with
  | some u => !(u.node.is_parent_of p.1.node)
  | none => false

/-- Condition (c) (csequence.py lines 389-398), true when violated: the up
pointer is on the parent, the parent's input value is not a directory, and
the child's index bitmap is not a subset of the parent's. -/
def cond_c (idx : List String → Nat) (p : Command × List Command) : Bool :=
  match p.2.head? with
  | some u =>
    u.node.is_parent_of p.1.node && !(u.before.is_dir) &&
      ((idx p.1.node.path &&& idx u.node.path) != idx p.1.node.path)
  | none => false

/-- Condition (d) (csequence.py lines 400-408), true when violated: the
command's input value is not empty and the up node's index bitmap is not a
subset of the command's node's. -/
def cond_d (idx : List String → Nat) (p : Command × List Command) : Bool :=
  (!(p.1.before.is_empty)) &&
    (match p.2.head? with
     | none => false
     | some u => ((idx u.node.path &&& idx p.1.node.path) != idx u.node.path))

/-- Conditions (b), (c), (d) combined. -/
def cond_bcd (idx : List String → Nat) (p : Command × List Command) : Bool :=
  cond_b p || cond_c idx p || cond_d idx p

/-- The same-node different-before test against the previous command
(condition (a), csequence.py lines 373-377). -/
def prev_diff_before : Option Command → Command → Bool
  | some pc, c => pc.node.equals c.node && !(pc.before.equals c.before)
  | none, _ => false

/-- The scan of `check_refluent` (csequence.py lines 370-412). -/
def refluent_scan (idx : List String → Nat) :
    Option Command → List (Command × List Command) → Bool
  | _, [] => true
  | prev, p :: rest =>
    if prev_diff_before prev p.1 then false
    else if cond_bcd idx p then false
    else refluent_scan idx (some p.1) rest

/-- The processed union of `check_refluent`: the de-duplicated ordered union
with up pointers (csequence.py line 367). -/
def refluent_union (css : List (List Command)) : List (Command × List Command) :=
  add_up_pointers (order_by_node (from_set_union css))

/-- `CSequence.check_refluent`: fill the index bitmaps, build the ordered
union with up pointers, and scan. -/
def check_refluent (css : List (List Command)) : Bool :=
  refluent_scan (node_index css) none (refluent_union css)

theorem refluent_scan_iff (idx : List String → Nat)
    (l : List (Command × List Command)) :
    ∀ (prev : Option Command),
      refluent_scan idx prev l = true ↔
        ((∀ x, l.head? = some x → prev_diff_before prev x.1 = false)
          ∧ List.Chain' (fun p q => p.1.node = q.1.node → p.1.before = q.1.before) l
          ∧ ∀ p ∈ l, cond_bcd idx p = false) := by
  induction l with
  | nil =>
    intro prev
    simp [refluent_scan]
  | cons x rest ih =>
    intro prev
    by_cases hprev : prev_diff_before prev x.1
    · rw [refluent_scan, if_pos hprev]
      constructor
      · intro h
        exact absurd h (by simp)
      · rintro ⟨hA, _, _⟩
        have := hA x rfl
        rw [this] at hprev
        exact absurd hprev (by simp)
    · have hprev' : prev_diff_before prev x.1 = false := Bool.eq_false_iff.mpr hprev
      by_cases hbcd : cond_bcd idx x
      · rw [refluent_scan, if_neg hprev, if_pos hbcd]
        constructor
        · intro h
          exact absurd h (by simp)
        · rintro ⟨_, _, hC⟩
          exact absurd (hC x (List.mem_cons_self _ _)) (by simp [hbcd])
      · have hbcd' : cond_bcd idx x = false := Bool.eq_false_iff.mpr hbcd
        rw [refluent_scan, if_neg hprev, if_neg hbcd, ih (some x.1)]
        constructor
        · rintro ⟨hA, hB, hC⟩
          refine ⟨?_, ?_, ?_⟩
          · intro y hy
            rw [List.head?_cons, Option.some_inj] at hy
            subst hy
            exact hprev'
          · rw [List.chain'_cons']
            refine ⟨?_, hB⟩
            intro y hy hnode
            have := hA y hy
            simp only [prev_diff_before, Bool.and_eq_false_iff] at this
            rcases this with h | h
            · exact absurd ((node_equals_iff _ _).mpr hnode) (by simp [h])
            · have : x.1.before.equals y.1.before = true := by
                rcases Bool.eq_false_or_eq_true (x.1.before.equals y.1.before) with hb | hb
                · exact hb
                · exact absurd h (by simp [hb])
              exact (value_equals_iff _ _).mp this
          · intro p hp
            rcases List.mem_cons.mp hp with rfl | hp'
            · exact hbcd'
            · exact hC p hp'
        · rintro ⟨_, hB, hC⟩
          rw [List.chain'_cons'] at hB
          obtain ⟨hBhead, hBrest⟩ := hB
          refine ⟨?_, hBrest, ?_⟩
          · intro y hy
            have := hBhead y hy
            simp only [prev_diff_before]
            rcases Bool.eq_false_or_eq_true (x.1.node.equals y.1.node) with hn | hn
            · have hbe := this ((node_equals_iff _ _).mp hn)
              simp [(value_equals_iff _ _).mpr hbe]
            · simp [hn]
          · intro p hp
            exact hC p (List.mem_cons_of_mem _ hp)

theorem chain_before_head (R : Command × List Command → Command × List Command → Prop)
    (hR : R = fun p q => p.1.node = q.1.node → p.1.before = q.1.before) :
    ∀ (l : List (Command × List Command)) (p : Command × List Command),
      (p :: l).Pairwise (fun a b => nodeSortLe a.1 b.1) →
      List.Chain' R (p :: l) →
      ∀ q ∈ l, p.1.node = q.1.node → p.1.before = q.1.before
  | [], p, _, _ => by
    intro q hq
    exact absurd hq (List.not_mem_nil q)
  | x :: l', p, hsorted, hchain => by
    intro q hq hnode
    obtain ⟨hpx_rel, hsorted'⟩ := List.pairwise_cons.mp hsorted
    rw [List.chain'_cons] at hchain
    obtain ⟨hRpx, hchain'⟩ := hchain
    rw [hR] at hRpx
    rcases List.mem_cons.mp hq with rfl | hq'
    · exact hRpx hnode
    · have hle_px : nodeSortLe p.1 x.1 := hpx_rel x (List.mem_cons_self _ _)
      have hle_xq : nodeSortLe x.1 q.1 :=
        (List.pairwise_cons.mp hsorted').1 q hq'
      have hxp_node : x.1.node = p.1.node := by
        have h1 : pathLt x.1.node.path p.1.node.path = false := hle_px
        have h2 : pathLt p.1.node.path x.1.node.path = false := by
          have : pathLt q.1.node.path x.1.node.path = false := hle_xq
          rw [← hnode] at this
          exact this
        exact Node.path_inj (pathLt_antisymm h2 h1).symm
      have hbx : p.1.before = x.1.before := hRpx hxp_node.symm
      have hxq : x.1.before = q.1.before :=
        chain_before_head R hR l' x hsorted' hchain' q hq'
          (hxp_node.trans hnode)
      exact hbx.trans hxq

theorem chain_before_pairwise :
    ∀ (l : List (Command × List Command)),
      l.Pairwise (fun a b => nodeSortLe a.1 b.1) →
      List.Chain' (fun p q => p.1.node = q.1.node → p.1.before = q.1.before) l →
      l.Pairwise (fun p q => p.1.node = q.1.node → p.1.before = q.1.before)
  | [], _, _ => List.Pairwise.nil
  | p :: l, hsorted, hchain => by
    rw [List.pairwise_cons]
    refine ⟨chain_before_head _ rfl l p hsorted hchain, ?_⟩
    exact chain_before_pairwise l (List.pairwise_cons.mp hsorted).2
      (List.Chain'.tail hchain)

theorem union_pairs_sorted (css : List (List Command)) :
    (add_up_pointers (order_by_node (from_set_union css))).Pairwise
      (fun p q => nodeSortLe p.1 q.1) := by
  have hs : (order_by_node (from_set_union css)).Pairwise nodeSortLe :=
    List.sorted_insertionSort nodeSortLe (from_set_union css)
  have hmap : (add_up_pointers (order_by_node (from_set_union css))).map Prod.fst =
      order_by_node (from_set_union css) := add_up_aux_fst [] _
  rw [← hmap] at hs
  exact List.pairwise_map.mp hs

theorem cond_b_true_iff (p : Command × List Command) :
    cond_b p = true ↔
      ∃ u, p.2.head? = some u ∧ u.node.is_parent_of p.1.node = false := by
  cases hu : p.2.head? with
  | none => simp [cond_b, hu]
  | some u => simp [cond_b, hu]

theorem cond_c_true_iff (idx : List String → Nat) (p : Command × List Command) :
    cond_c idx p = true ↔
      ∃ u, p.2.head? = some u ∧ u.node.is_parent_of p.1.node = true
        ∧ u.before.is_dir = false
        ∧ (idx p.1.node.path &&& idx u.node.path) ≠ idx p.1.node.path := by
  cases hu : p.2.head? with
  | none => simp [cond_c, hu]
  | some u =>
    simp only [cond_c, hu, Bool.and_eq_true, Option.some_inj]
    constructor
    · rintro ⟨⟨hpar, hdir⟩, hne⟩
      exact ⟨u, rfl, hpar, by simpa using hdir, by simpa using hne⟩
    · rintro ⟨u', rfl, hpar, hdir, hne⟩
      exact ⟨⟨hpar, by simpa using hdir⟩, by simpa using hne⟩

theorem cond_d_true_iff (idx : List String → Nat) (p : Command × List Command) :
    cond_d idx p = true ↔
      p.1.before.is_empty = false ∧
        ∃ u, p.2.head? = some u ∧
          (idx u.node.path &&& idx p.1.node.path) ≠ idx u.node.path := by
  cases hu : p.2.head? with
  | none => simp [cond_d, hu]
  | some u =>
    simp only [cond_d, hu, Bool.and_eq_true, Option.some_inj]
    constructor
    · rintro ⟨hemp, hne⟩
      exact ⟨by simpa using hemp, u, rfl, by simpa using hne⟩
    · rintro ⟨hemp, u', rfl, hne⟩
      exact ⟨by simpa using hemp, by simpa using hne⟩

/-- Decidability of an existential over the value of an `Option`. -/
def decidable_exists_some {α : Type} (φ : α → Prop) [DecidablePred φ] :
    (o : Option α) → Decidable (∃ u, o = some u ∧ φ u)
  | none => isFalse (by rintro ⟨u, h, _⟩; cases h)
  | some a =>
    decidable_of_iff (φ a) (by
      constructor
      · intro h
        exact ⟨a, rfl, h⟩
      · rintro ⟨u, hu, h⟩
        exact (Option.some_inj.mp hu).symm ▸ h)

instance {α : Type} (o : Option α) (φ : α → Prop) [DecidablePred φ] :
    Decidable (∃ u, o = some u ∧ φ u) :=
  decidable_exists_some φ o

/-- C2 (amended): `check_refluent` returns true iff no command of the
node-ordered union with up pointers violates any of: (a) a preceding command
on the same node has a different `before`; (b) its `up` pointer exists and
its node is not the parent; (c) the `up` node is the parent with a
non-directory `before` and the node's index bitmap is not a subset of the
parent's; (d) its `before` is not Empty, `up` exists, and the `up` node's
index bitmap is not a subset of its node's. -/
theorem check_refluent_joint_refluency (css : List (List Command)) :
    check_refluent css = true ↔
      ¬ ((∃ i j : Fin (refluent_union css).length, i < j ∧
            ((refluent_union css).get i).1.node = ((refluent_union css).get j).1.node ∧
            ((refluent_union css).get i).1.before ≠ ((refluent_union css).get j).1.before)
        ∨ (∃ p ∈ refluent_union css, ∃ u, up_of p = some u ∧
            u.node.is_parent_of p.1.node = false)
        ∨ (∃ p ∈ refluent_union css, ∃ u, up_of p = some u ∧
            u.node.is_parent_of p.1.node = true ∧ u.before.is_dir = false ∧
            (node_index css p.1.node.path &&& node_index css u.node.path) ≠
              node_index css p.1.node.path)
        ∨ (∃ p ∈ refluent_union css, p.1.before.is_empty = false ∧
            ∃ u, up_of p = some u ∧
            (node_index css u.node.path &&& node_index css p.1.node.path) ≠
              node_index css u.node.path)) := by
  rw [check_refluent, refluent_scan_iff]
  have hsorted : (refluent_union css).Pairwise (fun p q => nodeSortLe p.1 q.1) :=
    union_pairs_sorted css
  constructor
  · rintro ⟨_, hB, hC⟩ hviol
    rcases hviol with hva | hvb | hvc | hvd
    · have hpw := chain_before_pairwise _ hsorted hB
      rw [List.pairwise_iff_get] at hpw
      obtain ⟨i, j, hij, hnode, hbef⟩ := hva
      exact hbef (hpw i j hij hnode)
    · obtain ⟨p, hp, hu⟩ := hvb
      have hfalse := hC p hp
      rw [cond_bcd, Bool.or_eq_false_iff, Bool.or_eq_false_iff] at hfalse
      exact absurd ((cond_b_true_iff p).mpr hu) (by simp [hfalse.1.1])
    · obtain ⟨p, hp, hu⟩ := hvc
      have hfalse := hC p hp
      rw [cond_bcd, Bool.or_eq_false_iff, Bool.or_eq_false_iff] at hfalse
      exact absurd ((cond_c_true_iff (node_index css) p).mpr hu) (by simp [hfalse.1.2])
    · obtain ⟨p, hp, hemp, hu⟩ := hvd
      have hfalse := hC p hp
      rw [cond_bcd, Bool.or_eq_false_iff, Bool.or_eq_false_iff] at hfalse
      exact absurd ((cond_d_true_iff (node_index css) p).mpr ⟨hemp, hu⟩)
        (by simp [hfalse.2])
  · intro hnv
    refine ⟨fun x _ => rfl, ?_, ?_⟩
    · have hpw : (refluent_union css).Pairwise
          (fun p q => p.1.node = q.1.node → p.1.before = q.1.before) := by
        rw [List.pairwise_iff_get]
        intro i j hij hnode
        by_contra hbef
        exact hnv (Or.inl ⟨i, j, hij, hnode, hbef⟩)
      exact hpw.chain'
    · intro p hp
      rw [cond_bcd, Bool.or_eq_false_iff, Bool.or_eq_false_iff]
      refine ⟨⟨?_, ?_⟩, ?_⟩
      · rcases Bool.eq_false_or_eq_true (cond_b p) with h | h
        · exact absurd (hnv (Or.inr (Or.inl ⟨p, hp, (cond_b_true_iff p).mp h⟩))) not_false
        · exact h
      · rcases Bool.eq_false_or_eq_true (cond_c (node_index css) p) with h | h
        · exact absurd
            (hnv (Or.inr (Or.inr (Or.inl ⟨p, hp, (cond_c_true_iff _ p).mp h⟩)))) not_false
        · exact h
      · rcases Bool.eq_false_or_eq_true (cond_d (node_index css) p) with h | h
        · obtain ⟨hemp, hu⟩ := (cond_d_true_iff _ p).mp h
          exact absurd (hnv (Or.inr (Or.inr (Or.inr ⟨p, hp, hemp, hu⟩)))) not_false
        · exact h

/-- The claim as stated is false: with its condition (b) restricted to the
case where some input set has a command on the parent, the two canonical
singleton sets `{<1,E,D>}` and `{<1/2/3,E,F(f)>}` violate none of (a)-(d) —
no set touches the parent `1/2` — yet `check_refluent` returns false,
because the code rejects an up pointer that is not on the parent
unconditionally. -/
theorem check_refluent_claim_counterexample :
    check_refluent [[⟨⟨["1"]⟩, ⟨100, ""⟩, ⟨102, ""⟩⟩],
        [⟨⟨["1", "2", "3"]⟩, ⟨100, ""⟩, ⟨101, "f"⟩⟩]] = false
    ∧ ¬ ((∃ i j : Fin (refluent_union [[⟨⟨["1"]⟩, ⟨100, ""⟩, ⟨102, ""⟩⟩],
            [⟨⟨["1", "2", "3"]⟩, ⟨100, ""⟩, ⟨101, "f"⟩⟩]]).length, i < j ∧
            ((refluent_union [[⟨⟨["1"]⟩, ⟨100, ""⟩, ⟨102, ""⟩⟩],
              [⟨⟨["1", "2", "3"]⟩, ⟨100, ""⟩, ⟨101, "f"⟩⟩]]).get i).1.node =
              ((refluent_union [[⟨⟨["1"]⟩, ⟨100, ""⟩, ⟨102, ""⟩⟩],
                [⟨⟨["1", "2", "3"]⟩, ⟨100, ""⟩, ⟨101, "f"⟩⟩]]).get j).1.node ∧
            ((refluent_union [[⟨⟨["1"]⟩, ⟨100, ""⟩, ⟨102, ""⟩⟩],
              [⟨⟨["1", "2", "3"]⟩, ⟨100, ""⟩, ⟨101, "f"⟩⟩]]).get i).1.before ≠
              ((refluent_union [[⟨⟨["1"]⟩, ⟨100, ""⟩, ⟨102, ""⟩⟩],
                [⟨⟨["1", "2", "3"]⟩, ⟨100, ""⟩, ⟨101, "f"⟩⟩]]).get j).1.before)
      ∨ (∃ p ∈ refluent_union [[⟨⟨["1"]⟩, ⟨100, ""⟩, ⟨102, ""⟩⟩],
            [⟨⟨["1", "2", "3"]⟩, ⟨100, ""⟩, ⟨101, "f"⟩⟩]], ∃ u, up_of p = some u ∧
          (∃ s ∈ [[(⟨⟨["1"]⟩, ⟨100, ""⟩, ⟨102, ""⟩⟩ : Command)],
              [⟨⟨["1", "2", "3"]⟩, ⟨100, ""⟩, ⟨101, "f"⟩⟩]], ∃ c' ∈ s,
            c'.node.path = p.1.node.path.dropLast) ∧
          u.node.is_parent_of p.1.node = false)
      ∨ (∃ p ∈ refluent_union [[⟨⟨["1"]⟩, ⟨100, ""⟩, ⟨102, ""⟩⟩],
            [⟨⟨["1", "2", "3"]⟩, ⟨100, ""⟩, ⟨101, "f"⟩⟩]], ∃ u, up_of p = some u ∧
          u.node.is_parent_of p.1.node = true ∧ u.before.is_dir = false ∧
          (node_index [[⟨⟨["1"]⟩, ⟨100, ""⟩, ⟨102, ""⟩⟩],
              [⟨⟨["1", "2", "3"]⟩, ⟨100, ""⟩, ⟨101, "f"⟩⟩]] p.1.node.path &&&
            node_index [[⟨⟨["1"]⟩, ⟨100, ""⟩, ⟨102, ""⟩⟩],
              [⟨⟨["1", "2", "3"]⟩, ⟨100, ""⟩, ⟨101, "f"⟩⟩]] u.node.path) ≠
            node_index [[⟨⟨["1"]⟩, ⟨100, ""⟩, ⟨102, ""⟩⟩],
              [⟨⟨["1", "2", "3"]⟩, ⟨100, ""⟩, ⟨101, "f"⟩⟩]] p.1.node.path)
      ∨ (∃ p ∈ refluent_union [[⟨⟨["1"]⟩, ⟨100, ""⟩, ⟨102, ""⟩⟩],
            [⟨⟨["1", "2", "3"]⟩, ⟨100, ""⟩, ⟨101, "f"⟩⟩]],
          p.1.before.is_empty = false ∧ ∃ u, up_of p = some u ∧
          (node_index [[⟨⟨["1"]⟩, ⟨100, ""⟩, ⟨102, ""⟩⟩],
              [⟨⟨["1", "2", "3"]⟩, ⟨100, ""⟩, ⟨101, "f"⟩⟩]] u.node.path &&&
            node_index [[⟨⟨["1"]⟩, ⟨100, ""⟩, ⟨102, ""⟩⟩],
              [⟨⟨["1", "2", "3"]⟩, ⟨100, ""⟩, ⟨101, "f"⟩⟩]] p.1.node.path) ≠
            node_index [[⟨⟨["1"]⟩, ⟨100, ""⟩, ⟨102, ""⟩⟩],
              [⟨⟨["1", "2", "3"]⟩, ⟨100, ""⟩, ⟨101, "f"⟩⟩]] u.node.path)) := by
  refine ⟨by decide, by decide⟩

/-! ### `get_greedy_merger` (C3) -/

/-- Modelled from the spec: the value model of spec 4.1 — a value's kind is
one of Empty, File, Directory (the numeric tags of value.py), and its
contents is "meaningful only for File; by convention empty for
Empty/Directory".  The merger claim quantifies over canonical command sets,
whose commands carry values of this model. -/
def Value.legal (v : Value) : Bool :=
  (v.type_ == Value.T_EMPTY || v.type_ == Value.T_FILE || v.type_ == Value.T_DIR) &&
    (v.type_ == Value.T_FILE || v.contents == "")

theorem legal_type_cases {v : Value} (h : v.legal = true) :
    v.type_ = 100 ∨ v.type_ = 101 ∨ v.type_ = 102 := by
  simp only [Value.legal, Value.T_EMPTY, Value.T_FILE, Value.T_DIR,
    Bool.and_eq_true, Bool.or_eq_true, beq_iff_eq] at h
  tauto

theorem legal_contents {v : Value} (h : v.legal = true) (h2 : v.type_ ≠ 101) :
    v.contents = "" := by
  simp only [Value.legal, Value.T_EMPTY, Value.T_FILE, Value.T_DIR,
    Bool.and_eq_true, Bool.or_eq_true, beq_iff_eq] at h
  tauto

theorem value_ext {a b : Value} (h1 : a.type_ = b.type_)
    (h2 : a.contents = b.contents) : a = b := by
  cases a; cases b; simp_all

theorem command_ext {c d : Command} (h1 : c.node = d.node)
    (h2 : c.before = d.before) (h3 : c.after = d.after) : c = d := by
  cases c; cases d; simp_all

theorem empty_not_dir {v : Value} (h : v.is_empty = true) : v.is_dir = false := by
  simp only [Value.is_empty, Value.T_EMPTY, beq_iff_eq] at h
  simp [Value.is_dir, Value.T_DIR, h]

theorem empty_after_destructor {c : Command} (hnn : c.is_null = false)
    (hb : c.before.legal = true) (ha : c.after.legal = true)
    (he : c.after.is_empty = true) :
    c.before.is_empty = false ∧ c.is_destructor = true := by
  simp only [Value.is_empty, Value.T_EMPTY, beq_iff_eq] at he
  have hac : c.after.contents = "" := legal_contents ha (by omega)
  have hbc := legal_type_cases hb
  have hbne : c.before.type_ ≠ 100 := by
    intro h100
    have hbc' : c.before.contents = "" := legal_contents hb (by omega)
    have hnull : c.is_null = true := by
      simp [Command.is_null, Value.equals, h100, he, hbc', hac]
    simp [hnull] at hnn
  constructor
  · simp [Value.is_empty, Value.T_EMPTY, hbne]
  · simp only [Command.is_destructor, Value.type_less, he, decide_eq_true_eq]
    omega

theorem dir_after_constructor {c : Command} (hnn : c.is_null = false)
    (hb : c.before.legal = true) (ha : c.after.legal = true)
    (hd : c.after.is_dir = true) :
    c.before.is_dir = false ∧ c.is_constructor = true := by
  simp only [Value.is_dir, Value.T_DIR, beq_iff_eq] at hd
  have hac : c.after.contents = "" := legal_contents ha (by omega)
  have hbc := legal_type_cases hb
  have hbne : c.before.type_ ≠ 102 := by
    intro h102
    have hbc' : c.before.contents = "" := legal_contents hb (by omega)
    have hnull : c.is_null = true := by
      simp [Command.is_null, Value.equals, h102, hd, hbc', hac]
    simp [hnull] at hnn
  constructor
  · simp [Value.is_dir, Value.T_DIR, hbne]
  · simp only [Command.is_constructor, Value.type_greater, hd, decide_eq_true_eq]
    omega

theorem destructor_of_dir_before {c : Command} (ha : c.after.legal = true)
    (hbd : c.before.is_dir = true) (had : c.after.is_dir = false) :
    c.is_destructor = true := by
  simp only [Value.is_dir, Value.T_DIR, beq_iff_eq] at hbd
  have hat := legal_type_cases ha
  have : c.after.type_ ≠ 102 := by
    intro h
    simp [Value.is_dir, Value.T_DIR, h] at had
  simp only [Command.is_destructor, Value.type_less, hbd, decide_eq_true_eq]
  omega

theorem empty_after_unique {c d : Command}
    (hca : c.after.legal = true) (hda : d.after.legal = true)
    (hn : c.node.path = d.node.path) (hb : c.before = d.before)
    (hce : c.after.is_empty = true) (hde : d.after.is_empty = true) : c = d := by
  have e1 : c.after.type_ = 100 := by
    simpa [Value.is_empty, Value.T_EMPTY] using hce
  have e2 : d.after.type_ = 100 := by
    simpa [Value.is_empty, Value.T_EMPTY] using hde
  have e3 : c.after.contents = "" := legal_contents hca (by omega)
  have e4 : d.after.contents = "" := legal_contents hda (by omega)
  exact command_ext (Node.path_inj hn) hb
    (value_ext (e1.trans e2.symm) (e3.trans e4.symm))

theorem empty_lt_nonempty {v w : Value} (hv : v.is_empty = true)
    (hw : w.is_empty = false) (hl : w.legal = true) : VLt v w := by
  have h1 : v.type_ = 100 := by simpa [Value.is_empty, Value.T_EMPTY] using hv
  have h2 : w.type_ ≠ 100 := by
    intro h
    simp [Value.is_empty, Value.T_EMPTY, h] at hw
  have := legal_type_cases hl
  exact Or.inl (by omega)

/-- The `delete_on_node` test of the merger scan (csequence.py line 309). -/
def del_same : Option Node → Node → Bool
  | some m, n => n.equals m
  | none, _ => false

/-- The scan loop of `get_greedy_merger` (csequence.py lines 305-335): `del`
is the node of the last emitted command (`delete_on_node`), `dcd` the
per-node `delete_conflicts_down` flag, keyed by path since every path is a
single interned `Node` object (session.py). -/
def greedy_loop : Option Node → (List String → Bool) →
    List (Command × List Command) → List Command
  | _, _, [] => []
  | del, dcd, p :: rest =>
    if del_same del p.1.node then greedy_loop del dcd rest
    else
      let carried : Bool :=
        match up_of p with
        | some u => dcd u.node.path
        | none => false
      let dcd1 := if carried then set_flag dcd p.1.node.path true else dcd
      if carried && !p.1.after.is_empty then greedy_loop del dcd1 rest
      else
        p.1 :: greedy_loop (some p.1.node)
          (if p.1.after.is_dir then dcd1 else set_flag dcd1 p.1.node.path true) rest

/-- `CSequence.get_greedy_merger` (csequence.py lines 285-337): scan the
(node, value)-ordered union with up pointers, greedily keeping the first
surviving command per node. -/
def get_greedy_merger (css : List (List Command)) : List Command :=
  greedy_loop none (fun _ => false) (add_up_pointers (from_set_union css))

theorem greedy_loop_nil (del : Option Node) (dcd : List String → Bool) :
    greedy_loop del dcd [] = [] := by
  cases del <;> rfl

theorem greedy_loop_cons (del : Option Node) (dcd : List String → Bool)
    (p : Command × List Command) (rest : List (Command × List Command)) :
    greedy_loop del dcd (p :: rest) =
      if del_same del p.1.node then greedy_loop del dcd rest
      else
        let carried : Bool :=
          match up_of p with
          | some u => dcd u.node.path
          | none => false
        let dcd1 := if carried then set_flag dcd p.1.node.path true else dcd
        if carried && !p.1.after.is_empty then greedy_loop del dcd1 rest
        else
          p.1 :: greedy_loop (some p.1.node)
            (if p.1.after.is_dir then dcd1 else set_flag dcd1 p.1.node.path true)
            rest := by
  cases del <;> rfl

/-! #### Up pointers at a split of the processed sequence -/

theorem nearest_up_list_nil (pre : List Command) : nearest_up_list pre [] = [] := rfl

theorem nearest_up_list_cons (pre : List Command) (c : Command)
    (rest : List Command) :
    nearest_up_list pre (c :: rest) =
      pre.find? (fun d => d.node.is_ancestor_of c.node) ::
        nearest_up_list (c :: pre) rest := rfl

theorem nearest_up_list_length :
    ∀ (pre l : List Command), (nearest_up_list pre l).length = l.length
  | _, [] => rfl
  | pre, c :: rest => by
    rw [nearest_up_list_cons, List.length_cons, List.length_cons,
      nearest_up_list_length (c :: pre) rest]

theorem nearest_up_list_append :
    ∀ (A pre B : List Command),
      nearest_up_list pre (A ++ B) =
        nearest_up_list pre A ++ nearest_up_list (A.reverse ++ pre) B
  | [], pre, B => by simp [nearest_up_list_nil]
  | a :: A', pre, B => by
    rw [List.cons_append, nearest_up_list_cons,
      nearest_up_list_append A' (a :: pre) B, nearest_up_list_cons]
    simp [List.reverse_cons, List.append_assoc]

theorem up_of_at_split {l : List Command} (hl : l.Pairwise nodeSortLe)
    {s : List (Command × List Command)} {p : Command × List Command}
    {t : List (Command × List Command)}
    (hsplit : add_up_pointers l = s ++ p :: t) :
    l = s.map Prod.fst ++ p.1 :: t.map Prod.fst
    ∧ up_of p = ((s.map Prod.fst).reverse).find?
        (fun d => d.node.is_ancestor_of p.1.node) := by
  have hfst : l = s.map Prod.fst ++ p.1 :: t.map Prod.fst := by
    have h0 := add_up_aux_fst [] l
    rw [show add_up_aux [] l = add_up_pointers l from rfl, hsplit] at h0
    simpa using h0.symm
  refine ⟨hfst, ?_⟩
  have hmap : (add_up_pointers l).map up_of = nearest_up_list [] l := by
    refine add_up_aux_heads l [] [] ?_ ?_ ?_ hl
    · intro d hd
      exact absurd hd (List.not_mem_nil d)
    · intro n _
      rfl
    · intro d hd
      exact absurd hd (List.not_mem_nil d)
  rw [hsplit, List.map_append] at hmap
  rw [hfst] at hmap
  rw [nearest_up_list_append] at hmap
  have hlen : (s.map up_of).length =
      (nearest_up_list [] (s.map Prod.fst)).length := by
    simp [nearest_up_list_length]
  obtain ⟨_, h2⟩ := List.append_inj hmap hlen
  rw [List.map_cons, nearest_up_list_cons, List.append_nil] at h2
  simp only [List.cons.injEq] at h2
  exact h2.1

theorem up_of_split_some {l : List Command} (hl : l.Pairwise nodeSortLe)
    {s : List (Command × List Command)} {p : Command × List Command}
    {t : List (Command × List Command)}
    (hsplit : add_up_pointers l = s ++ p :: t) {u : Command}
    (hu : up_of p = some u) :
    u ∈ s.map Prod.fst ∧ u.node.is_ancestor_of p.1.node = true := by
  obtain ⟨_, hfind⟩ := up_of_at_split hl hsplit
  rw [hu] at hfind
  refine ⟨List.mem_reverse.mp (List.mem_of_find?_eq_some hfind.symm), ?_⟩
  simpa using List.find?_some hfind.symm

theorem mem_split_prefix_of_lt {l : List Command} (hl : l.Pairwise nodeSortLe)
    {s : List (Command × List Command)} {p : Command × List Command}
    {t : List (Command × List Command)}
    (hsplit : add_up_pointers l = s ++ p :: t) {d : Command}
    (hd : d ∈ l) (hlt : pathLt d.node.path p.1.node.path = true) :
    d ∈ s.map Prod.fst := by
  obtain ⟨hfst, _⟩ := up_of_at_split hl hsplit
  rw [hfst] at hd hl
  rcases List.mem_append.mp hd with h | h
  · exact h
  · rcases List.mem_cons.mp h with rfl | h'
    · rw [pathLt_irrefl] at hlt
      cases hlt
    · obtain ⟨_, h2, _⟩ := List.pairwise_append.mp hl
      have hrel : nodeSortLe p.1 d := (List.pairwise_cons.mp h2).1 d h'
      rw [nodeSortLe] at hrel
      simp [hrel] at hlt

theorem up_of_split_exists {l : List Command} (hl : l.Pairwise nodeSortLe)
    {s : List (Command × List Command)} {p : Command × List Command}
    {t : List (Command × List Command)}
    (hsplit : add_up_pointers l = s ++ p :: t) {d : Command}
    (hd : d ∈ l) (hanc : d.node.is_ancestor_of p.1.node = true) :
    ∃ u, up_of p = some u := by
  obtain ⟨_, hfind⟩ := up_of_at_split hl hsplit
  have hmem : d ∈ (s.map Prod.fst).reverse :=
    List.mem_reverse.mpr (mem_split_prefix_of_lt hl hsplit hd (pathLt_of_ancestor hanc))
  cases hu : up_of p with
  | some u => exact ⟨u, rfl⟩
  | none =>
    rw [hu] at hfind
    have := List.find?_eq_none.mp hfind.symm d hmem
    simp [hanc] at this

theorem find?_eq_some_split {α : Type} (p : α → Bool) :
    ∀ (l : List α) (a : α), l.find? p = some a →
      ∃ A B, l = A ++ a :: B ∧ ∀ x ∈ A, p x = false
  | [], a, h => by simp at h
  | x :: l', a, h => by
    by_cases hx : p x
    · rw [List.find?_cons_of_pos _ hx] at h
      obtain rfl : x = a := Option.some_inj.mp h
      exact ⟨[], l', rfl, by simp⟩
    · rw [List.find?_cons_of_neg _ hx] at h
      obtain ⟨A, B, hAB, hA⟩ := find?_eq_some_split p l' a h
      refine ⟨x :: A, B, by rw [hAB]; rfl, ?_⟩
      intro y hy
      rcases List.mem_cons.mp hy with rfl | hy'
      · exact Bool.eq_false_iff.mpr hx
      · exact hA y hy'

theorem prefix_dropLast_of_proper {a c : List String} (hpre : a <+: c)
    (hne : a ≠ c) : a <+: c.dropLast := by
  have hlen : a.length < c.length := by
    rcases lt_or_eq_of_le (List.IsPrefix.length_le hpre) with h | h
    · exact h
    · exact absurd (List.IsPrefix.eq_of_length hpre h) hne
  have ha := List.prefix_iff_eq_take.mp hpre
  rw [List.dropLast_eq_take]
  have htt : (c.take (c.length - 1)).take a.length = c.take a.length := by
    rw [List.take_take, Nat.min_eq_left (by omega)]
  rw [ha, ← htt]
  exact List.take_prefix _ _

theorem parent_ancestor {e : Command} {n : Node}
    (hpath : e.node.path = n.path.dropLast) (hne : n.path ≠ []) :
    e.node.is_ancestor_of n = true := by
  rw [Node.is_ancestor_iff]
  constructor
  · rw [hpath, List.dropLast_eq_take]
    exact List.take_prefix _ _
  · rw [hpath]
    intro hcontra
    have h1 := congrArg List.length hcontra
    rw [List.length_dropLast] at h1
    have h2 : n.path.length ≠ 0 := fun h0 => hne (List.length_eq_zero.mp h0)
    omega

theorem pairwise_le_of_strict {l : List Command} (h : l.Pairwise nodeLtStrict) :
    l.Pairwise nodeSortLe :=
  h.imp fun hab => pathLt_asymm hab

theorem up_of_parent_split {l : List Command} (hstrict : l.Pairwise nodeLtStrict)
    {s : List (Command × List Command)} {p : Command × List Command}
    {t : List (Command × List Command)}
    (hsplit : add_up_pointers l = s ++ p :: t)
    {e : Command} (he : e ∈ l) (hep : e.node.path = p.1.node.path.dropLast)
    (hne : p.1.node.path ≠ []) :
    up_of p = some e := by
  have hl : l.Pairwise nodeSortLe := pairwise_le_of_strict hstrict
  obtain ⟨hfst, hfind⟩ := up_of_at_split hl hsplit
  have hanc : e.node.is_ancestor_of p.1.node = true := parent_ancestor hep hne
  have hes : e ∈ s.map Prod.fst :=
    mem_split_prefix_of_lt hl hsplit he (pathLt_of_ancestor hanc)
  cases hu : up_of p with
  | none =>
    rw [hu] at hfind
    have := List.find?_eq_none.mp hfind.symm e (List.mem_reverse.mpr hes)
    simp [hanc] at this
  | some u =>
    rw [hu] at hfind
    obtain ⟨A, B, hAB, hA⟩ := find?_eq_some_split _ _ _ hfind.symm
    have hupred : u.node.is_ancestor_of p.1.node = true := by
      simpa using List.find?_some hfind.symm
    by_cases heu : u = e
    · rw [heu]
    · have hemem : e ∈ A ++ u :: B := by
        rw [← hAB]
        exact List.mem_reverse.mpr hes
      rcases List.mem_append.mp hemem with hEA | hEB
      · have := hA e hEA
        simp [hanc] at this
      · rcases List.mem_cons.mp hEB with rfl | hEB'
        · exact absurd rfl heu
        · have hsrev : s.map Prod.fst = B.reverse ++ u :: A.reverse := by
            have := congrArg List.reverse hAB
            simpa [List.reverse_append] using this
          have hspair : (s.map Prod.fst).Pairwise nodeLtStrict := by
            rw [hfst] at hstrict
            exact (List.pairwise_append.mp hstrict).1
          rw [hsrev] at hspair
          obtain ⟨_, _, hcross⟩ := List.pairwise_append.mp hspair
          have heu' : nodeLtStrict e u :=
            hcross e (List.mem_reverse.mpr hEB') u (List.mem_cons_self _ _)
          obtain ⟨hupre, hune⟩ := (Node.is_ancestor_iff _ _).mp hupred
          have hue : u.node.path <+: e.node.path := by
            rw [hep]
            exact prefix_dropLast_of_proper hupre hune
          rcases Classical.em (u.node.path = e.node.path) with hpe | hpe
          · rw [nodeLtStrict, hpe] at heu'
            rw [pathLt_irrefl] at heu'
            cases heu'
          · have hlt := pathLt_of_ne_prefix hue hpe
            rw [nodeLtStrict] at heu'
            rw [pathLt_asymm hlt] at heu'
            cases heu'

/-! #### Consequences of joint refluency on the merger's union -/

theorem CLt_nodeSortLe {a b : Command} (h : CLt a b) : nodeSortLe a b := by
  rcases h with h | ⟨heq, _⟩
  · exact pathLt_asymm h
  · rw [nodeSortLe, heq]
    exact pathLt_irrefl _

theorem union_pairwise_le (css : List (List Command)) :
    (from_set_union css).Pairwise nodeSortLe :=
  (from_set_union_pairwise_clt css).imp fun h => CLt_nodeSortLe h

theorem union_order_eq (css : List (List Command)) :
    order_by_node (from_set_union css) = from_set_union css :=
  List.Sorted.insertionSort_eq (union_pairwise_le css)

theorem refluent_facts (css : List (List Command))
    (href : check_refluent css = true) :
    (add_up_pointers (from_set_union css)).Pairwise
      (fun p q => p.1.node = q.1.node → p.1.before = q.1.before)
    ∧ ∀ p ∈ add_up_pointers (from_set_union css),
        cond_bcd (node_index css) p = false := by
  rw [check_refluent, refluent_union, union_order_eq] at href
  rw [refluent_scan_iff] at href
  obtain ⟨_, hchain, hcond⟩ := href
  constructor
  · refine chain_before_pairwise _ ?_ hchain
    have := union_pairs_sorted css
    rwa [union_order_eq] at this
  · exact hcond

theorem pairwise_mem_sym {α : Type} {R : α → α → Prop}
    (hsym : ∀ a b, R a b → R b a) (hrefl : ∀ a, R a a) :
    ∀ {l : List α}, l.Pairwise R → ∀ a ∈ l, ∀ b ∈ l, R a b := by
  intro l h
  induction h with
  | nil =>
    intro a ha
    exact absurd ha (List.not_mem_nil a)
  | cons hx _ ih =>
    intro a ha b hb
    rcases List.mem_cons.mp ha with ha' | ha' <;>
      rcases List.mem_cons.mp hb with hb' | hb'
    · rw [ha', hb']
      exact hrefl _
    · rw [ha']
      exact hx b hb'
    · rw [hb']
      exact hsym _ _ (hx a ha')
    · exact ih a ha' b hb'

theorem same_node_same_before (css : List (List Command))
    (href : check_refluent css = true) :
    ∀ c ∈ from_set_union css, ∀ d ∈ from_set_union css,
      c.node = d.node → c.before = d.before := by
  have hpair := (refluent_facts css href).1
  have hU : (from_set_union css).Pairwise
      (fun c d => c.node = d.node → c.before = d.before) := by
    have hmap : (add_up_pointers (from_set_union css)).map Prod.fst =
        from_set_union css := add_up_aux_fst [] _
    rw [← hmap]
    exact List.pairwise_map.mpr hpair
  refine pairwise_mem_sym ?_ ?_ hU
  · intro a b hab h
    exact (hab h.symm).symm
  · intro a _
    rfl

theorem testBit_or_shift (acc i j : Nat) :
    (acc ||| (1 <<< i)).testBit j = (acc.testBit j || decide (i = j)) := by
  rw [Nat.testBit_or, Nat.shiftLeft_eq, one_mul, Nat.testBit_two_pow]

theorem node_index_fold_testBit (q : List String) :
    ∀ (l : List (Nat × List Command)) (acc : Nat) (j : Nat),
      ((l.foldl (fun a pair =>
          if pair.2.any (fun c => c.node.path == q) then a ||| (1 <<< pair.1)
          else a) acc).testBit j = true) ↔
        (acc.testBit j = true ∨
          ∃ pr ∈ l, pr.1 = j ∧ pr.2.any (fun c => c.node.path == q) = true)
  | [], acc, j => by simp
  | pr0 :: l', acc, j => by
    rw [List.foldl_cons]
    by_cases h0 : pr0.2.any (fun c => c.node.path == q) = true
    · rw [if_pos h0, node_index_fold_testBit q l' _ j, testBit_or_shift]
      constructor
      · rintro (h | ⟨pr, hpr, h1, h2⟩)
        · rcases Bool.or_eq_true _ _ |>.mp h with h | h
          · exact Or.inl h
          · exact Or.inr ⟨pr0, List.mem_cons_self _ _, of_decide_eq_true h, h0⟩
        · exact Or.inr ⟨pr, List.mem_cons_of_mem _ hpr, h1, h2⟩
      · rintro (h | ⟨pr, hpr, h1, h2⟩)
        · exact Or.inl (Bool.or_eq_true _ _ |>.mpr (Or.inl h))
        · rcases List.mem_cons.mp hpr with rfl | hpr'
          · exact Or.inl (Bool.or_eq_true _ _ |>.mpr (Or.inr (decide_eq_true h1)))
          · exact Or.inr ⟨pr, hpr', h1, h2⟩
    · rw [if_neg h0, node_index_fold_testBit q l' _ j]
      constructor
      · rintro (h | ⟨pr, hpr, h1, h2⟩)
        · exact Or.inl h
        · exact Or.inr ⟨pr, List.mem_cons_of_mem _ hpr, h1, h2⟩
      · rintro (h | ⟨pr, hpr, h1, h2⟩)
        · exact Or.inl h
        · rcases List.mem_cons.mp hpr with rfl | hpr'
          · exact absurd h2 h0
          · exact Or.inr ⟨pr, hpr', h1, h2⟩

theorem node_index_testBit (css : List (List Command)) (q : List String)
    (j : Nat) :
    (node_index css q).testBit j = true ↔
      ∃ pr ∈ css.enum, pr.1 = j ∧
        pr.2.any (fun c => c.node.path == q) = true := by
  rw [node_index, node_index_fold_testBit]
  simp [Nat.zero_testBit]

theorem mem_enum_pair {α : Type} {l : List α} {pr : Nat × α} (h : pr ∈ l.enum) :
    ∃ (k : Nat) (hk : k < l.length), pr = (k, l.get ⟨k, hk⟩) := by
  obtain ⟨⟨k, hk⟩, hget⟩ := List.mem_iff_get.mp h
  have hk' : k < l.length := by simpa [List.enum_length] using hk
  refine ⟨k, hk', ?_⟩
  rw [← hget, List.get_eq_getElem, List.getElem_enum]
  simp [List.get_eq_getElem]

theorem idx_transfer (css : List (List Command)) {a b : List String}
    (h : node_index css a &&& node_index css b = node_index css a)
    {S : List Command} (hS : S ∈ css) {c : Command} (hc : c ∈ S)
    (hpath : c.node.path = a) :
    ∃ e ∈ S, e.node.path = b := by
  obtain ⟨⟨i, hi⟩, hgetS⟩ := List.mem_iff_get.mp hS
  have hbitA : (node_index css a).testBit i = true := by
    rw [node_index_testBit]
    refine ⟨(i, S), ?_, rfl, ?_⟩
    · have henum : css.enum.get ⟨i, by simpa [List.enum_length] using hi⟩ =
          (i, css.get ⟨i, hi⟩) := by
        rw [List.get_eq_getElem, List.getElem_enum]
        simp [List.get_eq_getElem]
      rw [← hgetS, ← henum]
      exact List.get_mem _ _ _
    · rw [List.any_eq_true]
      exact ⟨c, hc, by simp [hpath]⟩
  have hbitB : (node_index css b).testBit i = true := by
    have hAnd := congrArg (fun n => n.testBit i) h
    simp only [Nat.testBit_and] at hAnd
    rcases Bool.eq_false_or_eq_true ((node_index css b).testBit i) with hb | hb
    · exact hb
    · rw [hbitA, hb] at hAnd
      simp at hAnd
  rw [node_index_testBit] at hbitB
  obtain ⟨pr, hpr, h1, h2⟩ := hbitB
  obtain ⟨k, hk, rfl⟩ := mem_enum_pair hpr
  have hki : k = i := h1
  subst hki
  rw [List.any_eq_true] at h2
  obtain ⟨e, he, hep⟩ := h2
  have hSS : css.get ⟨k, hk⟩ = S := hgetS
  rw [hSS] at he
  exact ⟨e, he, by simpa using hep⟩

theorem refl_up_parent (css : List (List Command))
    (href : check_refluent css = true) :
    ∀ p ∈ add_up_pointers (from_set_union css), ∀ u, up_of p = some u →
      u.node.is_parent_of p.1.node = true := by
  intro p hp u hu
  have hcond := (refluent_facts css href).2 p hp
  rw [cond_bcd] at hcond
  simp only [Bool.or_eq_false_iff] at hcond
  rcases Bool.eq_false_or_eq_true (u.node.is_parent_of p.1.node) with h | h
  · exact h
  · exact absurd ((cond_b_true_iff p).mpr ⟨u, hu, h⟩) (by simp [hcond.1.1])

theorem refl_idx_c (css : List (List Command))
    (href : check_refluent css = true) :
    ∀ p ∈ add_up_pointers (from_set_union css), ∀ u, up_of p = some u →
      u.before.is_dir = false →
      node_index css p.1.node.path &&& node_index css u.node.path =
        node_index css p.1.node.path := by
  intro p hp u hu hdir
  have hcond := (refluent_facts css href).2 p hp
  rw [cond_bcd] at hcond
  simp only [Bool.or_eq_false_iff] at hcond
  by_contra hne
  exact absurd ((cond_c_true_iff (node_index css) p).mpr
    ⟨u, hu, refl_up_parent css href p hp u hu, hdir, hne⟩) (by simp [hcond.1.2])

theorem refl_idx_d (css : List (List Command))
    (href : check_refluent css = true) :
    ∀ p ∈ add_up_pointers (from_set_union css),
      p.1.before.is_empty = false → ∀ u, up_of p = some u →
      node_index css u.node.path &&& node_index css p.1.node.path =
        node_index css u.node.path := by
  intro p hp hemp u hu
  have hcond := (refluent_facts css href).2 p hp
  rw [cond_bcd] at hcond
  simp only [Bool.or_eq_false_iff] at hcond
  by_contra hne
  exact absurd ((cond_d_true_iff (node_index css) p).mpr ⟨hemp, u, hu, hne⟩)
    (by simp [hcond.2])

theorem union_cmd_facts (css : List (List Command))
    (hnn : ∀ s ∈ css, ∀ c ∈ s, c.is_null = false)
    (hlegal : ∀ s ∈ css, ∀ c ∈ s, c.before.legal = true ∧ c.after.legal = true) :
    ∀ c ∈ from_set_union css,
      c.is_null = false ∧ c.before.legal = true ∧ c.after.legal = true := by
  intro c hc
  obtain ⟨S, hS, hcS⟩ := mem_from_set_union.mp hc
  exact ⟨hnn S hS c hcS, (hlegal S hS c hcS).1, (hlegal S hS c hcS).2⟩

/-! #### The parent pair of a canonical set -/

theorem canonical_parent_pair {S : List Command} (hS : is_set_canonical S = true)
    {u₀ c₀ : Command} (hu : u₀ ∈ S) (hc : c₀ ∈ S)
    (hpar : u₀.node.path = c₀.node.path.dropLast) (hne : c₀.node.path ≠ []) :
    (u₀.is_constructor_pair_with_next c₀ ||
      c₀.is_destructor_pair_with_next u₀) = true := by
  have hscan := (canonical_scan_iff
    (add_up_pointers (order_by_node (from_set S))) none).mp hS
  obtain ⟨_, _, hpairs⟩ := hscan
  have hstrict : (order_by_node S).Pairwise nodeLtStrict :=
    canonical_sorted_strict hS
  have hcL : c₀ ∈ order_by_node S := (List.mem_insertionSort nodeSortLe).mpr hc
  have huL : u₀ ∈ order_by_node S := (List.mem_insertionSort nodeSortLe).mpr hu
  have hmap : (add_up_pointers (order_by_node (from_set S))).map Prod.fst =
      order_by_node S := add_up_aux_fst [] _
  have hcM : c₀ ∈ (add_up_pointers (order_by_node (from_set S))).map Prod.fst := by
    rw [hmap]
    exact hcL
  obtain ⟨pc, hpcmem, hpc1⟩ := List.mem_map.mp hcM
  obtain ⟨s, t, hsplit⟩ := List.append_of_mem hpcmem
  have hup : up_of pc = some u₀ := by
    refine up_of_parent_split hstrict hsplit huL ?_ ?_
    · rw [hpc1]
      exact hpar
    · rw [hpc1]
      exact hne
  have hres := hpairs pc
    (by rw [hsplit]; exact List.mem_append_right _ (List.mem_cons_self _ _)) u₀ hup
  rw [hpc1] at hres
  exact hres

/-! #### Core facts used at the steps of the greedy scan -/

theorem union_split_fst_mem (css : List (List Command))
    {s : List (Command × List Command)} {p : Command × List Command}
    {t : List (Command × List Command)}
    (hsplit : add_up_pointers (from_set_union css) = s ++ p :: t) :
    p.1 ∈ from_set_union css ∧ ∀ d ∈ s.map Prod.fst, d ∈ from_set_union css := by
  obtain ⟨hfst, _⟩ := up_of_at_split (union_pairwise_le css) hsplit
  constructor
  · rw [hfst]
    exact List.mem_append_right _ (List.mem_cons_self _ _)
  · intro d hd
    rw [hfst]
    exact List.mem_append_left _ hd

theorem mem_split_prefix_of_clt (css : List (List Command))
    {s : List (Command × List Command)} {p : Command × List Command}
    {t : List (Command × List Command)}
    (hsplit : add_up_pointers (from_set_union css) = s ++ p :: t)
    {d : Command} (hd : d ∈ from_set_union css) (hlt : CLt d p.1) :
    d ∈ s.map Prod.fst := by
  obtain ⟨hfst, _⟩ := up_of_at_split (union_pairwise_le css) hsplit
  have hpc := from_set_union_pairwise_clt css
  rw [hfst] at hd hpc
  rcases List.mem_append.mp hd with h | h
  · exact h
  · rcases List.mem_cons.mp h with h' | h'
    · rw [h'] at hlt
      exact absurd hlt (CLt_irrefl _)
    · obtain ⟨_, h2, _⟩ := List.pairwise_append.mp hpc
      have := (List.pairwise_cons.mp h2).1 d h'
      exact absurd (CLt_trans hlt this) (CLt_irrefl _)

theorem up_context (css : List (List Command)) (href : check_refluent css = true)
    {s : List (Command × List Command)} {p : Command × List Command}
    {t : List (Command × List Command)}
    (hsplit : add_up_pointers (from_set_union css) = s ++ p :: t)
    {u : Command} (hu : up_of p = some u) :
    p ∈ add_up_pointers (from_set_union css)
    ∧ p.1 ∈ from_set_union css
    ∧ u ∈ from_set_union css
    ∧ u ∈ s.map Prod.fst
    ∧ u.node.path = p.1.node.path.dropLast
    ∧ p.1.node.path ≠ [] := by
  have hple := union_pairwise_le css
  have hpmem : p ∈ add_up_pointers (from_set_union css) := by
    rw [hsplit]
    exact List.mem_append_right _ (List.mem_cons_self _ _)
  obtain ⟨hus, huanc⟩ := up_of_split_some hple hsplit hu
  have huU : u ∈ from_set_union css := (union_split_fst_mem css hsplit).2 u hus
  have hparent : u.node.is_parent_of p.1.node = true :=
    refl_up_parent css href p hpmem u hu
  have hpar : u.node.path = p.1.node.path.dropLast := by
    simpa [Node.is_parent_iff] using hparent
  have hnonnil : p.1.node.path ≠ [] := by
    obtain ⟨_, hne'⟩ := (Node.is_ancestor_iff _ _).mp huanc
    intro h0
    apply hne'
    rw [hpar, h0]
    rfl
  exact ⟨hpmem, (union_split_fst_mem css hsplit).1, huU, hus, hpar, hnonnil⟩

theorem carried_core (css : List (List Command))
    (hcanon : ∀ s ∈ css, is_set_canonical s = true)
    (href : check_refluent css = true)
    {s : List (Command × List Command)} {p : Command × List Command}
    {t : List (Command × List Command)}
    (hsplit : add_up_pointers (from_set_union css) = s ++ p :: t)
    {u : Command} (hu : up_of p = some u)
    (hbne : p.1.before.is_empty = false) :
    u.before.is_dir = true ∧
      ∃ f_ ∈ from_set_union css, f_.node.path = p.1.node.path ∧
        f_.after.is_empty = true ∧ f_.before = p.1.before := by
  obtain ⟨hpmem, hp1U, huU, _, hpar, hnonnil⟩ := up_context css href hsplit hu
  have hidx := refl_idx_d css href p hpmem hbne u hu
  obtain ⟨T, hT, huT⟩ := mem_from_set_union.mp huU
  obtain ⟨c2, hc2T, hc2path⟩ := idx_transfer css hidx hT huT rfl
  have hc2U : c2 ∈ from_set_union css := mem_from_set_union.mpr ⟨T, hT, hc2T⟩
  have hpair := canonical_parent_pair (hcanon T hT) huT hc2T
    (by rw [hc2path]; exact hpar) (by rw [hc2path]; exact hnonnil)
  have hbeq : c2.before = p.1.before :=
    same_node_same_before css href c2 hc2U p.1 hp1U (Node.path_inj hc2path)
  rcases Bool.or_eq_true _ _ |>.mp hpair with hcp | hdp
  · exfalso
    simp only [Command.is_constructor_pair_with_next, Bool.and_eq_true] at hcp
    have hc2e : c2.before.is_empty = true := hcp.1.2
    rw [hbeq] at hc2e
    rw [hc2e] at hbne
    cases hbne
  · simp only [Command.is_destructor_pair_with_next, Bool.and_eq_true] at hdp
    exact ⟨hdp.1.2, c2, hc2U, hc2path, hdp.1.1.1.2, hbeq⟩

theorem greedy_pair_constructor (css : List (List Command))
    (hcanon : ∀ s ∈ css, is_set_canonical s = true)
    (hnn : ∀ s ∈ css, ∀ c ∈ s, c.is_null = false)
    (hlegal : ∀ s ∈ css, ∀ c ∈ s, c.before.legal = true ∧ c.after.legal = true)
    (href : check_refluent css = true)
    {s : List (Command × List Command)} {p : Command × List Command}
    {t : List (Command × List Command)}
    (hsplit : add_up_pointers (from_set_union css) = s ++ p :: t)
    {u : Command} (hu : up_of p = some u)
    {e : Command} (he : e ∈ from_set_union css)
    (hepath : e.node.path = u.node.path) (hedir : e.after.is_dir = true) :
    e.node.path = p.1.node.path.dropLast ∧
      (e.is_constructor_pair_with_next p.1 ||
        p.1.is_destructor_pair_with_next e) = true := by
  obtain ⟨hpmem, hp1U, huU, _, hpar, hnonnil⟩ := up_context css href hsplit hu
  obtain ⟨henn, hebl, heal⟩ := union_cmd_facts css hnn hlegal e he
  obtain ⟨hebdir, hector⟩ := dir_after_constructor henn hebl heal hedir
  have hube : u.before = e.before :=
    same_node_same_before css href u huU e he (Node.path_inj hepath.symm)
  have hubdir : u.before.is_dir = false := by
    rw [hube]
    exact hebdir
  have hidx := refl_idx_c css href p hpmem u hu hubdir
  obtain ⟨S, hS, hpS⟩ := mem_from_set_union.mp hp1U
  obtain ⟨e', he'S, he'path⟩ := idx_transfer css hidx hS hpS rfl
  have he'U : e' ∈ from_set_union css := mem_from_set_union.mpr ⟨S, hS, he'S⟩
  have hpair := canonical_parent_pair (hcanon S hS) he'S hpS
    (by rw [he'path]; exact hpar) hnonnil
  have he'b : e'.before = u.before :=
    same_node_same_before css href e' he'U u huU (Node.path_inj he'path)
  rcases Bool.or_eq_true _ _ |>.mp hpair with hcp | hdp
  · simp only [Command.is_constructor_pair_with_next, Bool.and_eq_true] at hcp
    refine ⟨by rw [hepath]; exact hpar, ?_⟩
    refine Bool.or_eq_true _ _ |>.mpr (Or.inl ?_)
    simp only [Command.is_constructor_pair_with_next, Bool.and_eq_true]
    refine ⟨⟨⟨⟨hector, hedir⟩, hcp.1.1.2⟩, hcp.1.2⟩, ?_⟩
    rw [Node.is_parent_iff, hepath]
    exact hpar
  · exfalso
    simp only [Command.is_destructor_pair_with_next, Bool.and_eq_true] at hdp
    have hd : e'.before.is_dir = true := hdp.1.2
    rw [he'b] at hd
    rw [hd] at hubdir
    cases hubdir

theorem greedy_pair_destructor (css : List (List Command))
    (hcanon : ∀ s ∈ css, is_set_canonical s = true)
    (hnn : ∀ s ∈ css, ∀ c ∈ s, c.is_null = false)
    (hlegal : ∀ s ∈ css, ∀ c ∈ s, c.before.legal = true ∧ c.after.legal = true)
    (href : check_refluent css = true)
    {s : List (Command × List Command)} {p : Command × List Command}
    {t : List (Command × List Command)}
    (hsplit : add_up_pointers (from_set_union css) = s ++ p :: t)
    {u : Command} (hu : up_of p = some u)
    (hae : p.1.after.is_empty = true)
    {e : Command} (he : e ∈ from_set_union css)
    (hepath : e.node.path = u.node.path) (hedir : e.after.is_dir = false) :
    e.node.path = p.1.node.path.dropLast ∧
      (e.is_constructor_pair_with_next p.1 ||
        p.1.is_destructor_pair_with_next e) = true := by
  obtain ⟨_, hp1U, huU, _, hpar, _⟩ := up_context css href hsplit hu
  obtain ⟨hpnn, hpbl, hpal⟩ := union_cmd_facts css hnn hlegal p.1 hp1U
  obtain ⟨hbne, hpdes⟩ := empty_after_destructor hpnn hpbl hpal hae
  obtain ⟨hubdir, _⟩ := carried_core css hcanon href hsplit hu hbne
  obtain ⟨_, _, heal⟩ := union_cmd_facts css hnn hlegal e he
  have hebd : e.before.is_dir = true := by
    have hube : e.before = u.before :=
      same_node_same_before css href e he u huU (Node.path_inj hepath)
    rw [hube]
    exact hubdir
  have hedes : e.is_destructor = true := destructor_of_dir_before heal hebd hedir
  refine ⟨by rw [hepath]; exact hpar, ?_⟩
  refine Bool.or_eq_true _ _ |>.mpr (Or.inr ?_)
  simp only [Command.is_destructor_pair_with_next, Bool.and_eq_true]
  refine ⟨⟨⟨⟨hpdes, hae⟩, hedes⟩, hebd⟩, ?_⟩
  rw [Node.is_parent_iff, hepath]
  exact hpar

theorem empty_after_in_prefix (css : List (List Command))
    (hnn : ∀ s ∈ css, ∀ c ∈ s, c.is_null = false)
    (hlegal : ∀ s ∈ css, ∀ c ∈ s, c.before.legal = true ∧ c.after.legal = true)
    (href : check_refluent css = true)
    {s : List (Command × List Command)} {p : Command × List Command}
    {t : List (Command × List Command)}
    (hsplit : add_up_pointers (from_set_union css) = s ++ p :: t)
    {f_ : Command} (hf : f_ ∈ from_set_union css)
    (hfpath : f_.node.path = p.1.node.path) (hfe : f_.after.is_empty = true)
    (hne : f_ ≠ p.1) :
    f_ ∈ s.map Prod.fst := by
  have hp1U := (union_split_fst_mem css hsplit).1
  obtain ⟨_, _, hfal⟩ := union_cmd_facts css hnn hlegal f_ hf
  obtain ⟨_, _, hpal⟩ := union_cmd_facts css hnn hlegal p.1 hp1U
  have hbeq : f_.before = p.1.before :=
    same_node_same_before css href f_ hf p.1 hp1U (Node.path_inj hfpath)
  have hpe : p.1.after.is_empty = false := by
    rcases Bool.eq_false_or_eq_true (p.1.after.is_empty) with h | h
    · exact absurd (empty_after_unique hfal hpal hfpath hbeq hfe h) hne
    · exact h
  have hclt : CLt f_ p.1 := Or.inr ⟨Node.path_inj hfpath,
    Or.inr ⟨hbeq, empty_lt_nonempty hfe hpe hpal⟩⟩
  exact mem_split_prefix_of_clt css hsplit hf hclt

/-! #### Step equations of the greedy scan -/

theorem set_flag_eval (f : List String → Bool) (p q : List String) (b : Bool) :
    set_flag f p b q = if q = p then b else f q := rfl

theorem greedy_loop_cons_del (del : Option Node) (dcd : List String → Bool)
    (p : Command × List Command) (rest : List (Command × List Command))
    (h : del_same del p.1.node = true) :
    greedy_loop del dcd (p :: rest) = greedy_loop del dcd rest := by
  rw [greedy_loop_cons, if_pos h]

theorem greedy_loop_cons_carried_skip (del : Option Node)
    (dcd : List String → Bool) (p : Command × List Command)
    (rest : List (Command × List Command)) {u : Command}
    (h : del_same del p.1.node = false) (hu : up_of p = some u)
    (hc : dcd u.node.path = true) (ha : p.1.after.is_empty = false) :
    greedy_loop del dcd (p :: rest) =
      greedy_loop del (set_flag dcd p.1.node.path true) rest := by
  rw [greedy_loop_cons, if_neg (by simp [h])]
  simp only [hu, hc, ha]
  rfl

theorem greedy_loop_cons_emit_carried (del : Option Node)
    (dcd : List String → Bool) (p : Command × List Command)
    (rest : List (Command × List Command)) {u : Command}
    (h : del_same del p.1.node = false) (hu : up_of p = some u)
    (hc : dcd u.node.path = true) (ha : p.1.after.is_empty = true) :
    greedy_loop del dcd (p :: rest) =
      p.1 :: greedy_loop (some p.1.node)
        (set_flag (set_flag dcd p.1.node.path true) p.1.node.path true) rest := by
  rw [greedy_loop_cons, if_neg (by simp [h])]
  simp only [hu, hc, ha, empty_not_dir ha]
  rfl

theorem greedy_loop_cons_emit_up_none (del : Option Node)
    (dcd : List String → Bool) (p : Command × List Command)
    (rest : List (Command × List Command))
    (h : del_same del p.1.node = false) (hu : up_of p = none) :
    greedy_loop del dcd (p :: rest) =
      p.1 :: greedy_loop (some p.1.node)
        (if p.1.after.is_dir then dcd else set_flag dcd p.1.node.path true)
        rest := by
  rw [greedy_loop_cons, if_neg (by simp [h])]
  simp only [hu]
  rfl

theorem greedy_loop_cons_emit_not_carried (del : Option Node)
    (dcd : List String → Bool) (p : Command × List Command)
    (rest : List (Command × List Command)) {u : Command}
    (h : del_same del p.1.node = false) (hu : up_of p = some u)
    (hc : dcd u.node.path = false) :
    greedy_loop del dcd (p :: rest) =
      p.1 :: greedy_loop (some p.1.node)
        (if p.1.after.is_dir then dcd else set_flag dcd p.1.node.path true)
        rest := by
  rw [greedy_loop_cons, if_neg (by simp [h])]
  simp only [hu, hc]
  rfl

theorem mem_lt_getLast {l : List Command} (hp : l.Pairwise nodeLtStrict)
    {e lc : Command} (he : e ∈ l) (hl : l.getLast? = some lc) :
    e = lc ∨ nodeLtStrict e lc := by
  induction l with
  | nil => cases he
  | cons a l' ih =>
    cases l' with
    | nil =>
      simp only [List.getLast?_singleton, Option.some_inj] at hl
      rcases List.mem_cons.mp he with h' | h'
      · exact Or.inl (h'.trans hl)
      · exact absurd h' (List.not_mem_nil e)
    | cons b l'' =>
      have hl' : (b :: l'').getLast? = some lc := hl
      rcases List.mem_cons.mp he with h' | h'
      · right
        rw [h']
        exact (List.pairwise_cons.mp hp).1 lc (List.mem_of_mem_getLast? hl')
      · exact ih (List.pairwise_cons.mp hp).2 h' hl'

theorem done_entry_weaken {done : List (Command × List Command)}
    {r : Command × List Command} {q : List String}
    (hq : ∃ r' ∈ done ++ [r], r'.1.node.path = q)
    (hcover : r.1.node.path = q → ∃ r' ∈ done, r'.1.node.path = q) :
    ∃ r' ∈ done, r'.1.node.path = q := by
  obtain ⟨r', hr', hpath⟩ := hq
  rcases List.mem_append.mp hr' with h | h
  · exact ⟨r', h, hpath⟩
  · rcases List.mem_cons.mp h with h' | h'
    · rw [h'] at hpath
      exact hcover hpath
    · exact absurd h' (List.not_mem_nil r')

/-- Every command already emitted sorts strictly below the head of the
remaining union when the `delete_on_node` check passes. -/
theorem emit_sorted_step (css : List (List Command))
    {done R' : List (Command × List Command)} {r : Command × List Command}
    (hsplit : add_up_pointers (from_set_union css) = done ++ r :: R')
    {prevM : List Command} (hsub : prevM.Sublist (done.map Prod.fst))
    (hpair : prevM.Pairwise nodeLtStrict)
    (hdel : del_same (prevM.getLast?.map (fun c => c.node)) r.1.node = false) :
    ∀ e ∈ prevM, nodeLtStrict e r.1 := by
  intro e hemem
  obtain ⟨hfst, _⟩ := up_of_at_split (union_pairwise_le css) hsplit
  have hUp := union_pairwise_le css
  rw [hfst] at hUp
  obtain ⟨_, _, hcross⟩ := List.pairwise_append.mp hUp
  have hedone : e ∈ done.map Prod.fst := hsub.subset hemem
  have hle : nodeSortLe e r.1 := hcross e hedone r.1 (List.mem_cons_self _ _)
  cases hlast : prevM.getLast? with
  | none =>
    have h0 : prevM = [] := List.getLast?_eq_none_iff.mp hlast
    rw [h0] at hemem
    exact absurd hemem (List.not_mem_nil e)
  | some lc =>
    have hlcdone : lc ∈ done.map Prod.fst :=
      hsub.subset (List.mem_of_mem_getLast? hlast)
    have hlcle : nodeSortLe lc r.1 := hcross lc hlcdone r.1 (List.mem_cons_self _ _)
    have hlcne : r.1.node ≠ lc.node := by
      rw [hlast] at hdel
      exact (Node.equals_false_iff _ _).mp (by simpa [del_same] using hdel)
    have hene : e.node ≠ r.1.node := by
      intro heq
      rcases mem_lt_getLast hpair hemem hlast with rfl | hlt
      · exact hlcne heq.symm
      · rw [nodeLtStrict, heq] at hlt
        rw [nodeSortLe] at hlcle
        rw [hlt] at hlcle
        cases hlcle
    rw [nodeLtStrict]
    rw [nodeSortLe] at hle
    rcases pathLt_trichotomy e.node.path r.1.node.path with ht | ht | ht
    · exact ht
    · exact absurd (Node.path_inj ht) hene
    · rw [ht] at hle
      cases hle

theorem dir_not_empty {v : Value} (h : v.is_dir = true) : v.is_empty = false := by
  simp only [Value.is_dir, Value.T_DIR, beq_iff_eq] at h
  simp [Value.is_empty, Value.T_EMPTY, h]

/-- The invariant facts after one emission step of the greedy scan. -/
theorem emission_step_inv (css : List (List Command))
    (hnn : ∀ s ∈ css, ∀ c ∈ s, c.is_null = false)
    (hlegal : ∀ s ∈ css, ∀ c ∈ s, c.before.legal = true ∧ c.after.legal = true)
    (href : check_refluent css = true)
    {done R' : List (Command × List Command)} {r : Command × List Command}
    (hsplit : add_up_pointers (from_set_union css) = done ++ r :: R')
    {del : Option Node} {dcd dcd2 : List String → Bool} {prevM : List Command}
    (hdel : del = prevM.getLast?.map (fun c => c.node))
    (hsub : prevM.Sublist (done.map Prod.fst))
    (hpair : prevM.Pairwise nodeLtStrict)
    (h4 : ∀ q : List String, (∃ r' ∈ done, r'.1.node.path = q) → dcd q = false →
      ∃ e ∈ prevM, e.node.path = q ∧ e.after.is_dir = true)
    (h5 : ∀ q : List String, (∃ r' ∈ done, r'.1.node.path = q) →
      ∀ f_ ∈ from_set_union css, f_.node.path = q → f_.after.is_empty = true →
        f_ ∈ prevM)
    (h6 : ∀ q : List String, (∃ r' ∈ done, r'.1.node.path = q) → dcd q = true →
      (∀ d ∈ from_set_union css, d.node.path = q → d.before.is_dir = true) →
      ∃ e ∈ prevM, e.node.path = q ∧ e.after.is_dir = false)
    (h7 : ∀ q : List String, dcd q = true → ∃ r' ∈ done, r'.1.node.path = q)
    (hds' : del_same del r.1.node = false)
    (hdcd2_ne : ∀ q, q ≠ r.1.node.path → dcd2 q = dcd q)
    (hdcd2_at_false : dcd2 r.1.node.path = false →
      dcd r.1.node.path = false ∧ r.1.after.is_dir = true)
    (hdcd2_at_true : dcd2 r.1.node.path = true →
      r.1.after.is_dir = false ∨ dcd r.1.node.path = true) :
    ((some r.1.node : Option Node) = (prevM ++ [r.1]).getLast?.map (fun c => c.node))
    ∧ (prevM ++ [r.1]).Sublist ((done ++ [r]).map Prod.fst)
    ∧ (prevM ++ [r.1]).Pairwise nodeLtStrict
    ∧ (∀ q : List String, (∃ r' ∈ done ++ [r], r'.1.node.path = q) →
        dcd2 q = false →
        ∃ e ∈ prevM ++ [r.1], e.node.path = q ∧ e.after.is_dir = true)
    ∧ (∀ q : List String, (∃ r' ∈ done ++ [r], r'.1.node.path = q) →
        ∀ f_ ∈ from_set_union css, f_.node.path = q → f_.after.is_empty = true →
          f_ ∈ prevM ++ [r.1])
    ∧ (∀ q : List String, (∃ r' ∈ done ++ [r], r'.1.node.path = q) →
        dcd2 q = true →
        (∀ d ∈ from_set_union css, d.node.path = q → d.before.is_dir = true) →
        ∃ e ∈ prevM ++ [r.1], e.node.path = q ∧ e.after.is_dir = false)
    ∧ (∀ q : List String, dcd2 q = true → ∃ r' ∈ done ++ [r], r'.1.node.path = q) := by
  have hsort := emit_sorted_step css hsplit hsub hpair (by rw [← hdel]; exact hds')
  refine ⟨?_, ?_, ?_, ?_, ?_, ?_, ?_⟩
  · rw [List.getLast?_concat]
    rfl
  · rw [List.map_append]
    exact hsub.append (List.Sublist.refl _)
  · rw [List.pairwise_append]
    refine ⟨hpair, List.pairwise_singleton _ _, ?_⟩
    intro e he b hb
    rcases List.mem_cons.mp hb with h' | h'
    · rw [h']
      exact hsort e he
    · exact absurd h' (List.not_mem_nil b)
  · intro q hq hflag
    by_cases hqn : q = r.1.node.path
    · obtain ⟨_, hdir⟩ := hdcd2_at_false (hqn ▸ hflag)
      exact ⟨r.1, List.mem_append_right _ (List.mem_cons_self _ _), hqn.symm, hdir⟩
    · rw [hdcd2_ne q hqn] at hflag
      have hqdone : ∃ r' ∈ done, r'.1.node.path = q :=
        done_entry_weaken hq (fun hp => absurd hp.symm hqn)
      obtain ⟨e, he, h1, h2⟩ := h4 q hqdone hflag
      exact ⟨e, List.mem_append_left _ he, h1, h2⟩
  · intro q hq f_ hf hfp hfe
    obtain ⟨r', hr', hpath⟩ := hq
    rcases List.mem_append.mp hr' with hrd | hrr
    · exact List.mem_append_left _ (h5 q ⟨r', hrd, hpath⟩ f_ hf hfp hfe)
    · rcases List.mem_cons.mp hrr with h' | h'
      · by_cases hfr : f_ = r.1
        · rw [hfr]
          exact List.mem_append_right _ (List.mem_cons_self _ _)
        · have hq' : q = r.1.node.path := by rw [← hpath, h']
          have hmem : f_ ∈ done.map Prod.fst :=
            empty_after_in_prefix css hnn hlegal href hsplit hf
              (by rw [hfp, hq']) hfe hfr
          obtain ⟨rf, hrf, hrf1⟩ := List.mem_map.mp hmem
          exact List.mem_append_left _
            (h5 q ⟨rf, hrf, by rw [hrf1, hfp]⟩ f_ hf hfp hfe)
      · exact absurd h' (List.not_mem_nil r')
  · intro q hq hflag hdirs
    by_cases hqn : q = r.1.node.path
    · rcases hdcd2_at_true (hqn ▸ hflag) with hnd | hold
      · exact ⟨r.1, List.mem_append_right _ (List.mem_cons_self _ _), hqn.symm, hnd⟩
      · have hqdone : ∃ r' ∈ done, r'.1.node.path = q :=
          h7 q (by rw [hqn]; exact hold)
        obtain ⟨e, he, h1, h2⟩ := h6 q hqdone (by rw [hqn]; exact hold) hdirs
        exact ⟨e, List.mem_append_left _ he, h1, h2⟩
    · rw [hdcd2_ne q hqn] at hflag
      have hqdone : ∃ r' ∈ done, r'.1.node.path = q :=
        done_entry_weaken hq (fun hp => absurd hp.symm hqn)
      obtain ⟨e, he, h1, h2⟩ := h6 q hqdone hflag hdirs
      exact ⟨e, List.mem_append_left _ he, h1, h2⟩
  · intro q hflag
    by_cases hqn : q = r.1.node.path
    · exact ⟨r, List.mem_append_right _ (List.mem_cons_self _ _), hqn.symm⟩
    · rw [hdcd2_ne q hqn] at hflag
      obtain ⟨r', hr', h1⟩ := h7 q hflag
      exact ⟨r', List.mem_append_left _ hr', h1⟩

/-- The invariant facts after one carried-delete skip step of the greedy
scan. -/
theorem carried_skip_step_inv (css : List (List Command))
    (hcanon : ∀ s ∈ css, is_set_canonical s = true)
    (hnn : ∀ s ∈ css, ∀ c ∈ s, c.is_null = false)
    (hlegal : ∀ s ∈ css, ∀ c ∈ s, c.before.legal = true ∧ c.after.legal = true)
    (href : check_refluent css = true)
    {done R' : List (Command × List Command)} {r : Command × List Command}
    (hsplit : add_up_pointers (from_set_union css) = done ++ r :: R')
    {dcd : List String → Bool} {prevM : List Command}
    (h4 : ∀ q : List String, (∃ r' ∈ done, r'.1.node.path = q) → dcd q = false →
      ∃ e ∈ prevM, e.node.path = q ∧ e.after.is_dir = true)
    (h5 : ∀ q : List String, (∃ r' ∈ done, r'.1.node.path = q) →
      ∀ f_ ∈ from_set_union css, f_.node.path = q → f_.after.is_empty = true →
        f_ ∈ prevM)
    (h6 : ∀ q : List String, (∃ r' ∈ done, r'.1.node.path = q) → dcd q = true →
      (∀ d ∈ from_set_union css, d.node.path = q → d.before.is_dir = true) →
      ∃ e ∈ prevM, e.node.path = q ∧ e.after.is_dir = false)
    (h7 : ∀ q : List String, dcd q = true → ∃ r' ∈ done, r'.1.node.path = q)
    {u : Command} (hu : up_of r = some u)
    (ha : r.1.after.is_empty = false) :
    (∀ q : List String, (∃ r' ∈ done ++ [r], r'.1.node.path = q) →
        set_flag dcd r.1.node.path true q = false →
        ∃ e ∈ prevM, e.node.path = q ∧ e.after.is_dir = true)
    ∧ (∀ q : List String, (∃ r' ∈ done ++ [r], r'.1.node.path = q) →
        ∀ f_ ∈ from_set_union css, f_.node.path = q → f_.after.is_empty = true →
          f_ ∈ prevM)
    ∧ (∀ q : List String, (∃ r' ∈ done ++ [r], r'.1.node.path = q) →
        set_flag dcd r.1.node.path true q = true →
        (∀ d ∈ from_set_union css, d.node.path = q → d.before.is_dir = true) →
        ∃ e ∈ prevM, e.node.path = q ∧ e.after.is_dir = false)
    ∧ (∀ q : List String, set_flag dcd r.1.node.path true q = true →
        ∃ r' ∈ done ++ [r], r'.1.node.path = q) := by
  refine ⟨?_, ?_, ?_, ?_⟩
  · intro q hq hflag
    by_cases hqn : q = r.1.node.path
    · rw [hqn, set_flag_eval] at hflag
      simp at hflag
    · rw [set_flag_eval, if_neg hqn] at hflag
      exact h4 q (done_entry_weaken hq (fun hp => absurd hp.symm hqn)) hflag
  · intro q hq f_ hf hfp hfe
    obtain ⟨r', hr', hpath⟩ := hq
    rcases List.mem_append.mp hr' with hrd | hrr
    · exact h5 q ⟨r', hrd, hpath⟩ f_ hf hfp hfe
    · rcases List.mem_cons.mp hrr with h' | h'
      · have hq' : q = r.1.node.path := by rw [← hpath, h']
        have hfr : f_ ≠ r.1 := by
          intro heq
          rw [heq] at hfe
          rw [hfe] at ha
          cases ha
        have hmem : f_ ∈ done.map Prod.fst :=
          empty_after_in_prefix css hnn hlegal href hsplit hf
            (by rw [hfp, hq']) hfe hfr
        obtain ⟨rf, hrf, hrf1⟩ := List.mem_map.mp hmem
        exact h5 q ⟨rf, hrf, by rw [hrf1, hfp]⟩ f_ hf hfp hfe
      · exact absurd h' (List.not_mem_nil r')
  · intro q hq hflag hdirs
    by_cases hqn : q = r.1.node.path
    · have hp1U := (union_split_fst_mem css hsplit).1
      have hbdir : r.1.before.is_dir = true := hdirs r.1 hp1U hqn.symm
      have hbne : r.1.before.is_empty = false := dir_not_empty hbdir
      obtain ⟨_, f_, hfU, hfpath, hfe, _⟩ :=
        carried_core css hcanon href hsplit hu hbne
      have hfr : f_ ≠ r.1 := by
        intro heq
        rw [heq] at hfe
        rw [hfe] at ha
        cases ha
      have hmem : f_ ∈ done.map Prod.fst :=
        empty_after_in_prefix css hnn hlegal href hsplit hfU hfpath hfe hfr
      obtain ⟨rf, hrf, hrf1⟩ := List.mem_map.mp hmem
      have hfprev : f_ ∈ prevM :=
        h5 q ⟨rf, hrf, by rw [hrf1, hfpath]; exact hqn.symm⟩ f_ hfU
          (by rw [hfpath]; exact hqn.symm) hfe
      exact ⟨f_, hfprev, by rw [hfpath]; exact hqn.symm, empty_not_dir hfe⟩
    · rw [set_flag_eval, if_neg hqn] at hflag
      exact h6 q (done_entry_weaken hq (fun hp => absurd hp.symm hqn)) hflag hdirs
  · intro q hflag
    by_cases hqn : q = r.1.node.path
    · exact ⟨r, List.mem_append_right _ (List.mem_cons_self _ _), hqn.symm⟩
    · rw [set_flag_eval, if_neg hqn] at hflag
      obtain ⟨r', hr', h1⟩ := h7 q hflag
      exact ⟨r', List.mem_append_left _ hr', h1⟩

/-- The main invariant of the greedy scan: from any reachable state, the
commands it emits extend the already-emitted ones to a strictly
node-sorted list drawn from the remaining union, and every emitted command
with an ancestor command in the union has an emitted parent command
forming a valid constructor or destructor pair with it. -/
theorem greedy_loop_invariant (css : List (List Command))
    (hcanon : ∀ s ∈ css, is_set_canonical s = true)
    (hnn : ∀ s ∈ css, ∀ c ∈ s, c.is_null = false)
    (hlegal : ∀ s ∈ css, ∀ c ∈ s, c.before.legal = true ∧ c.after.legal = true)
    (href : check_refluent css = true) :
    ∀ (R done : List (Command × List Command)) (del : Option Node)
      (dcd : List String → Bool) (prevM : List Command),
      add_up_pointers (from_set_union css) = done ++ R →
      del = prevM.getLast?.map (fun c => c.node) →
      prevM.Sublist (done.map Prod.fst) →
      prevM.Pairwise nodeLtStrict →
      (∀ q : List String, (∃ r' ∈ done, r'.1.node.path = q) → dcd q = false →
        ∃ e ∈ prevM, e.node.path = q ∧ e.after.is_dir = true) →
      (∀ q : List String, (∃ r' ∈ done, r'.1.node.path = q) →
        ∀ f_ ∈ from_set_union css, f_.node.path = q → f_.after.is_empty = true →
          f_ ∈ prevM) →
      (∀ q : List String, (∃ r' ∈ done, r'.1.node.path = q) → dcd q = true →
        (∀ d ∈ from_set_union css, d.node.path = q → d.before.is_dir = true) →
        ∃ e ∈ prevM, e.node.path = q ∧ e.after.is_dir = false) →
      (∀ q : List String, dcd q = true → ∃ r' ∈ done, r'.1.node.path = q) →
      ((prevM ++ greedy_loop del dcd R).Pairwise nodeLtStrict
        ∧ (∀ c ∈ greedy_loop del dcd R, ∃ r' ∈ R, r'.1 = c)
        ∧ (∀ c ∈ greedy_loop del dcd R,
            (∃ d ∈ from_set_union css, d.node.is_ancestor_of c.node = true) →
            ∃ e ∈ prevM ++ greedy_loop del dcd R,
              e.node.path = c.node.path.dropLast ∧
              (e.is_constructor_pair_with_next c ||
                c.is_destructor_pair_with_next e) = true)) := by
  intro R
  induction R with
  | nil =>
    intro done del dcd prevM hsplit hdel hsub hpair h4 h5 h6 h7
    rw [greedy_loop_nil]
    refine ⟨by simpa using hpair, ?_, ?_⟩
    · intro c hc
      exact absurd hc (List.not_mem_nil c)
    · intro c hc
      exact absurd hc (List.not_mem_nil c)
  | cons r R' ih =>
    intro done del dcd prevM hsplit hdel hsub hpair h4 h5 h6 h7
    have hsplit' : add_up_pointers (from_set_union css) = (done ++ [r]) ++ R' := by
      rw [hsplit, List.append_assoc]
      rfl
    by_cases hds : del_same del r.1.node = true
    · -- skipped by delete_on_node
      rw [greedy_loop_cons_del del dcd r R' hds]
      have hdone_r : ∃ r' ∈ done, r'.1.node.path = r.1.node.path := by
        cases hlast : prevM.getLast? with
        | none =>
          rw [hlast] at hdel
          simp only [Option.map_none'] at hdel
          rw [hdel] at hds
          simp [del_same] at hds
        | some lc =>
          have hlcmem : lc ∈ prevM := List.mem_of_mem_getLast? hlast
          have hnodeeq : r.1.node = lc.node := by
            rw [hdel, hlast] at hds
            simp only [Option.map_some'] at hds
            exact (node_equals_iff _ _).mp (by simpa [del_same] using hds)
          have hlcdone : lc ∈ done.map Prod.fst := hsub.subset hlcmem
          obtain ⟨r', hr', hr'1⟩ := List.mem_map.mp hlcdone
          exact ⟨r', hr', by rw [hr'1, hnodeeq]⟩
      have hcov : ∀ q : List String, r.1.node.path = q →
          ∃ r' ∈ done, r'.1.node.path = q := fun q hp => hp ▸ hdone_r
      obtain ⟨g1, g2, g3⟩ := ih (done ++ [r]) del dcd prevM hsplit' hdel
        (hsub.trans (by rw [List.map_append]; exact List.sublist_append_left _ _))
        hpair
        (fun q hq hdcd => h4 q (done_entry_weaken hq (hcov q)) hdcd)
        (fun q hq => h5 q (done_entry_weaken hq (hcov q)))
        (fun q hq hdcd hdirs => h6 q (done_entry_weaken hq (hcov q)) hdcd hdirs)
        (fun q hdcd => by
          obtain ⟨r', hr', hp⟩ := h7 q hdcd
          exact ⟨r', List.mem_append_left _ hr', hp⟩)
      refine ⟨g1, ?_, g3⟩
      intro c hc
      obtain ⟨r', hr', h1⟩ := g2 c hc
      exact ⟨r', List.mem_cons_of_mem _ hr', h1⟩
    · have hds' : del_same del r.1.node = false := Bool.eq_false_iff.mpr hds
      cases hu : up_of r with
      | none =>
        rw [greedy_loop_cons_emit_up_none del dcd r R' hds' hu]
        have hne2 : ∀ q, q ≠ r.1.node.path →
            (if r.1.after.is_dir then dcd
              else set_flag dcd r.1.node.path true) q = dcd q := by
          intro q hq
          by_cases hd : r.1.after.is_dir = true
          · rw [if_pos hd]
          · rw [if_neg hd, set_flag_eval, if_neg hq]
        have hatf2 : (if r.1.after.is_dir then dcd
            else set_flag dcd r.1.node.path true) r.1.node.path = false →
            dcd r.1.node.path = false ∧ r.1.after.is_dir = true := by
          intro h
          by_cases hd : r.1.after.is_dir = true
          · rw [if_pos hd] at h
            exact ⟨h, hd⟩
          · rw [if_neg hd, set_flag_eval, if_pos rfl] at h
            cases h
        have hatt2 : (if r.1.after.is_dir then dcd
            else set_flag dcd r.1.node.path true) r.1.node.path = true →
            r.1.after.is_dir = false ∨ dcd r.1.node.path = true := by
          intro h
          by_cases hd : r.1.after.is_dir = true
          · rw [if_pos hd] at h
            exact Or.inr h
          · exact Or.inl (Bool.eq_false_iff.mpr hd)
        obtain ⟨i1, i2, i3, i4, i5, i6, i7⟩ := emission_step_inv css hnn hlegal
          href hsplit hdel hsub hpair h4 h5 h6 h7 hds' hne2 hatf2 hatt2
        obtain ⟨g1, g2, g3⟩ := ih (done ++ [r]) (some r.1.node)
          (if r.1.after.is_dir then dcd else set_flag dcd r.1.node.path true)
          (prevM ++ [r.1]) hsplit' i1 i2 i3 i4 i5 i6 i7
        have hlisteq : (prevM ++ [r.1]) ++ greedy_loop (some r.1.node)
            (if r.1.after.is_dir then dcd else set_flag dcd r.1.node.path true)
            R' = prevM ++ r.1 :: greedy_loop (some r.1.node)
            (if r.1.after.is_dir then dcd else set_flag dcd r.1.node.path true)
            R' := by
          rw [List.append_assoc]
          rfl
        refine ⟨?_, ?_, ?_⟩
        · rw [← hlisteq]
          exact g1
        · intro c hc
          rcases List.mem_cons.mp hc with h' | h'
          · exact ⟨r, List.mem_cons_self _ _, h'.symm⟩
          · obtain ⟨r', hr', h1⟩ := g2 c h'
            exact ⟨r', List.mem_cons_of_mem _ hr', h1⟩
        · intro c hc hanc
          rcases List.mem_cons.mp hc with h' | h'
          · exfalso
            obtain ⟨d, hd, hdanc⟩ := hanc
            rw [h'] at hdanc
            obtain ⟨u', hu'⟩ :=
              up_of_split_exists (union_pairwise_le css) hsplit hd hdanc
            rw [hu] at hu'
            cases hu'
          · obtain ⟨e, he, h1, h2⟩ := g3 c h' hanc
            rw [← hlisteq]
            exact ⟨e, he, h1, h2⟩
      | some u =>
        rcases Bool.eq_false_or_eq_true (dcd u.node.path) with hcar | hcar
        · -- carried: parent flagged with delete_conflicts_down
          rcases Bool.eq_false_or_eq_true (r.1.after.is_empty) with hae | hae
          · -- output value Empty: the command is still emitted
            rw [greedy_loop_cons_emit_carried del dcd r R' hds' hu hcar hae]
            have hne2 : ∀ q, q ≠ r.1.node.path →
                set_flag (set_flag dcd r.1.node.path true) r.1.node.path true q =
                  dcd q := by
              intro q hq
              rw [set_flag_eval, if_neg hq, set_flag_eval, if_neg hq]
            have hatf2 : set_flag (set_flag dcd r.1.node.path true)
                r.1.node.path true r.1.node.path = false →
                dcd r.1.node.path = false ∧ r.1.after.is_dir = true := by
              intro h
              rw [set_flag_eval, if_pos rfl] at h
              cases h
            have hatt2 : set_flag (set_flag dcd r.1.node.path true)
                r.1.node.path true r.1.node.path = true →
                r.1.after.is_dir = false ∨ dcd r.1.node.path = true :=
              fun _ => Or.inl (empty_not_dir hae)
            obtain ⟨i1, i2, i3, i4, i5, i6, i7⟩ := emission_step_inv css hnn
              hlegal href hsplit hdel hsub hpair h4 h5 h6 h7 hds' hne2 hatf2 hatt2
            obtain ⟨g1, g2, g3⟩ := ih (done ++ [r]) (some r.1.node)
              (set_flag (set_flag dcd r.1.node.path true) r.1.node.path true)
              (prevM ++ [r.1]) hsplit' i1 i2 i3 i4 i5 i6 i7
            have hlisteq : (prevM ++ [r.1]) ++ greedy_loop (some r.1.node)
                (set_flag (set_flag dcd r.1.node.path true) r.1.node.path true)
                R' = prevM ++ r.1 :: greedy_loop (some r.1.node)
                (set_flag (set_flag dcd r.1.node.path true) r.1.node.path true)
                R' := by
              rw [List.append_assoc]
              rfl
            refine ⟨?_, ?_, ?_⟩
            · rw [← hlisteq]
              exact g1
            · intro c hc
              rcases List.mem_cons.mp hc with h' | h'
              · exact ⟨r, List.mem_cons_self _ _, h'.symm⟩
              · obtain ⟨r', hr', h1⟩ := g2 c h'
                exact ⟨r', List.mem_cons_of_mem _ hr', h1⟩
            · intro c hc hanc
              rcases List.mem_cons.mp hc with h' | h'
              · subst h'
                obtain ⟨hpmem, hp1U, huU, hus, hpar, hnonnil⟩ :=
                  up_context css href hsplit hu
                obtain ⟨ru, hru, hru1⟩ := List.mem_map.mp hus
                obtain ⟨hpnn, hpbl, hpal⟩ :=
                  union_cmd_facts css hnn hlegal r.1 hp1U
                obtain ⟨hbne, _⟩ := empty_after_destructor hpnn hpbl hpal hae
                obtain ⟨hubdir, _⟩ := carried_core css hcanon href hsplit hu hbne
                have hdirs : ∀ d' ∈ from_set_union css,
                    d'.node.path = u.node.path → d'.before.is_dir = true := by
                  intro d' hd' hdp'
                  have hbe : d'.before = u.before :=
                    same_node_same_before css href d' hd' u huU
                      (Node.path_inj hdp')
                  rw [hbe]
                  exact hubdir
                obtain ⟨e, hemem, hepath, hedir⟩ :=
                  h6 u.node.path ⟨ru, hru, by rw [hru1]⟩ hcar hdirs
                have heU : e ∈ from_set_union css :=
                  (union_split_fst_mem css hsplit).2 e (hsub.subset hemem)
                obtain ⟨hp1, hp2⟩ := greedy_pair_destructor css hcanon hnn
                  hlegal href hsplit hu hae heU hepath hedir
                exact ⟨e, List.mem_append_left _ hemem, hp1, hp2⟩
              · obtain ⟨e, he, h1, h2⟩ := g3 c h' hanc
                rw [← hlisteq]
                exact ⟨e, he, h1, h2⟩
          · -- output value not Empty: skipped, conflict carried down
            rw [greedy_loop_cons_carried_skip del dcd r R' hds' hu hcar hae]
            obtain ⟨j4, j5, j6, j7⟩ := carried_skip_step_inv css hcanon hnn
              hlegal href hsplit h4 h5 h6 h7 hu hae
            obtain ⟨g1, g2, g3⟩ := ih (done ++ [r]) del
              (set_flag dcd r.1.node.path true) prevM hsplit' hdel
              (hsub.trans
                (by rw [List.map_append]; exact List.sublist_append_left _ _))
              hpair j4 j5 j6 j7
            refine ⟨g1, ?_, g3⟩
            intro c hc
            obtain ⟨r', hr', h1⟩ := g2 c hc
            exact ⟨r', List.mem_cons_of_mem _ hr', h1⟩
        · -- not carried: the command is emitted
          rw [greedy_loop_cons_emit_not_carried del dcd r R' hds' hu hcar]
          have hne2 : ∀ q, q ≠ r.1.node.path →
              (if r.1.after.is_dir then dcd
                else set_flag dcd r.1.node.path true) q = dcd q := by
            intro q hq
            by_cases hd : r.1.after.is_dir = true
            · rw [if_pos hd]
            · rw [if_neg hd, set_flag_eval, if_neg hq]
          have hatf2 : (if r.1.after.is_dir then dcd
              else set_flag dcd r.1.node.path true) r.1.node.path = false →
              dcd r.1.node.path = false ∧ r.1.after.is_dir = true := by
            intro h
            by_cases hd : r.1.after.is_dir = true
            · rw [if_pos hd] at h
              exact ⟨h, hd⟩
            · rw [if_neg hd, set_flag_eval, if_pos rfl] at h
              cases h
          have hatt2 : (if r.1.after.is_dir then dcd
              else set_flag dcd r.1.node.path true) r.1.node.path = true →
              r.1.after.is_dir = false ∨ dcd r.1.node.path = true := by
            intro h
            by_cases hd : r.1.after.is_dir = true
            · rw [if_pos hd] at h
              exact Or.inr h
            · exact Or.inl (Bool.eq_false_iff.mpr hd)
          obtain ⟨i1, i2, i3, i4, i5, i6, i7⟩ := emission_step_inv css hnn
            hlegal href hsplit hdel hsub hpair h4 h5 h6 h7 hds' hne2 hatf2 hatt2
          obtain ⟨g1, g2, g3⟩ := ih (done ++ [r]) (some r.1.node)
            (if r.1.after.is_dir then dcd else set_flag dcd r.1.node.path true)
            (prevM ++ [r.1]) hsplit' i1 i2 i3 i4 i5 i6 i7
          have hlisteq : (prevM ++ [r.1]) ++ greedy_loop (some r.1.node)
              (if r.1.after.is_dir then dcd else set_flag dcd r.1.node.path true)
              R' = prevM ++ r.1 :: greedy_loop (some r.1.node)
              (if r.1.after.is_dir then dcd else set_flag dcd r.1.node.path true)
              R' := by
            rw [List.append_assoc]
            rfl
          refine ⟨?_, ?_, ?_⟩
          · rw [← hlisteq]
            exact g1
          · intro c hc
            rcases List.mem_cons.mp hc with h' | h'
            · exact ⟨r, List.mem_cons_self _ _, h'.symm⟩
            · obtain ⟨r', hr', h1⟩ := g2 c h'
              exact ⟨r', List.mem_cons_of_mem _ hr', h1⟩
          · intro c hc hanc
            rcases List.mem_cons.mp hc with h' | h'
            · subst h'
              obtain ⟨hpmem, hp1U, huU, hus, hpar, hnonnil⟩ :=
                up_context css href hsplit hu
              obtain ⟨ru, hru, hru1⟩ := List.mem_map.mp hus
              obtain ⟨e, hemem, hepath, hedir⟩ :=
                h4 u.node.path ⟨ru, hru, by rw [hru1]⟩ hcar
              have heU : e ∈ from_set_union css :=
                (union_split_fst_mem css hsplit).2 e (hsub.subset hemem)
              obtain ⟨hp1, hp2⟩ := greedy_pair_constructor css hcanon hnn
                hlegal href hsplit hu heU hepath hedir
              exact ⟨e, List.mem_append_left _ hemem, hp1, hp2⟩
            · obtain ⟨e, he, h1, h2⟩ := g3 c h' hanc
              rw [← hlisteq]
              exact ⟨e, he, h1, h2⟩

/-- The output facts of `get_greedy_merger` at the initial state. -/
theorem get_greedy_merger_facts (css : List (List Command))
    (hcanon : ∀ s ∈ css, is_set_canonical s = true)
    (hnn : ∀ s ∈ css, ∀ c ∈ s, c.is_null = false)
    (hlegal : ∀ s ∈ css, ∀ c ∈ s, c.before.legal = true ∧ c.after.legal = true)
    (href : check_refluent css = true) :
    (get_greedy_merger css).Pairwise nodeLtStrict
    ∧ (∀ c ∈ get_greedy_merger css, c ∈ from_set_union css)
    ∧ (∀ c ∈ get_greedy_merger css,
        (∃ d ∈ from_set_union css, d.node.is_ancestor_of c.node = true) →
        ∃ e ∈ get_greedy_merger css, e.node.path = c.node.path.dropLast ∧
          (e.is_constructor_pair_with_next c ||
            c.is_destructor_pair_with_next e) = true) := by
  obtain ⟨g1, g2, g3⟩ := greedy_loop_invariant css hcanon hnn hlegal href
    (add_up_pointers (from_set_union css)) [] none (fun _ => false) []
    rfl rfl (List.nil_sublist _) List.Pairwise.nil
    (fun q hq _ => by
      obtain ⟨r', hr', _⟩ := hq
      exact absurd hr' (List.not_mem_nil r'))
    (fun q hq => by
      obtain ⟨r', hr', _⟩ := hq
      exact absurd hr' (List.not_mem_nil r'))
    (fun q hq _ _ => by
      obtain ⟨r', hr', _⟩ := hq
      exact absurd hr' (List.not_mem_nil r'))
    (fun q hf => by simp at hf)
  refine ⟨by simpa using g1, ?_, ?_⟩
  · intro c hc
    obtain ⟨r', hr', h1⟩ := g2 c hc
    have hmm : r'.1 ∈ (add_up_pointers (from_set_union css)).map Prod.fst :=
      List.mem_map_of_mem Prod.fst hr'
    rw [show (add_up_pointers (from_set_union css)).map Prod.fst =
      from_set_union css from add_up_aux_fst [] _] at hmm
    rw [← h1]
    exact hmm
  · intro c hc hanc
    obtain ⟨e, he, h1, h2⟩ := g3 c hc hanc
    exact ⟨e, by simpa using he, h1, h2⟩

theorem order_by_node_eq_self {l : List Command} (h : l.Pairwise nodeSortLe) :
    order_by_node l = l := List.Sorted.insertionSort_eq h

/-- The canonicity of the greedy merger's output. -/
theorem get_greedy_merger_canonical_core (css : List (List Command))
    (hcanon : ∀ s ∈ css, is_set_canonical s = true)
    (hnn : ∀ s ∈ css, ∀ c ∈ s, c.is_null = false)
    (hlegal : ∀ s ∈ css, ∀ c ∈ s, c.before.legal = true ∧ c.after.legal = true)
    (href : check_refluent css = true) :
    is_set_canonical (get_greedy_merger css) = true := by
  obtain ⟨hstrict, hsubU, hK⟩ :=
    get_greedy_merger_facts css hcanon hnn hlegal href
  have hle : (get_greedy_merger css).Pairwise nodeSortLe :=
    pairwise_le_of_strict hstrict
  rw [is_set_canonical]
  rw [show order_by_node (from_set (get_greedy_merger css)) =
      get_greedy_merger css from order_by_node_eq_self hle]
  rw [canonical_scan_iff]
  refine ⟨fun x _ => rfl, ?_, ?_⟩
  · have hmapfst : (add_up_pointers (get_greedy_merger css)).map Prod.fst =
        get_greedy_merger css := add_up_aux_fst [] _
    have hpairpairs : (add_up_pointers (get_greedy_merger css)).Pairwise
        (fun p q => nodeLtStrict p.1 q.1) := by
      rw [← hmapfst] at hstrict
      exact List.pairwise_map.mp hstrict
    have hne : (add_up_pointers (get_greedy_merger css)).Pairwise
        (fun p q => p.1.node ≠ q.1.node) := by
      refine hpairpairs.imp ?_
      intro a b hab heq
      rw [nodeLtStrict, heq] at hab
      rw [pathLt_irrefl] at hab
      cases hab
    exact hne.chain'
  · intro p hp u' hu'
    obtain ⟨s, t, hsplitp⟩ := List.append_of_mem hp
    obtain ⟨hus, huanc⟩ := up_of_split_some hle hsplitp hu'
    have hu'M : u' ∈ get_greedy_merger css := by
      obtain ⟨hfst, _⟩ := up_of_at_split hle hsplitp
      rw [hfst]
      exact List.mem_append_left _ hus
    have hp1M : p.1 ∈ get_greedy_merger css := by
      obtain ⟨hfst, _⟩ := up_of_at_split hle hsplitp
      rw [hfst]
      exact List.mem_append_right _ (List.mem_cons_self _ _)
    have hanc : ∃ d ∈ from_set_union css,
        d.node.is_ancestor_of p.1.node = true := ⟨u', hsubU u' hu'M, huanc⟩
    obtain ⟨e, heM, hepath, hpair⟩ := hK p.1 hp1M hanc
    have hnonnil : p.1.node.path ≠ [] := by
      obtain ⟨hpre, hnep⟩ := (Node.is_ancestor_iff _ _).mp huanc
      intro h0
      rw [h0] at hpre
      exact hnep (by rw [List.prefix_nil.mp hpre, h0])
    have hupe : up_of p = some e :=
      up_of_parent_split hstrict hsplitp heM hepath hnonnil
    have h12 : (some u' : Option Command) = some e := by
      rw [← hu']
      exact hupe
    obtain rfl : u' = e := Option.some_inj.mp h12
    exact hpair

/-- C3: for every list of jointly refluent canonical command sets — each
input passes `is_set_canonical`, consists of non-null commands over legal
spec-4.1 values, and `check_refluent` accepts the list — `get_greedy_merger`
returns a sequence whose underlying set of commands is a canonical command
set: it passes `is_set_canonical` and all of its commands are non-null. -/
theorem get_greedy_merger_canonical (css : List (List Command))
    (hcanon : ∀ s ∈ css, is_set_canonical s = true)
    (hnn : ∀ s ∈ css, ∀ c ∈ s, c.is_null = false)
    (hlegal : ∀ s ∈ css, ∀ c ∈ s, c.before.legal = true ∧ c.after.legal = true)
    (href : check_refluent css = true) :
    is_set_canonical (get_greedy_merger css) = true
    ∧ ∀ c ∈ get_greedy_merger css, c.is_null = false := by
  refine ⟨get_greedy_merger_canonical_core css hcanon hnn hlegal href, ?_⟩
  intro c hc
  exact (union_cmd_facts css hnn hlegal c
    ((get_greedy_merger_facts css hcanon hnn hlegal href).2.1 c hc)).1

/-- Witness for C3 at a concrete pair of canonical, jointly refluent sets:
one replica deletes the directory `a`, the other creates the file `a/b`
under it; the greedy merger keeps the deletion and drops the conflicting
creation, and its output is again canonical. -/
theorem get_greedy_merger_canonical_witness :
    (∀ s ∈ [[(⟨⟨["a"]⟩, ⟨102, ""⟩, ⟨100, ""⟩⟩ : Command)],
        [⟨⟨["a", "b"]⟩, ⟨100, ""⟩, ⟨101, "f"⟩⟩]],
      is_set_canonical s = true)
    ∧ (∀ s ∈ [[(⟨⟨["a"]⟩, ⟨102, ""⟩, ⟨100, ""⟩⟩ : Command)],
        [⟨⟨["a", "b"]⟩, ⟨100, ""⟩, ⟨101, "f"⟩⟩]],
      ∀ c ∈ s, c.is_null = false)
    ∧ (∀ s ∈ [[(⟨⟨["a"]⟩, ⟨102, ""⟩, ⟨100, ""⟩⟩ : Command)],
        [⟨⟨["a", "b"]⟩, ⟨100, ""⟩, ⟨101, "f"⟩⟩]],
      ∀ c ∈ s, c.before.legal = true ∧ c.after.legal = true)
    ∧ check_refluent [[(⟨⟨["a"]⟩, ⟨102, ""⟩, ⟨100, ""⟩⟩ : Command)],
        [⟨⟨["a", "b"]⟩, ⟨100, ""⟩, ⟨101, "f"⟩⟩]] = true
    ∧ (is_set_canonical (get_greedy_merger
          [[(⟨⟨["a"]⟩, ⟨102, ""⟩, ⟨100, ""⟩⟩ : Command)],
            [⟨⟨["a", "b"]⟩, ⟨100, ""⟩, ⟨101, "f"⟩⟩]]) = true
        ∧ ∀ c ∈ get_greedy_merger
            [[(⟨⟨["a"]⟩, ⟨102, ""⟩, ⟨100, ""⟩⟩ : Command)],
              [⟨⟨["a", "b"]⟩, ⟨100, ""⟩, ⟨101, "f"⟩⟩]],
          c.is_null = false) :=
  ⟨by decide, by decide, by decide, by decide,
    get_greedy_merger_canonical _ (by decide) (by decide) (by decide) (by decide)⟩

end AlgRec
